import Mathlib

/-!
# weave: schema-migration registry

A verification development for `migration/register.go` of the weave repository, and
for the layered key-value store of package `store` as the specification describes it.

The Go code mutates objects in place through pointers.  The embedding makes the
state explicit: an object is a record holding the address stored in its
`Metadata` field, the metadata records by address, and the remaining fields.
A migrator is a state transformer that also reports an error or `nil`.
Unsigned 32-bit arithmetic is carried out on `Nat` with an explicit
`% 2 ^ 32`.
-/

namespace weave

/-- Modelled from the spec: the error kinds of package `errors`, which is not part of the
sources at hand.  Only the identity of a kind matters (`errors.ErrX.Is(err)`). -/
inductive ErrKind
  | ErrNotFound
  | ErrDuplicate
  | ErrSchema
  | ErrInput
  | ErrInvalidInput
  | ErrModel
  | ErrType
  | ErrEmpty
  | ErrHuman
  | ErrIteratorDone
  | ErrInvalidState
  | ErrMetadata
  deriving DecidableEq, Repr

/-- An argument of a formatted error description. -/
inductive FmtArg
  | num (n : Nat)
  | str (s : String)
  deriving DecidableEq, Repr

/-- Modelled from the spec: an error value of package `errors`: the kind of the root error
and the descriptions wrapped around it, outermost first. -/
structure Error where
  kind : ErrKind
  trace : List (String × List FmtArg)
  deriving DecidableEq, Repr

/-- Modelled from the spec: a root error of the given kind (`errors.ErrSchema`, ...). -/
def errors.root (k : ErrKind) : Error := ⟨k, []⟩

/-- Modelled from the spec: `errors.Wrap(err, description)` keeps the kind of `err` and
adds a description. -/
def errors.Wrap (err : Error) (description : String) : Error :=
  { err with trace := (description, []) :: err.trace }

/-- Modelled from the spec: `errors.Wrapf(err, format, args...)` keeps the kind of `err`
and adds a formatted description. -/
def errors.Wrapf (err : Error) (format : String) (args : List FmtArg) : Error :=
  { err with trace := (format, args) :: err.trace }

/-- Modelled from the spec: `ErrX.Is(err)`, true when `err` is `ErrX` or wraps it. -/
def ErrKind.Is (k : ErrKind) (err : Option Error) : Bool :=
  match err with
  | none => false
  | some e => decide (e.kind = k)

/-- The number of values of a `uint32`. -/
def uint32Size : Nat := 2 ^ 32

/-- The record `weave.Metadata`: its only field is the schema version (a `uint32`). -/
structure Metadata where
  Schema : Nat
  deriving DecidableEq, Repr

/-- Modelled from the spec: `(*weave.Metadata).Validate`, whose source is not at hand.
The minimum valid schema version is 1; a nil receiver is rejected as well (`Apply`
dereferences the pointer right after a successful validation). -/
def Metadata.Validate : Option Metadata → Option Error
  | none => some (errors.Wrap (errors.root ErrKind.ErrMetadata) "no metadata")
  | some m =>
    if m.Schema < 1 then
      some (errors.Wrap (errors.root ErrKind.ErrMetadata) "schema version less than 1")
    else none

/-- Modelled from the spec: `weave.ReadOnlyKVStore`, the read-only store handed to
migrators.  `Apply` only passes it on. -/
structure ReadOnlyKVStore where
  Get : List Nat → Option (List Nat)

end weave

namespace migration

open weave

/-- The type `reflect.Type`: the identity of a payload type. -/
abbrev ReflectType := String

/-- The state of an object behind the `Migratable` interface, with the part of the heap
that `Apply` touches.
* `Metadata` is the content of the object's `Metadata` field: `none` for nil, otherwise
  the address of a metadata record;
* `records` gives the metadata record stored at each address;
* `payload` holds the other fields of the object. -/
structure Obj (β : Type) where
  Metadata : Option Nat
  records : Nat → weave.Metadata
  payload : β

/-- The method `GetMetadata`, generated for every message that has a metadata field: it
returns that field. -/
def Obj.GetMetadata {β : Type} (m : Obj β) : Option Nat := m.Metadata

/-- The record behind a metadata pointer, `none` for the nil pointer. -/
def Obj.load {β : Type} (m : Obj β) (p : Option Nat) : Option weave.Metadata :=
  p.map m.records

/-- The value `m.Metadata.Schema` as a reader of the object sees it (`none` when the
`Metadata` field is nil). -/
def Obj.Schema {β : Type} (m : Obj β) : Option Nat :=
  (m.load m.Metadata).map (fun md => md.Schema)

/-- The assignment `p.Schema = v` through a non-nil metadata pointer `p`. -/
def Obj.storeSchema {β : Type} (m : Obj β) (p : Nat) (v : Nat) : Obj β :=
  { m with records := Function.update m.records p ⟨v⟩ }

/-- The interface `Migratable` as seen by the registry: the dynamic type of the value
(`reflect.TypeOf`) and its `Validate` method.  Both are fixed for the lifetime of the
value, and `Validate` reports on the object without changing it; `GetMetadata` is
`Obj.GetMetadata`. -/
structure Migratable (β : Type) where
  typ : ReflectType
  Validate : Obj β → Option Error

/-- The type `Migrator`: a function that migrates an entity in place.  It returns the
mutated entity together with its error result (`none` for nil). -/
abbrev Migrator (β : Type) := ReadOnlyKVStore → Obj β → Obj β × Option Error

/-- The migrator `NoModification`. -/
def NoModification {β : Type} : Migrator β :=
  fun _ m => (m, none)

/-- The migrator `RefuseMigration`. -/
def RefuseMigration {β : Type} : Migrator β :=
  fun _ m => (m, some (errors.Wrap (errors.root ErrKind.ErrSchema)
    "no migration path from given schema version"))

/-- The key type `payloadVersion`: a message or a model at a given schema version. -/
structure payloadVersion where
  payload : ReflectType
  version : Nat
  deriving DecidableEq, Repr

/-- The type `register`: the map from `payloadVersion` to `Migrator`. -/
structure register (β : Type) where
  migrateTo : payloadVersion → Option (Migrator β)

/-- The constructor `newRegister`: an empty map. -/
def newRegister {β : Type} : register β :=
  ⟨fun _ => none⟩

/-- The method `register.Register`.  `tp` stands for `reflect.TypeOf(msgOrModel)`, the
only use the method makes of that argument.  Returns the register after the call and
the error result. -/
def register.Register {β : Type} (r : register β) (migrationTo : Nat) (tp : ReflectType)
    (fn : Migrator β) : register β × Option Error :=
  if migrationTo < 1 then
    (r, some (errors.Wrap (errors.root ErrKind.ErrInput) "minimal allowed version is 1"))
  else if migrationTo > 1 ∧ (r.migrateTo ⟨tp, migrationTo - 1⟩).isNone then
    (r, some (errors.Wrapf (errors.root ErrKind.ErrInput) "missing %d version migration"
      [FmtArg.num (migrationTo - 1)]))
  else if (r.migrateTo ⟨tp, migrationTo⟩).isSome then
    (r, some (errors.Wrapf (errors.root ErrKind.ErrDuplicate) "already registered: %s.%s:%d"
      [FmtArg.str tp, FmtArg.str tp, FmtArg.num migrationTo]))
  else
    (⟨Function.update r.migrateTo ⟨tp, migrationTo⟩ (some fn)⟩, none)

/-- What the loop of `Apply` leaves behind: the object, the versions whose migrator was
invoked (in order of invocation), and the error of an early `return` (`none` when the
loop ran to its end). -/
structure LoopExit (β : Type) where
  obj : Obj β
  invoked : List Nat
  err : Option Error

/-- The loop `for v := meta.Schema + 1; v <= migrateTo; v++` of `Apply`, entered with the
counter at `v`.  `p` is the pointer `meta` taken before the loop, `tp` the type taken
before the loop.  The counter is a `uint32`, so `v++` wraps around.  `fuel` bounds the
number of evaluations of the loop condition; `none` means the bound was reached. -/
def register.applyLoop {β : Type} (r : register β) (db : ReadOnlyKVStore) (tp : ReflectType)
    (p : Nat) (migrateTo : Nat) : Nat → Nat → Obj β → List Nat → Option (LoopExit β)
  | 0, _, _, _ => none
  | fuel + 1, v, m, log =>
    if v ≤ migrateTo then
      match r.migrateTo ⟨tp, v⟩ with
      | none =>
        some ⟨m, log, some (errors.Wrapf (errors.root ErrKind.ErrSchema)
          "migration to version %d missing" [FmtArg.num v])⟩
      | some migrate =>
        match migrate db m with
        | (m1, some err) =>
          some ⟨m1, log ++ [v], some (errors.Wrapf err "migration to version %d" [FmtArg.num v])⟩
        | (m1, none) =>
          register.applyLoop r db tp p migrateTo fuel ((v + 1) % uint32Size)
            (m1.storeSchema p v) (log ++ [v])
    else
      some ⟨m, log, none⟩

/-- The outcome of a call of `Apply`: the object as the call leaves it, the returned
error (`none` for nil), the versions whose migrator was invoked, in order, and whether
the object's `Validate` was called. -/
structure ApplyResult (β : Type) where
  obj : Obj β
  err : Option Error
  invoked : List Nat
  validated : Bool

/-- The method `register.Apply`.  `c` carries the dynamic type and the `Validate` method
of the interface value `m`.  The pointer `meta` is read once, before the loop; a nil
pointer is turned down by `meta.Validate()`.  The result is `none` when the loop did not
finish within `fuel` evaluations of its condition. -/
def register.Apply {β : Type} (r : register β) (db : ReadOnlyKVStore) (c : Migratable β)
    (m : Obj β) (migrateTo : Nat) (fuel : Nat) : Option (ApplyResult β) :=
  if migrateTo < 1 then
    some ⟨m, some (errors.Wrap (errors.root ErrKind.ErrInput) "minimal allowed version is 1"),
      [], false⟩
  else
    match m.GetMetadata with
    | none => some ⟨m, Metadata.Validate none, [], false⟩
    | some p =>
      match Metadata.Validate (some (m.records p)) with
      | some err => some ⟨m, some err, [], false⟩
      | none =>
        match register.applyLoop r db c.typ p migrateTo fuel
            (((m.records p).Schema + 1) % uint32Size) m [] with
        | none => none
        | some ⟨m1, log, some err⟩ => some ⟨m1, some err, log, false⟩
        | some ⟨m1, log, none⟩ =>
          match c.Validate m1 with
          | some err => some ⟨m1, some (errors.Wrap err "validation"), log, true⟩
          | none => some ⟨m1, none, log, true⟩

/-- The registers a program can build: `newRegister` followed by any number of calls of
`Register`, successful or not. -/
inductive register.Reachable {β : Type} : register β → Prop
  | new : register.Reachable newRegister
  | step (r : register β) (h : register.Reachable r) (migrationTo : Nat) (tp : ReflectType)
      (fn : Migrator β) : register.Reachable (r.Register migrationTo tp fn).1

/-- One pass of the loop body of `Apply` for version `v` when nothing goes wrong: the
migrator registered for `(tp, v)` runs and `p.Schema = v` follows.  `none` when the
migrator is missing or fails. -/
def register.migrateStep {β : Type} (r : register β) (db : ReadOnlyKVStore) (tp : ReflectType)
    (p : Nat) (m : Obj β) (v : Nat) : Option (Obj β) :=
  match r.migrateTo ⟨tp, v⟩ with
  | none => none
  | some migrate =>
    match migrate db m with
    | (_, some _) => none
    | (m1, none) => some (m1.storeSchema p v)

/-- The migration chain of the specification: the steps for the listed versions, applied
one after the other, each to the result of the one before.  `none` as soon as a migrator
is missing or fails. -/
def register.migrateChain {β : Type} (r : register β) (db : ReadOnlyKVStore) (tp : ReflectType)
    (p : Nat) : List Nat → Obj β → Option (Obj β)
  | [], m => some m
  | v :: vs, m =>
    match register.migrateStep r db tp p m v with
    | none => none
    | some m1 => register.migrateChain r db tp p vs m1

/-- The value an `int` computation leaves: Go integers wrap around, and `int` has 64 bits
on the platforms the tests run on. -/
def wrapInt (x : Int) : Int := (x + 2 ^ 63) % 2 ^ 64 - 2 ^ 63

/-- The payload of the test model `MyModel`: a counter (an `int`) and the error its
`Validate` and its migrator return. -/
structure MyModel where
  Cnt : Int
  err : Option Error
  deriving DecidableEq, Repr

/-- The method `MyModel.Validate` of the tests: the metadata must be valid, then the
stored error is returned. -/
def MyModel.Validate (m : Obj MyModel) : Option Error :=
  match Metadata.Validate (m.load m.Metadata) with
  | some err => some err
  | none => m.payload.err

/-- The interface value of a `*MyModel`. -/
def MyModel.iface : Migratable MyModel :=
  ⟨"migration.MyModel", MyModel.Validate⟩

/-- The version 2 migrator of the tests: `msg.Cnt += 2; return msg.err`. -/
def MyModel.addTwo : Migrator MyModel :=
  fun _ m => ({ m with payload := { m.payload with Cnt := wrapInt (m.payload.Cnt + 2) } },
    m.payload.err)

/-- The register of the tests: `NoModification` for version 1, `addTwo` for version 2. -/
def MyModel.reg : register MyModel :=
  ((newRegister.Register 1 "migration.MyModel" NoModification).1.Register 2
    "migration.MyModel" MyModel.addTwo).1

/-- A `MyModel` whose metadata record lives at address 0 and holds schema `s`. -/
def MyModel.mk0 (s : Nat) (cnt : Int) : Obj MyModel :=
  ⟨some 0, fun _ => ⟨s⟩, ⟨cnt, none⟩⟩

/-- An empty store. -/
def emptyStore : ReadOnlyKVStore := ⟨fun _ => none⟩

/-- The chain invariant: whatever is registered has a version of at least 1 and all its
predecessors down to version 1 registered for the same type. -/
def register.ChainComplete {β : Type} (r : register β) : Prop :=
  ∀ (tp : ReflectType) (N : Nat), (r.migrateTo ⟨tp, N⟩).isSome = true →
    1 ≤ N ∧ ∀ k, 1 ≤ k → k ≤ N → (r.migrateTo ⟨tp, k⟩).isSome = true

/-- The tail of `Apply` after its loop: an early `return` of the loop is passed on,
otherwise the object's `Validate` decides. -/
def Migratable.finish {β : Type} (c : Migratable β) (x : LoopExit β) : ApplyResult β :=
  match x.err with
  | some err => ⟨x.obj, some err, x.invoked, false⟩
  | none =>
    match c.Validate x.obj with
    | some err => ⟨x.obj, some (errors.Wrap err "validation"), x.invoked, true⟩
    | none => ⟨x.obj, none, x.invoked, true⟩

/-- A migrator that replaces the metadata of the object by a fresh record:
`msg.Metadata = &weave.Metadata{Schema: 1}; msg.Cnt += 2; return nil`.  The fresh
record is placed at the address after the one in use. -/
def MyModel.resetMetadata : Migrator MyModel :=
  fun _ m =>
    let q : Nat := match m.Metadata with
      | some a => a + 1
      | none => 0
    (⟨some q, Function.update m.records q ⟨1⟩,
      { m.payload with Cnt := wrapInt (m.payload.Cnt + 2) }⟩,
      none)

/-- A register whose version 2 migrator replaces the metadata record. -/
def MyModel.regReset : register MyModel :=
  ((newRegister.Register 1 "migration.MyModel" NoModification).1.Register 2
    "migration.MyModel" MyModel.resetMetadata).1

/-- A migrator that writes the schema version itself and then fails:
`msg.Metadata.Schema = 7; return errors.ErrHuman`. -/
def MyModel.stampAndFail : Migrator MyModel :=
  fun _ m =>
    match m.Metadata with
    | some a => (m.storeSchema a 7, some (errors.root ErrKind.ErrHuman))
    | none => (m, some (errors.root ErrKind.ErrHuman))

/-- A register whose version 2 migrator writes the schema version and fails. -/
def MyModel.regStamp : register MyModel :=
  ((newRegister.Register 1 "migration.MyModel" NoModification).1.Register 2
    "migration.MyModel" MyModel.stampAndFail).1

/-- A register whose version 2 migrator replaces the metadata record and whose version 3
migrator is `RefuseMigration`. -/
def MyModel.regResetRefuse : register MyModel :=
  (MyModel.regReset.Register 3 "migration.MyModel" RefuseMigration).1

/-- A `MyModel` at address 0 with schema `s` whose stored error is `ErrHuman`: its
migrator of the tests and its `Validate` fail. -/
def MyModel.mkErr (s : Nat) (cnt : Int) : Obj MyModel :=
  ⟨some 0, fun _ => ⟨s⟩, ⟨cnt, some (errors.root ErrKind.ErrHuman)⟩⟩

/-- The method `register.MustRegister`: `Register`, followed by `panic(err)` when it
returns an error.  A panic is `Except.error` carrying the value passed to `panic`;
otherwise the register after the call is returned. -/
def register.MustRegister {β : Type} (r : register β) (migrationTo : Nat) (tp : ReflectType)
    (fn : Migrator β) : Except Error (register β) :=
  match r.Register migrationTo tp fn with
  | (_, some err) => Except.error err
  | (r1, none) => Except.ok r1

/-- The package function `MustRegister`, which calls the method on the global register
`reg`; the global is passed in and handed back. -/
def MustRegister {β : Type} (reg : register β) (migrationTo : Nat) (tp : ReflectType)
    (fn : Migrator β) : Except Error (register β) :=
  reg.MustRegister migrationTo tp fn

/-- A register whose version 2 migrator writes the schema version and fails, and whose
version 3 migrator is `RefuseMigration`. -/
def MyModel.regStampRefuse : register MyModel :=
  (MyModel.regStamp.Register 3 "migration.MyModel" RefuseMigration).1

/-- A register with `NoModification` for version 1 and `RefuseMigration` for
version 2. -/
def MyModel.regRefuse : register MyModel :=
  ((newRegister.Register 1 "migration.MyModel" NoModification).1.Register 2
    "migration.MyModel" RefuseMigration).1

/-- A register with `NoModification` for versions 1, 2 and 3. -/
def MyModel.regNoMod : register MyModel :=
  (((newRegister.Register 1 "migration.MyModel" NoModification).1.Register 2
    "migration.MyModel" NoModification).1.Register 3 "migration.MyModel" NoModification).1

/-- The register of the tests with `RefuseMigration` added for version 3. -/
def MyModel.regAddRefuse : register MyModel :=
  (MyModel.reg.Register 3 "migration.MyModel" RefuseMigration).1

/-- A register whose version 2 migrator replaces the metadata record and whose version 3
migrator is `NoModification`. -/
def MyModel.regResetNoMod : register MyModel :=
  (MyModel.regReset.Register 3 "migration.MyModel" NoModification).1

end migration

/-! # The layered key-value store

The sources of package `store` are not at hand, only its tests are.  The store is
modelled from the specification: a base store, cache layers over any store, and the
operations `Get`, `Has`, `Set`, `Delete`, `CacheWrap`, `Write` and `Discard`. -/

namespace store

/-- Modelled from the spec: lookup in an ordered key-value mapping of package `store`
(whose sources are not at hand), held as a list of pairs in key order: the entry of the
first pair with key `k`. -/
def find {K α : Type} [DecidableEq K] (k : K) : List (K × α) → Option α
  | [] => none
  | (k1, x1) :: l => if k = k1 then some x1 else find k l

/-- Modelled from the spec: insertion into an ordered key-value mapping of package
`store`: the pair `(k, x)` takes the place of the entry of `k`, or goes in front of the
first greater key. -/
def put {K α : Type} [LinearOrder K] (k : K) (x : α) : List (K × α) → List (K × α)
  | [] => [(k, x)]
  | (k1, x1) :: l =>
    if k < k1 then (k, x) :: (k1, x1) :: l
    else if k = k1 then (k, x) :: l
    else (k1, x1) :: put k x l

/-- Modelled from the spec: removal of the entry of `k` from an ordered key-value
mapping of package `store`. -/
def del {K α : Type} [DecidableEq K] (k : K) (l : List (K × α)) : List (K × α) :=
  l.filter (fun e => decide (e.1 ≠ k))

/-- Entries in strictly ascending key order, so that no key occurs twice. -/
def SortedKeys {K α : Type} [LinearOrder K] (l : List (K × α)) : Prop :=
  List.Pairwise (fun a b => a.1 < b.1) l

/-- Modelled from the spec: `Op`, a pending mutation, tagged `Set(key, value)` or
`Delete(key)` (`SetOp` and `DelOp` in the tests). -/
inductive Op (K V : Type)
  | Set (key : K) (value : V)
  | Delete (key : K)

/-- Modelled from the spec: the stores of package `store`, whose sources are not at hand
(only `btree_test.go` is).  A base store is a key-value map, held in key order.  A layer owns its pending change-set, a mapping in key order
from a key to its pending `Op` (`some v` for `Set(key, v)`, `none` for `Delete(key)`),
and refers to its parent, which is any store. -/
inductive KVStore (K V : Type)
  | base (data : List (K × V))
  | layer (changes : List (K × Option V)) (parent : KVStore K V)

/-- Modelled from the spec: `MemStore()`, an empty base store. -/
def MemStore {K V : Type} : KVStore K V := KVStore.base []

/-- Modelled from the spec: `Get(key)`.  A layer answers with its own pending `Op` for
the key when it has one (`Set` gives the value, `Delete` gives absent) and otherwise
asks its parent. -/
def KVStore.Get {K V : Type} [DecidableEq K] : KVStore K V → K → Option V
  | KVStore.base data, k => find k data
  | KVStore.layer changes parent, k =>
    match find k changes with
    | some (some v) => some v
    | some none => none
    | none => parent.Get k

/-- Modelled from the spec: `Has(key)`, consistent with `Get`. -/
def KVStore.Has {K V : Type} [DecidableEq K] (s : KVStore K V) (k : K) : Bool :=
  (s.Get k).isSome

/-- Modelled from the spec: `Set(key, value)`.  A base store writes the pair; a layer
records the `Op` in its change-set and does not touch its parent. -/
def KVStore.Set {K V : Type} [LinearOrder K] : KVStore K V → K → V → KVStore K V
  | KVStore.base data, k, v => KVStore.base (put k v data)
  | KVStore.layer changes parent, k, v => KVStore.layer (put k (some v) changes) parent

/-- Modelled from the spec: `Delete(key)`.  A base store removes the key; a layer
records the `Op` in its change-set and does not touch its parent. -/
def KVStore.Delete {K V : Type} [LinearOrder K] : KVStore K V → K → KVStore K V
  | KVStore.base data, k => KVStore.base (del k data)
  | KVStore.layer changes parent, k => KVStore.layer (put k none changes) parent

/-- Modelled from the spec: `Op.Apply(store)`, the write that the `Op` stands for. -/
def Op.Apply {K V : Type} [LinearOrder K] (op : Op K V) (s : KVStore K V) : KVStore K V :=
  match op with
  | Op.Set k v => s.Set k v
  | Op.Delete k => s.Delete k

/-- The application of a sequence of `Op`s to a store, one after the other. -/
def applyOps {K V : Type} [LinearOrder K] (ops : List (Op K V)) (s : KVStore K V) :
    KVStore K V :=
  ops.foldl (fun st op => op.Apply st) s

/-- Modelled from the spec: `CacheWrap()`, a fresh layer over this store. -/
def KVStore.CacheWrap {K V : Type} (s : KVStore K V) : KVStore K V :=
  KVStore.layer [] s

/-- The key an `Op` writes to. -/
def Op.key {K V : Type} (op : Op K V) : K :=
  match op with
  | Op.Set k _ => k
  | Op.Delete k => k

/-- The pending state an `Op` leaves for its key: `some v` for `Set`, `none` for
`Delete`. -/
def Op.state {K V : Type} (op : Op K V) : Option V :=
  match op with
  | Op.Set _ v => some v
  | Op.Delete _ => none

/-- The effect of an `Op` on the table of a base store. -/
def Op.onBase {K V : Type} [LinearOrder K] (op : Op K V) (data : List (K × V)) :
    List (K × V) :=
  match op with
  | Op.Set k v => put k v data
  | Op.Delete k => del k data

/-- The effect of an `Op` on the change-set of a layer: it becomes the pending `Op` of
its key. -/
def Op.onLayer {K V : Type} [LinearOrder K] (op : Op K V) (changes : List (K × Option V)) :
    List (K × Option V) :=
  put op.key op.state changes

/-- The change-set of a fresh layer after a sequence of `Op`s. -/
def recorded {K V : Type} [LinearOrder K] (ops : List (Op K V)) : List (K × Option V) :=
  ops.foldl (fun ch op => op.onLayer ch) []

/-- Modelled from the spec: the pending `Op` that an entry of the change-set of a layer
stands for. -/
def pendingOp {K V : Type} (e : K × Option V) : Op K V :=
  match e.2 with
  | some v => Op.Set e.1 v
  | none => Op.Delete e.1

/-- Modelled from the spec: `Write()` applies every pending `Op` of the layer to its
parent, in key order, then clears the change-set.  A base store has no `Write`; it is
left as it is. -/
def KVStore.Write {K V : Type} [LinearOrder K] : KVStore K V → KVStore K V
  | KVStore.base data => KVStore.base data
  | KVStore.layer changes parent =>
    KVStore.layer [] (applyOps (changes.map pendingOp) parent)

/-- Modelled from the spec: `Discard()` clears the change-set of the layer without
touching its parent.  A base store has no `Discard`; it is left as it is. -/
def KVStore.Discard {K V : Type} : KVStore K V → KVStore K V
  | KVStore.base data => KVStore.base data
  | KVStore.layer _ parent => KVStore.layer [] parent

/-- The parent a layer refers to (`none` for a base store). -/
def KVStore.parentStore {K V : Type} : KVStore K V → Option (KVStore K V)
  | KVStore.base _ => none
  | KVStore.layer _ parent => some parent

/-- A store whose tables are in strictly ascending key order at every level, as every
store built from `MemStore()` by the operations above is. -/
def KVStore.Ordered {K V : Type} [LinearOrder K] : KVStore K V → Prop
  | KVStore.base data => SortedKeys data
  | KVStore.layer changes parent => SortedKeys changes ∧ parent.Ordered

/-- The parent of `TestBTreeCacheConflicts`, with keys and values numbered as in the
test: `SetOp(ks[1], vs[1]), SetOp(ks[2], vs[2])` applied to an empty base store. -/
def conflictsParent : KVStore Nat Nat :=
  applyOps [Op.Set 1 1, Op.Set 2 2] MemStore

/-- The child `Op`s of `TestBTreeCacheConflicts`:
`SetOp(ks[1], vs[11]), SetOp(ks[3], vs[7]), DelOp(ks[2])`. -/
def conflictsChildOps : List (Op Nat Nat) :=
  [Op.Set 1 11, Op.Set 3 7, Op.Delete 2]

/-- Modelled from the spec: membership of a key in the range `[start, end)` of an
iterator of package `store` (whose sources are not at hand); an absent bound leaves that
side unbounded. -/
def inRange {K : Type} [LinearOrder K] (start stop : Option K) (k : K) : Bool :=
  (match start with
    | none => true
    | some s => decide (s ≤ k)) &&
  (match stop with
    | none => true
    | some e => decide (k < e))

/-- Modelled from the spec: what an entry of the change-set of a layer contributes to
the stream of a merged iterator when it is its turn: a pending `Set` contributes its
key with its value; a pending `Delete` has no value to show and contributes nothing
(the specification spells the skipping out for a `Delete` that meets the same key in
the parent; the sequences `TestConflictBTreeCacheIterator` expects for
`makeDelOps(a, b, d)` over a parent without `b` leave no entry for `b` either). -/
def emit {K V : Type} (e : K × Option V) : List (K × V) :=
  match e.2 with
  | some v => [(e.1, v)]
  | none => []

/-- Modelled from the spec: the steps of the merged iterator of package `store` while
the cursor of the change-set stands at the entry `e`; `r a b` says that key `a` comes
before key `b` in the direction of the iteration and `rest` continues behind `e`.  If
the key of `e` comes before the key at the cursor of the parent, `e` is emitted and only
the cursor of the change-set advances; if the keys are equal, `e` takes precedence and
both cursors advance; if the key of the parent is ahead, the entry of the parent is
emitted and only the cursor of the parent advances.  An exhausted parent contributes
nothing further. -/
def mergeHead {K V : Type} [DecidableEq K] (r : K → K → Prop) [DecidableRel r]
    (e : K × Option V) (rest : List (K × V) → List (K × V)) : List (K × V) → List (K × V)
  | [] => emit e ++ rest []
  | p :: ps =>
    if r e.1 p.1 then emit e ++ rest (p :: ps)
    else if e.1 = p.1 then emit e ++ rest ps
    else p :: mergeHead r e rest ps

/-- Modelled from the spec: the merged iterator of package `store` over the change-set
of a layer and the stream of its parent, both in the order `r` of the iteration.  An
exhausted change-set leaves the stream of the parent. -/
def mergeBy {K V : Type} [DecidableEq K] (r : K → K → Prop) [DecidableRel r] :
    List (K × Option V) → List (K × V) → List (K × V)
  | [], ps => ps
  | e :: ls, ps => mergeHead r e (mergeBy r ls) ps

/-- Modelled from the spec: `Iterator(start, end)`, the entries with a key in
`[start, end)` in ascending key order, as the sequence the iterator yields.  A layer
merges the part of its change-set in the range with the stream of its parent. -/
def KVStore.Iterator {K V : Type} [LinearOrder K] :
    KVStore K V → Option K → Option K → List (K × V)
  | KVStore.base data, start, stop => data.filter (fun e => inRange start stop e.1)
  | KVStore.layer changes parent, start, stop =>
    mergeBy (fun a b => a < b) (changes.filter (fun e => inRange start stop e.1))
      (parent.Iterator start stop)

/-- Modelled from the spec: `ReverseIterator(start, end)`, the entries with a key in
`[start, end)` in descending key order, as the sequence the iterator yields.  A layer
merges the part of its change-set in the range, taken from its greatest key down, with
the reverse stream of its parent. -/
def KVStore.ReverseIterator {K V : Type} [LinearOrder K] :
    KVStore K V → Option K → Option K → List (K × V)
  | KVStore.base data, start, stop => (data.filter (fun e => inRange start stop e.1)).reverse
  | KVStore.layer changes parent, start, stop =>
    mergeBy (fun a b => b < a) (changes.filter (fun e => inRange start stop e.1)).reverse
      (parent.ReverseIterator start stop)

/-- The reference of the iterator tests, following the words of the specification:
the store flattened to one map in key order, the entries of the parent overridden by
the pending `Set`s of the layer, minus its pending `Delete`s. -/
def KVStore.flatten {K V : Type} [LinearOrder K] : KVStore K V → List (K × V)
  | KVStore.base data => data
  | KVStore.layer changes parent =>
    (changes.map pendingOp).foldl (fun t op => op.onBase t) parent.flatten

/-- The reference of the iterator tests for a range: the entries of the flattened map
with a key in `[start, end)`, in ascending key order. -/
def KVStore.reference {K V : Type} [LinearOrder K] (s : KVStore K V) (start stop : Option K) :
    List (K × V) :=
  s.flatten.filter (fun e => inRange start stop e.1)

/-- The `pre` `Op`s of the first case of `TestConflictBTreeCacheIterator`, with the
models `a, b, c, d` given the keys 1 to 4 and the values 10 to 40: `makeSetOps(a, b, c)`. -/
def iterPre1 : List (Op Nat Nat) :=
  [Op.Set 1 10, Op.Set 2 20, Op.Set 3 30]

/-- The `child` `Op`s of the first case of `TestConflictBTreeCacheIterator`:
`makeSetOps(a2, b2, d)`, where `a2` and `b2` have the keys of `a` and `b` and the values
11 and 21. -/
def iterChild1 : List (Op Nat Nat) :=
  [Op.Set 1 11, Op.Set 2 21, Op.Set 4 40]

/-- The `pre` `Op`s of the second case of `TestConflictBTreeCacheIterator`:
`makeSetOps(a, c, d)`. -/
def iterPre2 : List (Op Nat Nat) :=
  [Op.Set 1 10, Op.Set 3 30, Op.Set 4 40]

/-- The `child` `Op`s of the second case of `TestConflictBTreeCacheIterator`:
`makeDelOps(a, b, d)`. -/
def iterChild2 : List (Op Nat Nat) :=
  [Op.Delete 1, Op.Delete 2, Op.Delete 4]

end store

/-! # Governance models

The methods of `x/gov/model.go`.  The message types are generated from the protobuf
definitions, which are not at hand; their fields are taken from the way the methods use
them. -/

namespace gov

open weave

/-- The number of values of a `uint64`. -/
def uint64Size : Nat := 2 ^ 64

/-- Modelled from the spec: the generated enumeration `VoteOption` (its declaration is
not at hand), with the constants the methods name.  `Other` stands for any other
value of the underlying integer. -/
inductive VoteOption
  | Invalid
  | Yes
  | No
  | Abstain
  | Other (code : Nat)
  deriving DecidableEq, Repr

/-- Modelled from the spec: the generated enumeration of the `Result` of a
`TextProposal` (its declaration is not at hand), with the constants the methods
name. -/
inductive TextProposal_Result
  | Empty
  | Undefined
  | Accepted
  | Rejected
  | Other (code : Nat)
  deriving DecidableEq, Repr

/-- Modelled from the spec: the generated enumeration of the `Status` of a
`TextProposal` (its declaration is not at hand), with the constants the methods
name. -/
inductive TextProposal_Status
  | Invalid
  | Submitted
  | Closed
  | Other (code : Nat)
  deriving DecidableEq, Repr

/-- The message `Fraction`: numerator and denominator are `uint32`. -/
structure Fraction where
  Numerator : Nat
  Denominator : Nat
  deriving DecidableEq, Repr

/-- The message `TallyResult`: the three vote counters are `uint32`, the total weight of
the electorate is a `uint64`. -/
structure TallyResult where
  TotalYes : Nat
  TotalNo : Nat
  TotalAbstain : Nat
  TotalWeightElectorate : Nat
  Threshold : Fraction
  deriving DecidableEq, Repr

/-- The message `Elector`: an address and a `uint32` weight. -/
structure Elector where
  Address : List Nat
  Weight : Nat
  deriving DecidableEq, Repr

/-- The message `Vote`. -/
structure Vote where
  Elector : Elector
  Voted : VoteOption
  deriving DecidableEq, Repr

/-- The message `TextProposal`, with the fields the methods of `model.go` use. -/
structure TextProposal where
  Title : String
  Description : String
  ElectionRuleID : List Nat
  ElectorateID : List Nat
  VotingStartTime : Int
  VotingEndTime : Int
  SubmissionTime : Int
  Author : List Nat
  VoteState : TallyResult
  Status : TextProposal_Status
  Result : TextProposal_Result
  deriving DecidableEq, Repr

/-- The method `TallyResult.TotalVotes`: the `uint64` sum of the three counters. -/
def TallyResult.TotalVotes (m : TallyResult) : Nat :=
  ((m.TotalYes + m.TotalNo) % uint64Size + m.TotalAbstain) % uint64Size

/-- The method `TallyResult.Accepted`: both products are `uint64` products. -/
def TallyResult.Accepted (m : TallyResult) : Bool :=
  decide ((m.TotalYes * m.Threshold.Denominator) % uint64Size >
    (m.TotalWeightElectorate * m.Threshold.Numerator) % uint64Size)

/-- The statement `counter += weight` on `uint32` values. -/
def addUint32 (a b : Nat) : Nat := (a + b) % uint32Size

/-- The statement `counter -= weight` on `uint32` values. -/
def subUint32 (a b : Nat) : Nat := (a + uint32Size - b % uint32Size) % uint32Size

/-- The method `TextProposal.CountVote`.  Returns the proposal as the call leaves it and
the error result.  The description of the `ErrInvalidInput` error quotes `m.String()`,
which is left out. -/
def TextProposal.CountVote (m : TextProposal) (vote : Vote) : TextProposal × Option Error :=
  let oldTotal := m.VoteState.TotalVotes
  let counted : Option TextProposal :=
    match vote.Voted with
    | VoteOption.Yes =>
      some { m with VoteState :=
        { m.VoteState with TotalYes := addUint32 m.VoteState.TotalYes vote.Elector.Weight } }
    | VoteOption.No =>
      some { m with VoteState :=
        { m.VoteState with TotalNo := addUint32 m.VoteState.TotalNo vote.Elector.Weight } }
    | VoteOption.Abstain =>
      some { m with VoteState :=
        { m.VoteState with
          TotalAbstain := addUint32 m.VoteState.TotalAbstain vote.Elector.Weight } }
    | _ => none
  match counted with
  | none => (m, some (errors.Wrapf (errors.root ErrKind.ErrInvalidInput) "%q" []))
  | some m1 =>
    if m1.VoteState.TotalVotes ≤ oldTotal then
      (m1, some (errors.Wrap (errors.root ErrKind.ErrHuman) "sanity overflow check failed"))
    else (m1, none)

/-- The method `TextProposal.UndoCountVote`.  Returns the proposal as the call leaves it
and the error result. -/
def TextProposal.UndoCountVote (m : TextProposal) (vote : Vote) :
    TextProposal × Option Error :=
  let oldTotal := m.VoteState.TotalVotes
  let counted : Option TextProposal :=
    match vote.Voted with
    | VoteOption.Yes =>
      some { m with VoteState :=
        { m.VoteState with TotalYes := subUint32 m.VoteState.TotalYes vote.Elector.Weight } }
    | VoteOption.No =>
      some { m with VoteState :=
        { m.VoteState with TotalNo := subUint32 m.VoteState.TotalNo vote.Elector.Weight } }
    | VoteOption.Abstain =>
      some { m with VoteState :=
        { m.VoteState with
          TotalAbstain := subUint32 m.VoteState.TotalAbstain vote.Elector.Weight } }
    | _ => none
  match counted with
  | none => (m, some (errors.Wrapf (errors.root ErrKind.ErrInvalidInput) "%q" []))
  | some m1 =>
    if m1.VoteState.TotalVotes ≥ oldTotal then
      (m1, some (errors.Wrap (errors.root ErrKind.ErrHuman) "sanity overflow check failed"))
    else (m1, none)

/-- The method `TextProposal.Tally`.  Returns the proposal as the call leaves it and the
error result.  The descriptions quote the names of the result and of the status, which
are left out. -/
def TextProposal.Tally (m : TextProposal) : TextProposal × Option Error :=
  if m.Result ≠ TextProposal_Result.Undefined then
    (m, some (errors.Wrapf (errors.root ErrKind.ErrInvalidState) "result exists: %q" []))
  else if m.Status ≠ TextProposal_Status.Submitted then
    (m, some (errors.Wrapf (errors.root ErrKind.ErrInvalidState) "unexpected status: %q" []))
  else
    let m1 : TextProposal :=
      if m.VoteState.Accepted then { m with Result := TextProposal_Result.Accepted }
      else { m with Result := TextProposal_Result.Rejected }
    ({ m1 with Status := TextProposal_Status.Closed }, none)

/-- A proposal under vote: 10 yes, 3 no, 1 abstain out of a total weight of 20 with a
threshold of one half. -/
def sampleProposal : TextProposal :=
  { Title := "Proposal", Description := "A text", ElectionRuleID := [1], ElectorateID := [2],
    VotingStartTime := 10, VotingEndTime := 20, SubmissionTime := 5, Author := [7],
    VoteState := ⟨10, 3, 1, 20, ⟨1, 2⟩⟩,
    Status := TextProposal_Status.Submitted, Result := TextProposal_Result.Undefined }

/-- A yes vote of weight 4. -/
def sampleVote : Vote := ⟨⟨[9], 4⟩, VoteOption.Yes⟩

/-- The constant `maxElectors`. -/
def maxElectors : Nat := 2000

/-- The constant `maxWeight`, `1<<16 - 1`. -/
def maxWeight : Nat := 2 ^ 16 - 1

/-- The package variable `validTitle`: whether the string matches
`^[a-zA-Z0-9 _.-]{4,128}$`, that is, has 4 to 128 characters, each a letter, a digit, a
space (32), an underscore (95), a dot (46) or a hyphen (45). -/
def validTitle (s : String) : Bool :=
  decide (4 ≤ s.length) && decide (s.length ≤ 128) &&
    s.toList.all (fun ch => ch.isAlphanum || decide (ch.toNat = 32) || decide (ch.toNat = 95) ||
      decide (ch.toNat = 46) || decide (ch.toNat = 45))

/-- What `model.go` uses of the type `weave.Address`, whose source is not at hand: its
methods `Validate` and `String`.  They are parameters of the methods that call them. -/
structure AddressOps where
  Validate : List Nat → Option Error
  String : List Nat → String

/-- The message `Electorate`, with the fields the methods of `model.go` use; the total
weight is a `uint64`, the admin is an address. -/
structure Electorate where
  Title : String
  Electors : List Elector
  TotalWeightElectorate : Nat
  Admin : List Nat
  deriving DecidableEq, Repr

/-- The method `Elector.Validate`. -/
def Elector.Validate (A : AddressOps) (m : Elector) : Option Error :=
  if m.Weight > maxWeight then
    some (errors.Wrap (errors.root ErrKind.ErrInvalidInput) "must not be greater max weight")
  else if m.Weight = 0 then
    some (errors.Wrap (errors.root ErrKind.ErrInvalidInput) "weight must not be empty")
  else A.Validate m.Address

/-- The loop `for _, v := range m.Electors` of `Electorate.Validate`, entered with the
value of `totalWeight` (a `uint64`) and the keys of the map `index`.  Returns the value
of `totalWeight` and the error of an early `return` (`none` when the loop ran to its
end). -/
def Electorate.validateElectors (A : AddressOps) :
    List Elector → Nat → List String → Nat × Option Error
  | [], totalWeight, _ => (totalWeight, none)
  | v :: vs, totalWeight, index =>
    match v.Validate A with
    | some err => (totalWeight, some err)
    | none =>
      if A.String v.Address ∈ index then
        ((totalWeight + v.Weight) % uint64Size,
          some (errors.Wrap (errors.root ErrKind.ErrInvalidInput) "duplicate elector entry"))
      else
        Electorate.validateElectors A vs ((totalWeight + v.Weight) % uint64Size)
          (A.String v.Address :: index)

/-- The method `Electorate.Validate`. -/
def Electorate.Validate (A : AddressOps) (m : Electorate) : Option Error :=
  if m.Electors.length = 0 then
    some (errors.Wrap (errors.root ErrKind.ErrInvalidInput) "electors must not be empty")
  else if m.Electors.length > maxElectors then
    some (errors.Wrapf (errors.root ErrKind.ErrInvalidInput) "electors must not exceed: %d"
      [FmtArg.num maxElectors])
  else if validTitle m.Title = false then
    some (errors.Wrapf (errors.root ErrKind.ErrInvalidInput) "title: %q" [FmtArg.str m.Title])
  else
    match Electorate.validateElectors A m.Electors 0 [] with
    | (_, some err) => some err
    | (totalWeight, none) =>
      if m.TotalWeightElectorate ≠ totalWeight then
        some (errors.Wrap (errors.root ErrKind.ErrInvalidInput) "total weight does not match sum")
      else
        match A.Validate m.Admin with
        | some err => some (errors.Wrap err "admin")
        | none => none

/-- The method `Fraction.Validate`; the doubling is a `uint64` product. -/
def Fraction.Validate (m : Fraction) : Option Error :=
  if m.Numerator = 0 then
    some (errors.Wrap (errors.root ErrKind.ErrInvalidInput) "numerator must not be 0")
  else if m.Denominator = 0 then
    some (errors.Wrap (errors.root ErrKind.ErrInvalidInput) "denominator must not be 0")
  else if (m.Numerator * 2) % uint64Size < m.Denominator then
    some (errors.Wrap (errors.root ErrKind.ErrInvalidInput) "must not be lower 0.5")
  else if m.Numerator > m.Denominator then
    some (errors.Wrap (errors.root ErrKind.ErrInvalidInput) "must not be greater 1")
  else none

/-- The builtin `make([]T, len, cap)`: a slice of `len` zero values (the capacity does
not show in the content). -/
def makeSlice {α : Type} (zero : α) (len : Nat) : List α := List.replicate len zero

/-- The builtin `copy(dst, src)`: it copies as many elements as the shorter of the two
slices has, from the start of `src` over the start of `dst`.  Returns `dst` after the
call. -/
def copySlice {α : Type} (dst src : List α) : List α :=
  src.take (min dst.length src.length) ++ dst.drop (min dst.length src.length)

/-- The method `Electorate.Copy`.  The slice `p` is made with length 0 and capacity
`len(m.Electors)`; the fields the composite literal does not name have their zero
value. -/
def Electorate.Copy (m : Electorate) : Electorate :=
  let p : List Elector := copySlice (makeSlice ⟨[], 0⟩ 0) m.Electors
  { Title := m.Title, Electors := p, TotalWeightElectorate := 0, Admin := [] }

/-- The method `TextProposal.Copy`.  Both slices are made with length 0 and the capacity
of the slice to copy. -/
def TextProposal.Copy (m : TextProposal) : TextProposal :=
  let electionRuleID : List Nat := copySlice (makeSlice 0 0) m.ElectionRuleID
  let electorateID : List Nat := copySlice (makeSlice 0 0) m.ElectorateID
  { Title := m.Title, Description := m.Description, ElectionRuleID := electionRuleID,
    ElectorateID := electorateID, VotingStartTime := m.VotingStartTime,
    VotingEndTime := m.VotingEndTime, SubmissionTime := m.SubmissionTime, Author := m.Author,
    VoteState := m.VoteState, Status := m.Status, Result := m.Result }

/-- An implementation of the methods of `weave.Address` for examples: an address is valid
when it has 20 bytes, and its string has one character per byte. -/
def sampleAddressOps : AddressOps :=
  ⟨fun a => if a.length = 20 then none
      else some (errors.Wrap (errors.root ErrKind.ErrInvalidInput) "invalid address length"),
    fun a => String.mk (a.map Char.ofNat)⟩

/-- An address of 20 bytes, all equal to `b`. -/
def sampleAddress (b : Nat) : List Nat := List.replicate 20 b

/-- An electorate of two electors with the weights 3 and 17. -/
def sampleElectorate : Electorate :=
  { Title := "Council", Electors := [⟨sampleAddress 1, 3⟩, ⟨sampleAddress 2, 17⟩],
    TotalWeightElectorate := 20, Admin := sampleAddress 9 }

/-- The counter of the tally that a vote option selects in `CountVote` and
`UndoCountVote` (`none` for an option that selects none). -/
def TallyResult.counter (m : TallyResult) (o : VoteOption) : Option Nat :=
  match o with
  | VoteOption.Yes => some m.TotalYes
  | VoteOption.No => some m.TotalNo
  | VoteOption.Abstain => some m.TotalAbstain
  | _ => none

end gov

namespace migration

open weave

/-! ## Versioned buckets

The sources of the versioned buckets (`NewBucket`, `NewSerialModelBucket`, their methods
and the plain buckets of package `orm` below them) are not at hand, only their tests
are.  They are modelled from the specification. -/

/-- A byte string; byte strings are compared lexicographically. -/
abbrev Bytes := List Nat

/-- The call `binary.BigEndian.PutUint64(res, n)` on a fresh slice of 8 bytes. -/
def putUint64 (n : Nat) : Bytes :=
  [n / 256 ^ 7 % 256, n / 256 ^ 6 % 256, n / 256 ^ 5 % 256, n / 256 ^ 4 % 256,
    n / 256 ^ 3 % 256, n / 256 ^ 2 % 256, n / 256 % 256, n % 256]

/-- Modelled from the spec: `weavetest.SequenceID`, whose source is not at hand: the
primary key a serial bucket assigns, the sequence value encoded as a fixed-width
big-endian value. -/
def SequenceID (n : Nat) : Bytes := putUint64 n

/-- The bytes of a string (`[]byte("...")`). -/
def bytesOf (s : String) : Bytes := s.toList.map Char.toNat

/-- Modelled from the spec: a record as a bucket of package `orm` (not at hand) holds it,
the serialised form of an object: the content of its metadata and its other fields. -/
structure Record (β : Type) where
  Metadata : Option weave.Metadata
  payload : β
  deriving DecidableEq, Repr

/-- Modelled from the spec: what a bucket needs of its model type, the sources of the
buckets not being at hand: the interface `Migratable` and the two directions of the
serialisation (`Marshal`, `Unmarshal`). -/
structure Model (β : Type) where
  iface : Migratable β
  Marshal : Obj β → Record β
  Unmarshal : Record β → Obj β

/-- A freshly decoded object: its metadata record, when it has one, lives at address 0. -/
def Record.decode {β : Type} (r : Record β) : Obj β :=
  ⟨r.Metadata.map (fun _ => 0), fun _ => r.Metadata.getD ⟨0⟩, r.payload⟩

/-- Modelled from the spec: a secondary index of a bucket of package `orm` (not at
hand): a deterministic key-derivation function and the unique/multi flag. -/
structure Index (β : Type) where
  key : Obj β → Bytes
  unique : Bool

/-- Modelled from the spec: the part of the store that one bucket and its namespace
use, the store below the buckets of package `orm` not being at hand.
* `schema` is the schema-version record of the namespace (0 when there is none yet);
* `records` maps a primary key to the record stored under it, in key order;
* `seq` is the last value the sequence of the bucket has handed out;
* `index` maps an index key to the primary keys of the records with that index key, in
  key order of the index keys; the primary keys of one index key are in insertion order;
* `raw` is the read-only view of the store that migrators are handed. -/
structure DB (β : Type) where
  schema : Nat
  records : List (Bytes × Record β)
  seq : Nat
  index : List (Bytes × List Bytes)
  raw : ReadOnlyKVStore

/-- Modelled from the spec: `store.MemStore()`, an empty store, seen by one bucket. -/
def DB.empty {β : Type} : DB β := ⟨0, [], 0, [], ⟨fun _ => none⟩⟩

/-- Modelled from the spec: the operator action "ensure/bump schema version for
namespace N to version V" (`ensureSchemaVersion` of the tests, not at hand): it fails if
`V` is not greater than the current value.  The kind of that failure is not specified;
`ErrInvalidState` stands for it. -/
def ensureSchemaVersion {β : Type} (db : DB β) (v : Nat) : DB β × Option Error :=
  if v > db.schema then ({ db with schema := v }, none)
  else (db, some (errors.Wrap (errors.root ErrKind.ErrInvalidState) "schema version not greater"))

/-- Modelled from the spec: removal of a primary key from the entry of an index key. -/
def indexRemove (ik ref : Bytes) (table : List (Bytes × List Bytes)) :
    List (Bytes × List Bytes) :=
  match store.find ik table with
  | none => table
  | some refs =>
    if refs.filter (fun r => decide (r ≠ ref)) = [] then store.del ik table
    else store.put ik (refs.filter (fun r => decide (r ≠ ref))) table

/-- Modelled from the spec: addition of a primary key to the entry of an index key,
behind the primary keys already there. -/
def indexAdd (ik ref : Bytes) (table : List (Bytes × List Bytes)) :
    List (Bytes × List Bytes) :=
  match store.find ik table with
  | none => store.put ik [ref] table
  | some refs => if ref ∈ refs then table else store.put ik (refs ++ [ref]) table

/-- Modelled from the spec: the write of a plain bucket of package `orm` (not at hand):
the record goes under its primary key and the secondary index is recomputed with it: the
entry of the record that was under the key is taken out, the new one is put in.  A
unique index turns down an index key that another record has (`ErrDuplicate`). -/
def DB.write {β : Type} (m : Model β) (idx : Option (Index β)) (db : DB β) (key : Bytes)
    (rec : Record β) : DB β × Option Error :=
  match idx with
  | none => ({ db with records := store.put key rec db.records }, none)
  | some ix =>
    let cleared : List (Bytes × List Bytes) :=
      match store.find key db.records with
      | none => db.index
      | some old => indexRemove (ix.key (m.Unmarshal old)) key db.index
    let ik := ix.key (m.Unmarshal rec)
    if ix.unique ∧ (store.find ik cleared).isSome then
      (db, some (errors.Wrap (errors.root ErrKind.ErrDuplicate) "unique index"))
    else
      ({ db with records := store.put key rec db.records, index := indexAdd ik key cleared },
        none)

/-- Modelled from the spec: a versioned bucket (`NewBucket(...).useRegister(reg)`, not
at hand): the register of migrations it uses, its model type and its secondary index,
if it has one. -/
structure Bucket (β : Type) where
  migrations : register β
  model : Model β
  index : Option (Index β)

/-- The outcome of a fetch through a versioned bucket: the store after the call, the
object returned (`none` when there is none), the error result, and the versions whose
migrator was invoked, in order. -/
structure Fetched (β : Type) where
  db : DB β
  obj : Option (Obj β)
  err : Option Error
  invoked : List Nat

/-- The outcome of a save: the store after the call, the object as the call leaves it,
and the error result. -/
structure Saved (β : Type) where
  db : DB β
  obj : Obj β
  err : Option Error

/-- Modelled from the spec: the check and the migration that precede the write of a save
through a versioned bucket (not at hand).  The object is rejected with an `ErrSchema`
error if its declared `Metadata.Schema` exceeds the schema-version record of the
namespace; a schema equal to the current version is accepted as it is.  For a schema below
the current version the specification says "accepted as-is" as well, but
`TestSchemaVersionedBucket` (the save of `obj12`) says "Saving a model with an outdated
schema must call the migration before writing to the database"; the test is followed:
`Apply` is called on the object with the schema-version record as target, and its failure
is passed up.  The case of an object without metadata is not specified; it is rejected as
invalid metadata.  The result is the object as the step leaves it and the error; it is
`none` when the loop of `Apply` does not end. -/
def Bucket.migrate {β : Type} (b : Bucket β) (db : DB β) (obj : Obj β) :
    Option (Obj β × Option Error) :=
  match obj.Schema with
  | none => some (obj, some (errors.Wrap (errors.root ErrKind.ErrMetadata) "nil"))
  | some s =>
    if s > db.schema then
      some (obj, some (errors.Wrapf (errors.root ErrKind.ErrSchema)
        "unknown schema version (current is %d)" [FmtArg.num db.schema]))
    else if s = db.schema then some (obj, none)
    else
      match b.migrations.Apply db.raw b.model.iface obj db.schema (uint32Size + 1) with
      | none => none
      | some res =>
        match res.err with
        | some err => some (res.obj, some (errors.Wrap err "schema migration"))
        | none => some (res.obj, none)

/-- Modelled from the spec: the save of a versioned bucket (`Bucket.Save`, not at hand):
the check and the migration of `Bucket.migrate`, then the write of the serialised object
under its key.  A failure leaves the store as it was.  The result is `none` when the loop
of `Apply` does not end. -/
def Bucket.Save {β : Type} (b : Bucket β) (db : DB β) (key : Bytes) (obj : Obj β) :
    Option (Saved β) :=
  match b.migrate db obj with
  | none => none
  | some (o, some err) => some ⟨db, o, some err⟩
  | some (o, none) =>
    match DB.write b.model b.index db key (b.model.Marshal o) with
    | (db1, none) => some ⟨db1, o, none⟩
    | (_, some err) => some ⟨db, o, some err⟩

/-- The store a save leaves behind (the store itself when the loop of `Apply` does not
end). -/
def Bucket.afterSave {β : Type} (b : Bucket β) (db : DB β) (key : Bytes) (obj : Obj β) :
    DB β :=
  match b.Save db key obj with
  | none => db
  | some r => r.db

/-- Modelled from the spec: the fetch of a versioned bucket (`Bucket.Get`, not at hand).
The record under the key is decoded, `Apply` is called on the object with the
schema-version record of the namespace as target, and if the `Metadata.Schema` of the
object changed as a result, the migrated object is persisted again at its key before it
is returned.  A failure of `Apply` is passed up.  An absent key gives no object.  The
result is `none` when the loop of `Apply` does not end. -/
def Bucket.Get {β : Type} (b : Bucket β) (db : DB β) (key : Bytes) : Option (Fetched β) :=
  match store.find key db.records with
  | none => some ⟨db, none, none, []⟩
  | some rec =>
    let m := b.model.Unmarshal rec
    match b.migrations.Apply db.raw b.model.iface m db.schema (uint32Size + 1) with
    | none => none
    | some res =>
      match res.err with
      | some err => some ⟨db, none, some (errors.Wrap err "migrate"), res.invoked⟩
      | none =>
        if res.obj.Schema ≠ m.Schema then
          match DB.write b.model b.index db key (b.model.Marshal res.obj) with
          | (db1, none) => some ⟨db1, some res.obj, none, res.invoked⟩
          | (db1, some err) => some ⟨db1, none, some err, res.invoked⟩
        else some ⟨db, some res.obj, none, res.invoked⟩

/-- Modelled from the spec: what a serial model bucket needs of its model type beyond
the versioned bucket (`NewSerialModelBucket`, not at hand): the accessors of the primary
key (`GetPrimaryKey`, `SetPrimaryKey`). -/
structure SerialModelBucket (β : Type) where
  bucket : Bucket β
  GetPrimaryKey : Obj β → Bytes
  SetPrimaryKey : Bytes → Obj β → Obj β

/-- Modelled from the spec: the save of a serial model bucket
(`SerialModelBucket.Save`, not at hand).  The model is checked and migrated as a versioned
bucket does on a save; a model without a primary key is assigned the next value of the
sequence of the bucket, encoded as a fixed-width big-endian value; then the model is
written.  A failure leaves the store as it was.  The result is `none` when the loop of
`Apply` does not end. -/
def SerialModelBucket.Save {β : Type} (b : SerialModelBucket β) (db : DB β) (m : Obj β) :
    Option (Saved β) :=
  match b.bucket.migrate db m with
  | none => none
  | some (o, some err) => some ⟨db, o, some err⟩
  | some (o, none) =>
    let fresh : Bool := decide (b.GetPrimaryKey o = [])
    let key : Bytes := if fresh then SequenceID (db.seq + 1) else b.GetPrimaryKey o
    let m1 := b.SetPrimaryKey key o
    let db1 : DB β := if fresh then { db with seq := db.seq + 1 } else db
    match DB.write b.bucket.model b.bucket.index db1 key (b.bucket.model.Marshal m1) with
    | (db2, none) => some ⟨db2, m1, none⟩
    | (_, some err) => some ⟨db, m1, some err⟩

/-- Modelled from the spec: the result iterator of `PrefixScan` and `IndexScan` (not at
hand): the primary keys of the records still to load, in the order of the scan, as found
when the scan was opened. -/
structure ModelIterator where
  keys : List Bytes
  deriving DecidableEq, Repr

/-- Modelled from the spec: `PrefixScan(store, prefix, reverse)` (not at hand): the
records whose primary key starts with the given bytes (all of them for nil), in key
order, or in reverse key order. -/
def SerialModelBucket.PrefixScan {β : Type} (_b : SerialModelBucket β) (db : DB β)
    (pfx : Bytes) (reverse : Bool) : ModelIterator :=
  let keys := (db.records.map (fun e => e.1)).filter (fun k => pfx.isPrefixOf k)
  if reverse then ⟨keys.reverse⟩ else ⟨keys⟩

/-- Modelled from the spec: `IndexScan(store, indexName, start, reverse)` (not at hand):
the records in the order of their index key from `start` on (from the first index key
for nil), ascending, or descending when `reverse` is set.  The records that share an
index key come in insertion order; `TestSchemaVersionedSerialModelBucketIndexScanMulti`
expects that in both directions (ids 1 to 6 forward, ids 5, 6, 4, 3, 1, 2 in reverse). -/
def SerialModelBucket.IndexScan {β : Type} (_b : SerialModelBucket β) (db : DB β)
    (start : Option Bytes) (reverse : Bool) : ModelIterator :=
  if reverse then
    ⟨((db.index.filter (fun e => match start with
        | none => true
        | some s => decide (e.1 ≤ s))).reverse.map (fun e => e.2)).flatten⟩
  else
    ⟨((db.index.filter (fun e => match start with
        | none => true
        | some s => decide (s ≤ e.1))).map (fun e => e.2)).flatten⟩

/-- The outcome of `LoadNext`: the store and the iterator after the call, the object
loaded into the destination (`none` when none was), the error result, and the versions
whose migrator was invoked. -/
structure Loaded (β : Type) where
  db : DB β
  iter : ModelIterator
  obj : Option (Obj β)
  err : Option Error
  invoked : List Nat

/-- Modelled from the spec: `LoadNext(dest)` of a result iterator (not at hand): it
decodes and migrates one record per call, as a fetch of the versioned bucket does, and
signals the exhausted iterator with `ErrIteratorDone`.  The result is `none` when the
loop of `Apply` does not end. -/
def SerialModelBucket.LoadNext {β : Type} (b : SerialModelBucket β) (db : DB β)
    (it : ModelIterator) : Option (Loaded β) :=
  match it.keys with
  | [] => some ⟨db, it, none, some (errors.Wrap (errors.root ErrKind.ErrIteratorDone) "done"), []⟩
  | k :: ks =>
    match b.bucket.Get db k with
    | none => none
    | some f => some ⟨f.db, ⟨ks⟩, f.obj, f.err, f.invoked⟩

/-- The calls of `LoadNext` repeated `n` times: the store and the iterator after the
last call and the outcome of each call, in order: the object loaded and the error
result.  The result is `none` when a loop of `Apply` does not end. -/
def SerialModelBucket.loadMany {β : Type} (b : SerialModelBucket β) :
    Nat → DB β → ModelIterator →
      Option (DB β × ModelIterator × List (Option (Obj β) × Option Error))
  | 0, db, it => some (db, it, [])
  | n + 1, db, it =>
    match b.LoadNext db it with
    | none => none
    | some l =>
      match SerialModelBucket.loadMany b n l.db l.iter with
      | none => none
      | some (db1, it1, outs) => some (db1, it1, (l.obj, l.err) :: outs)

/-- What the tests look at in an object: its `Metadata.Schema` and its other fields. -/
def Obj.state {β : Type} (m : Obj β) : Option Nat × β := (m.Schema, m.payload)

/-- What the tests look at in the outcome of a call: the state of the object, if there
is one, and the kind of the error, if there is one. -/
def outcome {β : Type} (x : Option (Obj β) × Option Error) :
    Option (Option Nat × β) × Option ErrKind :=
  (x.1.map Obj.state, x.2.map (fun e => e.kind))

/-- The method `MyModel.Marshal` of the tests, `json.Marshal(m)`: the exported fields
`Metadata` and `Cnt`. -/
def MyModel.Marshal (m : Obj MyModel) : Record MyModel :=
  ⟨m.load m.Metadata, ⟨m.payload.Cnt, none⟩⟩

/-- The method `MyModel.Unmarshal` of the tests, `json.Unmarshal(raw, &m)`. -/
def MyModel.Unmarshal (r : Record MyModel) : Obj MyModel := r.decode

/-- The model type `MyModel` as a bucket uses it. -/
def MyModel.model : Model MyModel := ⟨MyModel.iface, MyModel.Marshal, MyModel.Unmarshal⟩

/-- The bucket of `TestSchemaVersionedBucket`:
`NewBucket(thisPkgName, "mymodel", &MyModel{})` with the register of the test. -/
def MyModel.bucket : Bucket MyModel := ⟨MyModel.reg, MyModel.model, none⟩

/-- The store of `TestSchemaVersionedBucket` after `ensureSchemaVersion(.., 1)` and the
save of `obj1` (`Schema: 1, Cnt: 5`) under the key `schema_one`. -/
def MyModel.dbOne : DB MyModel :=
  MyModel.bucket.afterSave (ensureSchemaVersion DB.empty 1).1 (bytesOf "schema_one")
    (MyModel.mk0 1 5)

/-- The store of `TestSchemaVersionedBucket` after `ensureSchemaVersion(.., 2)` and the
save of `obj2` (`Schema: 2, Cnt: 11`) under the key `schema_two`. -/
def MyModel.dbTwo : DB MyModel :=
  MyModel.bucket.afterSave (ensureSchemaVersion MyModel.dbOne 2).1 (bytesOf "schema_two")
    (MyModel.mk0 2 11)

/-- The store a fetch leaves behind (the store itself when the loop of `Apply` does not
end). -/
def Bucket.afterGet {β : Type} (b : Bucket β) (db : DB β) (key : Bytes) : DB β :=
  match b.Get db key with
  | none => db
  | some f => f.db

/-- The payload of the test model `MySerialModel`: the primary key, a counter and the
error its `Validate` and its migrator return. -/
structure MySerialModel where
  ID : Bytes
  Cnt : Int
  err : Option Error
  deriving DecidableEq, Repr

/-- The method `MySerialModel.Validate` of the tests: the metadata must be valid, then
the stored error is returned. -/
def MySerialModel.Validate (m : Obj MySerialModel) : Option Error :=
  match Metadata.Validate (m.load m.Metadata) with
  | some err => some err
  | none => m.payload.err

/-- The interface value of a `*MySerialModel`. -/
def MySerialModel.iface : Migratable MySerialModel :=
  ⟨"migration.MySerialModel", MySerialModel.Validate⟩

/-- The version 2 migrator of the scan tests: `msg.Cnt++; return msg.err`. -/
def MySerialModel.increment : Migrator MySerialModel :=
  fun _ m => ({ m with payload := { m.payload with Cnt := wrapInt (m.payload.Cnt + 1) } },
    m.payload.err)

/-- The register of the scan tests: `NoModification` for version 1, `increment` for
version 2. -/
def MySerialModel.reg : register MySerialModel :=
  ((newRegister.Register 1 "migration.MySerialModel" NoModification).1.Register 2
    "migration.MySerialModel" MySerialModel.increment).1

/-- The method `MySerialModel.Marshal` of the tests, `json.Marshal(m)`: the exported
fields `Metadata`, `ID` and `Cnt`. -/
def MySerialModel.Marshal (m : Obj MySerialModel) : Record MySerialModel :=
  ⟨m.load m.Metadata, ⟨m.payload.ID, m.payload.Cnt, none⟩⟩

/-- The model type `MySerialModel` as a bucket uses it. -/
def MySerialModel.model : Model MySerialModel :=
  ⟨MySerialModel.iface, MySerialModel.Marshal, Record.decode⟩

/-- The index function `lexographicCountIndex` of the tests: the counter, converted to
`uint64`, as 8 big-endian bytes. -/
def lexographicCountIndex (m : Obj MySerialModel) : Bytes :=
  putUint64 (m.payload.Cnt % (2 ^ 64 : Int)).toNat

/-- The serial model bucket of the scan tests, with the index the test gives it (`none`
for `TestSchemaVersionedSerialModelBucketPrefixScan`, `counter` with the flag `unique`
for the index scan tests). -/
def MySerialModel.bucket (idx : Option (Index MySerialModel)) :
    SerialModelBucket MySerialModel :=
  ⟨⟨MySerialModel.reg, MySerialModel.model, idx⟩, fun m => m.payload.ID,
    fun id m => { m with payload := { m.payload with ID := id } }⟩

/-- A `MySerialModel` of the scan tests: `Metadata: &weave.Metadata{Schema: s}, Cnt: cnt`,
no primary key yet. -/
def MySerialModel.mk0 (s : Nat) (cnt : Int) : Obj MySerialModel :=
  ⟨some 0, fun _ => ⟨s⟩, ⟨[], cnt, none⟩⟩

/-- The loop `for i := range models` of the scan tests: each model is saved, in order;
the result is the store after the last save and the error result of each save (a save
whose loop of `Apply` does not end has none and is left out). -/
def SerialModelBucket.saveAll {β : Type} (b : SerialModelBucket β) (db : DB β)
    (models : List (Obj β)) : DB β × List (Option Error) :=
  models.foldl (fun acc m =>
    match b.Save acc.1 m with
    | none => acc
    | some r => (r.db, acc.2 ++ [r.err])) (db, [])

/-- The store of `TestSchemaVersionedSerialModelBucketPrefixScan` when the scan starts:
`ensureSchemaVersion(.., 1)`, the models with `Cnt` 1, 5, 10, 15 saved at schema 1, then
`ensureSchemaVersion(.., 2)`. -/
def MySerialModel.dbScan : DB MySerialModel :=
  (ensureSchemaVersion ((MySerialModel.bucket none).saveAll (ensureSchemaVersion DB.empty 1).1
    [MySerialModel.mk0 1 1, MySerialModel.mk0 1 5, MySerialModel.mk0 1 10,
      MySerialModel.mk0 1 15]).1 2).1

/-- The index `counter` of `TestSchemaVersionedSerialModelBucketIndexScanUnique`,
unique. -/
def MySerialModel.counterUnique : Index MySerialModel := ⟨lexographicCountIndex, true⟩

/-- The store of `TestSchemaVersionedSerialModelBucketIndexScanUnique` when the scan
starts: the models with `Cnt` 1, 5, 10, 15 saved at schema 1 under the unique index, then
`ensureSchemaVersion(.., 2)`. -/
def MySerialModel.dbUnique : DB MySerialModel :=
  (ensureSchemaVersion ((MySerialModel.bucket (some MySerialModel.counterUnique)).saveAll
    (ensureSchemaVersion DB.empty 1).1
    [MySerialModel.mk0 1 1, MySerialModel.mk0 1 5, MySerialModel.mk0 1 10,
      MySerialModel.mk0 1 15]).1 2).1

/-- A migrator as `increment` that also replaces the metadata of the object by a fresh
record: `msg.Metadata = &weave.Metadata{Schema: 1}; msg.Cnt++; return msg.err`.  The
fresh record is placed at the address after the one in use. -/
def MySerialModel.incrementReset : Migrator MySerialModel :=
  fun _ m =>
    let q : Nat := match m.Metadata with
      | some a => a + 1
      | none => 0
    (⟨some q, Function.update m.records q ⟨1⟩,
      { m.payload with Cnt := wrapInt (m.payload.Cnt + 1) }⟩,
      m.payload.err)

/-- A register of the type of the scan tests whose version 2 migrator replaces the
metadata record. -/
def MySerialModel.regReset : register MySerialModel :=
  ((newRegister.Register 1 "migration.MySerialModel" NoModification).1.Register 2
    "migration.MySerialModel" MySerialModel.incrementReset).1

/-- The loop ends when the counter has passed the target. -/
theorem applyLoop_exit {β : Type} (r : register β) (db : ReadOnlyKVStore) (tp : ReflectType)
    (p t fuel v : Nat) (m : Obj β) (log : List Nat) (hv : ¬ v ≤ t) :
    r.applyLoop db tp p t (fuel + 1) v m log = some ⟨m, log, none⟩ := by
  simp [register.applyLoop, hv]

/-- A missing migrator ends the loop with an `ErrSchema` error. -/
theorem applyLoop_missing {β : Type} (r : register β) (db : ReadOnlyKVStore) (tp : ReflectType)
    (p t fuel v : Nat) (m : Obj β) (log : List Nat) (hv : v ≤ t)
    (hnone : r.migrateTo ⟨tp, v⟩ = none) :
    r.applyLoop db tp p t (fuel + 1) v m log =
      some ⟨m, log, some (errors.Wrapf (errors.root ErrKind.ErrSchema)
        "migration to version %d missing" [FmtArg.num v])⟩ := by
  simp [register.applyLoop, hv, hnone]

/-- A failing migrator ends the loop with its error, wrapped. -/
theorem applyLoop_fail {β : Type} (r : register β) (db : ReadOnlyKVStore) (tp : ReflectType)
    (p t fuel v : Nat) (m m1 : Obj β) (log : List Nat) (mig : Migrator β) (e : Error)
    (hv : v ≤ t) (hmig : r.migrateTo ⟨tp, v⟩ = some mig) (hrun : mig db m = (m1, some e)) :
    r.applyLoop db tp p t (fuel + 1) v m log =
      some ⟨m1, log ++ [v], some (errors.Wrapf e "migration to version %d" [FmtArg.num v])⟩ := by
  simp [register.applyLoop, hv, hmig, hrun]

/-- A successful migrator is followed by the schema bump and the next turn of the loop. -/
theorem applyLoop_next {β : Type} (r : register β) (db : ReadOnlyKVStore) (tp : ReflectType)
    (p t fuel v : Nat) (m m1 : Obj β) (log : List Nat) (mig : Migrator β)
    (hv : v ≤ t) (hmig : r.migrateTo ⟨tp, v⟩ = some mig) (hrun : mig db m = (m1, none)) :
    r.applyLoop db tp p t (fuel + 1) v m log =
      r.applyLoop db tp p t fuel ((v + 1) % uint32Size) (m1.storeSchema p v) (log ++ [v]) := by
  simp [register.applyLoop, hv, hmig, hrun]

/-- What a successful step of the chain says about the register and the migrator. -/
theorem migrateStep_some {β : Type} (r : register β) (db : ReadOnlyKVStore) (tp : ReflectType)
    (p v : Nat) (m m2 : Obj β) (h : r.migrateStep db tp p m v = some m2) :
    ∃ mig m1, r.migrateTo ⟨tp, v⟩ = some mig ∧ mig db m = (m1, none) ∧
      m2 = m1.storeSchema p v := by
  unfold register.migrateStep at h
  cases hmig : r.migrateTo ⟨tp, v⟩ with
  | none => simp [hmig] at h
  | some mig =>
    rcases hrun : mig db m with ⟨m1, e⟩
    cases e with
    | some e => simp [hmig, hrun] at h
    | none =>
      simp [hmig, hrun] at h
      exact ⟨mig, m1, rfl, hrun, h.symm⟩

/-- A successful step of the chain is a turn of the loop. -/
theorem applyLoop_step {β : Type} (r : register β) (db : ReadOnlyKVStore) (tp : ReflectType)
    (p t fuel v : Nat) (m m2 : Obj β) (log : List Nat) (hv : v ≤ t)
    (h : r.migrateStep db tp p m v = some m2) :
    r.applyLoop db tp p t (fuel + 1) v m log =
      r.applyLoop db tp p t fuel ((v + 1) % uint32Size) m2 (log ++ [v]) := by
  obtain ⟨mig, m1, hmig, hrun, rfl⟩ := migrateStep_some r db tp p v m m2 h
  exact applyLoop_next r db tp p t fuel v m m1 log mig hv hmig hrun

/-- The loop follows the chain: `n` successful steps from counter `v`, all of them at
versions up to the target, take `n` turns and leave the counter at `v + n` (wrapped to 32
bits). -/
theorem applyLoop_chain {β : Type} (r : register β) (db : ReadOnlyKVStore) (tp : ReflectType)
    (p t : Nat) (ht : t < uint32Size) (n : Nat) :
    ∀ (fuel v : Nat) (m m1 : Obj β) (log : List Nat), v + n ≤ t + 1 →
      r.migrateChain db tp p (List.range' v n) m = some m1 →
      r.applyLoop db tp p t (fuel + n) (v % uint32Size) m log =
        r.applyLoop db tp p t fuel ((v + n) % uint32Size) m1 (log ++ List.range' v n) := by
  induction n with
  | zero =>
    intro fuel v m m1 log _ h
    simp [register.migrateChain] at h
    subst h
    simp
  | succ n ih =>
    intro fuel v m m1 log hle h
    rw [List.range'_succ] at h
    simp only [register.migrateChain] at h
    cases hstep : r.migrateStep db tp p m v with
    | none => simp [hstep] at h
    | some m2 =>
      simp only [hstep] at h
      have hfuel : fuel + (n + 1) = (fuel + n) + 1 := by omega
      have hmod : v % uint32Size = v := Nat.mod_eq_of_lt (by omega)
      rw [hfuel, hmod, applyLoop_step r db tp p t (fuel + n) v m m2 log (by omega) hstep]
      rw [ih fuel (v + 1) m2 m1 (log ++ [v]) (by omega) h]
      have hv : v + 1 + n = v + (n + 1) := by omega
      rw [hv, List.range'_succ, List.append_assoc]
      rfl

/-- Once the counter has passed the target the loop invokes nothing more: it ends, or,
when the counter has wrapped around to 0, fails on the missing version 0. -/
theorem applyLoop_past_target {β : Type} (r : register β) (db : ReadOnlyKVStore)
    (tp : ReflectType) (p t fuel : Nat) (m : Obj β) (log : List Nat) (ht : t < uint32Size)
    (h0 : r.migrateTo ⟨tp, 0⟩ = none) :
    ∃ e, r.applyLoop db tp p t (fuel + 1) ((t + 1) % uint32Size) m log = some ⟨m, log, e⟩ := by
  by_cases hwrap : t + 1 = uint32Size
  · rw [hwrap, Nat.mod_self]
    exact ⟨_, applyLoop_missing r db tp p t fuel 0 m log (Nat.zero_le t) h0⟩
  · have hmod : (t + 1) % uint32Size = t + 1 := Nat.mod_eq_of_lt (by omega)
    rw [hmod]
    exact ⟨_, applyLoop_exit r db tp p t fuel (t + 1) m log (by omega)⟩

/-- The record at `p` after a chain of `n` steps from schema `s` holds `s + n`. -/
theorem migrateChain_schema {β : Type} (r : register β) (db : ReadOnlyKVStore)
    (tp : ReflectType) (p : Nat) (n : Nat) :
    ∀ (s : Nat) (m m1 : Obj β), (m.records p).Schema = s →
      r.migrateChain db tp p (List.range' (s + 1) n) m = some m1 →
      (m1.records p).Schema = s + n := by
  induction n with
  | zero =>
    intro s m m1 hs h
    simp [register.migrateChain] at h
    subst h
    simpa using hs
  | succ n ih =>
    intro s m m1 _ h
    rw [List.range'_succ] at h
    simp only [register.migrateChain] at h
    cases hstep : r.migrateStep db tp p m (s + 1) with
    | none => simp [hstep] at h
    | some m2 =>
      simp only [hstep] at h
      obtain ⟨mig, m3, _, _, rfl⟩ := migrateStep_some r db tp p (s + 1) m m2 hstep
      have := ih (s + 1) (m3.storeSchema p (s + 1)) m1 (by simp [Obj.storeSchema]) h
      omega

/-- The schema a reader sees when the object points at `p`. -/
theorem Obj.Schema_of_pointer {β : Type} (m : Obj β) (p : Nat) (h : m.Metadata = some p) :
    m.Schema = some (m.records p).Schema := by
  simp [Obj.Schema, Obj.load, h]

/-- The tail of `Apply` keeps the object and the list of invoked migrators. -/
theorem finish_obj {β : Type} (c : Migratable β) (x : LoopExit β) :
    (c.finish x).obj = x.obj ∧ (c.finish x).invoked = x.invoked := by
  obtain ⟨m, log, e⟩ := x
  cases e with
  | some e => exact ⟨rfl, rfl⟩
  | none =>
    simp only [Migratable.finish]
    cases c.Validate m <;> exact ⟨rfl, rfl⟩

/-- Invariant rule for the loop: a property kept by every successful turn and
implying the postcondition at each of the three exits holds of whatever the loop
returns. -/
theorem applyLoop_rule {β : Type} (r : register β) (db : ReadOnlyKVStore) (tp : ReflectType)
    (p t : Nat) (Inv : Nat → Obj β → List Nat → Prop) (Post : LoopExit β → Prop)
    (hexit : ∀ v m log, Inv v m log → ¬ v ≤ t → Post ⟨m, log, none⟩)
    (hmissing : ∀ v m log, Inv v m log → v ≤ t → r.migrateTo ⟨tp, v⟩ = none →
      Post ⟨m, log, some (errors.Wrapf (errors.root ErrKind.ErrSchema)
        "migration to version %d missing" [FmtArg.num v])⟩)
    (hfail : ∀ v m log mig m1 e, Inv v m log → v ≤ t → r.migrateTo ⟨tp, v⟩ = some mig →
      mig db m = (m1, some e) →
      Post ⟨m1, log ++ [v], some (errors.Wrapf e "migration to version %d" [FmtArg.num v])⟩)
    (hstep : ∀ v m log mig m1, Inv v m log → v ≤ t → r.migrateTo ⟨tp, v⟩ = some mig →
      mig db m = (m1, none) →
      Inv ((v + 1) % uint32Size) (m1.storeSchema p v) (log ++ [v])) :
    ∀ (fuel v : Nat) (m : Obj β) (log : List Nat) (x : LoopExit β), Inv v m log →
      r.applyLoop db tp p t fuel v m log = some x → Post x := by
  intro fuel
  induction fuel with
  | zero =>
    intro v m log x _ h
    simp [register.applyLoop] at h
  | succ fuel ih =>
    intro v m log x hinv h
    by_cases hv : v ≤ t
    · cases hmig : r.migrateTo ⟨tp, v⟩ with
      | none =>
        rw [applyLoop_missing r db tp p t fuel v m log hv hmig] at h
        cases h
        exact hmissing v m log hinv hv hmig
      | some mig =>
        rcases hrun : mig db m with ⟨m1, e⟩
        cases e with
        | some e =>
          rw [applyLoop_fail r db tp p t fuel v m m1 log mig e hv hmig hrun] at h
          cases h
          exact hfail v m log mig m1 e hinv hv hmig hrun
        | none =>
          rw [applyLoop_next r db tp p t fuel v m m1 log mig hv hmig hrun] at h
          exact ih _ _ _ x (hstep v m log mig m1 hinv hv hmig hrun) h
    · rw [applyLoop_exit r db tp p t fuel v m log hv] at h
      cases h
      exact hexit v m log hinv hv

/-- Termination of the loop: when version 0 is not registered for the type, the loop
returns within `2 ^ 32 - v + 1` evaluations of its condition. -/
theorem applyLoop_terminates {β : Type} (r : register β) (db : ReadOnlyKVStore)
    (tp : ReflectType) (p t : Nat) (ht : t < uint32Size) (h0 : r.migrateTo ⟨tp, 0⟩ = none) :
    ∀ (k v fuel : Nat) (m : Obj β) (log : List Nat), v + k = uint32Size →
      k + 1 ≤ fuel → ∃ x, r.applyLoop db tp p t fuel v m log = some x := by
  intro k
  induction k with
  | zero =>
    intro v fuel m log hk hfuel
    obtain ⟨f, rfl⟩ : ∃ f, fuel = f + 1 := ⟨fuel - 1, by omega⟩
    exact ⟨_, applyLoop_exit r db tp p t f v m log (by omega)⟩
  | succ k ih =>
    intro v fuel m log hk hfuel
    obtain ⟨f, rfl⟩ : ∃ f, fuel = f + 1 := ⟨fuel - 1, by omega⟩
    by_cases hv : v ≤ t
    · cases hmig : r.migrateTo ⟨tp, v⟩ with
      | none => exact ⟨_, applyLoop_missing r db tp p t f v m log hv hmig⟩
      | some mig =>
        rcases hrun : mig db m with ⟨m1, e⟩
        cases e with
        | some e => exact ⟨_, applyLoop_fail r db tp p t f v m m1 log mig e hv hmig hrun⟩
        | none =>
          rw [applyLoop_next r db tp p t f v m m1 log mig hv hmig hrun]
          by_cases hwrap : v + 1 = uint32Size
          · rw [hwrap, Nat.mod_self]
            obtain ⟨g, rfl⟩ : ∃ g, f = g + 1 := ⟨f - 1, by omega⟩
            exact ⟨_, applyLoop_missing r db tp p t g 0 _ _ (Nat.zero_le t) h0⟩
          · have hmod : (v + 1) % uint32Size = v + 1 := Nat.mod_eq_of_lt (by omega)
            rw [hmod]
            exact ih (v + 1) f _ _ (by omega) (by omega)
    · exact ⟨_, applyLoop_exit r db tp p t f v m log hv⟩

/-! ## From the loop to `Apply` -/

/-- With a target of at least 1 and valid metadata, `Apply` is its loop followed by the
validation of the object. -/
theorem Apply_eq_of_valid {β : Type} (r : register β) (db : ReadOnlyKVStore)
    (c : Migratable β) (m : Obj β) (t fuel p : Nat) (ht : 1 ≤ t) (hp : m.Metadata = some p)
    (hs : 1 ≤ (m.records p).Schema) :
    r.Apply db c m t fuel =
      (r.applyLoop db c.typ p t fuel (((m.records p).Schema + 1) % uint32Size) m []).map
        c.finish := by
  have ht2 : ¬ t < 1 := by omega
  have hs2 : ¬ (m.records p).Schema < 1 := by omega
  unfold register.Apply
  rw [if_neg ht2]
  simp only [Obj.GetMetadata, hp, Metadata.Validate, if_neg hs2]
  cases hloop : r.applyLoop db c.typ p t fuel (((m.records p).Schema + 1) % uint32Size) m [] with
  | none => rfl
  | some x =>
    obtain ⟨m1, log, e⟩ := x
    cases e with
    | some e => rfl
    | none =>
      simp only [Option.map, Migratable.finish]
      cases c.Validate m1 <;> rfl

/-- A call of `Apply` that returns nil went through the loop to its end and validated
the object. -/
theorem Apply_success_inv {β : Type} (r : register β) (db : ReadOnlyKVStore)
    (c : Migratable β) (m : Obj β) (t fuel : Nat) (res : ApplyResult β)
    (h : r.Apply db c m t fuel = some res) (herr : res.err = none) :
    1 ≤ t ∧ ∃ p, m.Metadata = some p ∧ 1 ≤ (m.records p).Schema ∧
      r.applyLoop db c.typ p t fuel (((m.records p).Schema + 1) % uint32Size) m [] =
        some ⟨res.obj, res.invoked, none⟩ ∧
      c.Validate res.obj = none ∧ res.validated = true := by
  by_cases ht : t < 1
  · unfold register.Apply at h
    rw [if_pos ht] at h
    cases h
    simp at herr
  · have ht1 : 1 ≤ t := by omega
    refine ⟨ht1, ?_⟩
    cases hp : m.Metadata with
    | none =>
      unfold register.Apply at h
      rw [if_neg ht] at h
      simp only [Obj.GetMetadata, hp, Metadata.Validate] at h
      cases h
      simp at herr
    | some p =>
      refine ⟨p, rfl, ?_⟩
      by_cases hs : (m.records p).Schema < 1
      · unfold register.Apply at h
        rw [if_neg ht] at h
        simp only [Obj.GetMetadata, hp, Metadata.Validate, if_pos hs] at h
        cases h
        simp at herr
      · have hs1 : 1 ≤ (m.records p).Schema := by omega
        refine ⟨hs1, ?_⟩
        rw [Apply_eq_of_valid r db c m t fuel p ht1 hp hs1] at h
        cases hloop : r.applyLoop db c.typ p t fuel
            (((m.records p).Schema + 1) % uint32Size) m [] with
        | none => simp [hloop] at h
        | some x =>
          obtain ⟨m1, log, e⟩ := x
          simp only [hloop, Option.map, Option.some.injEq] at h
          cases e with
          | some e =>
            simp only [Migratable.finish] at h
            subst h
            simp at herr
          | none =>
            simp only [Migratable.finish] at h
            cases hv : c.Validate m1 with
            | some e2 =>
              simp only [hv] at h
              subst h
              simp at herr
            | none =>
              simp only [hv] at h
              subst h
              exact ⟨rfl, hv, rfl⟩

/-! ## Registration -/

/-- The four exits of `Register`, guard by guard. -/
theorem Register_cases {β : Type} (r : register β) (N : Nat) (tp : ReflectType)
    (fn : Migrator β) :
    (N < 1 ∧ (r.Register N tp fn).1 = r ∧
      ∃ e, (r.Register N tp fn).2 = some e ∧ e.kind = ErrKind.ErrInput) ∨
    (1 < N ∧ r.migrateTo ⟨tp, N - 1⟩ = none ∧ (r.Register N tp fn).1 = r ∧
      ∃ e, (r.Register N tp fn).2 = some e ∧ e.kind = ErrKind.ErrInput) ∨
    (1 ≤ N ∧ (N = 1 ∨ (r.migrateTo ⟨tp, N - 1⟩).isSome = true) ∧
      (r.migrateTo ⟨tp, N⟩).isSome = true ∧ (r.Register N tp fn).1 = r ∧
      ∃ e, (r.Register N tp fn).2 = some e ∧ e.kind = ErrKind.ErrDuplicate) ∨
    (1 ≤ N ∧ (N = 1 ∨ (r.migrateTo ⟨tp, N - 1⟩).isSome = true) ∧
      r.migrateTo ⟨tp, N⟩ = none ∧
      (r.Register N tp fn).1 = ⟨Function.update r.migrateTo ⟨tp, N⟩ (some fn)⟩ ∧
      (r.Register N tp fn).2 = none) := by
  unfold register.Register
  by_cases h1 : N < 1
  · left
    simp [h1, errors.Wrap, errors.root]
  · right
    have h1' : 1 ≤ N := by omega
    by_cases h2 : N > 1 ∧ (r.migrateTo ⟨tp, N - 1⟩).isNone = true
    · left
      refine ⟨h2.1, ?_, ?_⟩
      · exact Option.isNone_iff_eq_none.mp h2.2
      · simp [h1, h2, errors.Wrapf, errors.root]
    · right
      have hpred : N = 1 ∨ (r.migrateTo ⟨tp, N - 1⟩).isSome = true := by
        by_cases hN : N = 1
        · exact Or.inl hN
        · right
          have hgt : N > 1 := by omega
          cases hprev : r.migrateTo ⟨tp, N - 1⟩ with
          | none => exact absurd ⟨hgt, by simp [hprev]⟩ h2
          | some f => rfl
      by_cases h3 : (r.migrateTo ⟨tp, N⟩).isSome = true
      · left
        refine ⟨h1', hpred, h3, ?_, ?_⟩
        · rw [if_neg h1, if_neg h2, if_pos h3]
        · rw [if_neg h1, if_neg h2, if_pos h3]
          exact ⟨_, rfl, rfl⟩
      · right
        refine ⟨h1', hpred, ?_, ?_, ?_⟩
        · cases hcur : r.migrateTo ⟨tp, N⟩ with
          | none => rfl
          | some f => simp [hcur] at h3
        · rw [if_neg h1, if_neg h2, if_neg h3]
        · rw [if_neg h1, if_neg h2, if_neg h3]

/-- A failing `Register` leaves the register as it was. -/
theorem Register_error_unchanged {β : Type} (r : register β) (N : Nat) (tp : ReflectType)
    (fn : Migrator β) (e : Error) (h : (r.Register N tp fn).2 = some e) :
    (r.Register N tp fn).1 = r := by
  rcases Register_cases r N tp fn with h1 | h1 | h1 | h1
  · exact h1.2.1
  · exact h1.2.2.1
  · exact h1.2.2.2.1
  · rw [h1.2.2.2.2] at h
    exact absurd h (by simp)

/-- C2: `Register` rejects a gap in the migration chain.  For every register, payload
type `tp`, version `N > 1` and migrator, if `(tp, N - 1)` is not registered then
`Register(N, tp, fn)` returns an error of kind `ErrInput` and the register is left exactly
as it was, so no entry is added. -/
theorem Register_rejects_gap {β : Type} (r : register β) (tp : ReflectType) (N : Nat)
    (fn : Migrator β) (hN : 1 < N) (hprev : r.migrateTo ⟨tp, N - 1⟩ = none) :
    (∃ e, (r.Register N tp fn).2 = some e ∧ ErrKind.ErrInput.Is (some e) = true) ∧
      (r.Register N tp fn).1 = r := by
  rcases Register_cases r N tp fn with h | h | h | h
  · omega
  · obtain ⟨_, _, hr, e, he, hk⟩ := h
    exact ⟨⟨e, he, by simp [ErrKind.Is, hk]⟩, hr⟩
  · rcases h.2.1 with h1 | h1
    · omega
    · simp [hprev] at h1
  · rcases h.2.1 with h1 | h1
    · omega
    · simp [hprev] at h1

/-- C2, the instance named by the claim: on a fresh register, registering version 1 and
then version 3 for the same type fails on the second call with an `ErrInput` error. -/
theorem Register_rejects_gap_witness :
    (∃ e, (((newRegister.Register 1 "migration.MyModel"
        (NoModification : Migrator MyModel)).1).Register 3 "migration.MyModel"
        NoModification).2 = some e ∧ ErrKind.ErrInput.Is (some e) = true) ∧
      (((newRegister.Register 1 "migration.MyModel"
        (NoModification : Migrator MyModel)).1).Register 3 "migration.MyModel"
        NoModification).1 =
        (newRegister.Register 1 "migration.MyModel" (NoModification : Migrator MyModel)).1 :=
  Register_rejects_gap _ "migration.MyModel" 3 NoModification (by decide) (by rfl)

/-- C3: `Register` rejects duplicates.  For every register in which `(tp, N)` is
registered with migrator `fn`, and either `N = 1` or `N > 1` with `(tp, N - 1)`
registered as well, `Register(N, tp, fn2)` returns an error of kind `ErrDuplicate`, the
register is left exactly as it was, and `(tp, N)` is still mapped to `fn`. -/
theorem Register_rejects_duplicate {β : Type} (r : register β) (tp : ReflectType) (N : Nat)
    (fn fn2 : Migrator β) (hreg : r.migrateTo ⟨tp, N⟩ = some fn)
    (hpred : N = 1 ∨ (1 < N ∧ (r.migrateTo ⟨tp, N - 1⟩).isSome = true)) :
    (∃ e, (r.Register N tp fn2).2 = some e ∧ ErrKind.ErrDuplicate.Is (some e) = true) ∧
      (r.Register N tp fn2).1 = r ∧
      (r.Register N tp fn2).1.migrateTo ⟨tp, N⟩ = some fn := by
  rcases Register_cases r N tp fn2 with h | h | h | h
  · rcases hpred with h1 | h1 <;> omega
  · rcases hpred with h1 | h1
    · omega
    · rw [h.2.1] at h1
      simp at h1
  · obtain ⟨_, _, _, hr, e, he, hk⟩ := h
    refine ⟨⟨e, he, by simp [ErrKind.Is, hk]⟩, hr, ?_⟩
    rw [hr]
    exact hreg
  · rw [h.2.2.1] at hreg
    exact absurd hreg (by simp)

/-- C3, the instance named by the claim: registering versions 1, 2 and 2 again for one
type fails with `ErrDuplicate` on the third call and keeps the first version 2
migrator. -/
theorem Register_rejects_duplicate_witness :
    (∃ e, (MyModel.reg.Register 2 "migration.MyModel" NoModification).2 = some e ∧
        ErrKind.ErrDuplicate.Is (some e) = true) ∧
      (MyModel.reg.Register 2 "migration.MyModel" NoModification).1 = MyModel.reg ∧
      (MyModel.reg.Register 2 "migration.MyModel" NoModification).1.migrateTo
        ⟨"migration.MyModel", 2⟩ = some MyModel.addTwo :=
  Register_rejects_duplicate MyModel.reg "migration.MyModel" 2 MyModel.addTwo NoModification
    (by rfl) (Or.inr ⟨by decide, by decide⟩)

/-- One call of `Register` keeps the chain invariant. -/
theorem Register_keeps_chain {β : Type} (r : register β) (hr : r.ChainComplete) (M : Nat)
    (tq : ReflectType) (fn : Migrator β) : (r.Register M tq fn).1.ChainComplete := by
  rcases Register_cases r M tq fn with h | h | h | h
  · rw [h.2.1]; exact hr
  · rw [h.2.2.1]; exact hr
  · rw [h.2.2.2.1]; exact hr
  · obtain ⟨hM, hpred, _, hnew, _⟩ := h
    rw [hnew]
    have hmono : ∀ pv : payloadVersion, (r.migrateTo pv).isSome = true →
        (Function.update r.migrateTo ⟨tq, M⟩ (some fn) pv).isSome = true := by
      intro pv hpv
      by_cases heq : pv = ⟨tq, M⟩
      · rw [heq, Function.update_same]; rfl
      · rw [Function.update_noteq heq]; exact hpv
    intro tp N hN
    by_cases heq : (⟨tp, N⟩ : payloadVersion) = ⟨tq, M⟩
    · have htp : tp = tq := congrArg payloadVersion.payload heq
      have hNM : N = M := congrArg payloadVersion.version heq
      subst htp
      subst hNM
      refine ⟨hM, ?_⟩
      intro k hk1 hkN
      by_cases hkeq : k = N
      · subst hkeq
        show (Function.update r.migrateTo ⟨tp, k⟩ (some fn) ⟨tp, k⟩).isSome = true
        rw [Function.update_same]; rfl
      · rcases hpred with h1 | hprev
        · omega
        · exact hmono _ ((hr tp (N - 1) hprev).2 k hk1 (by omega))
    · have hold : (r.migrateTo ⟨tp, N⟩).isSome = true := by
        have := hN
        simp only [Function.update_noteq heq] at this
        exact this
      refine ⟨(hr tp N hold).1, ?_⟩
      intro k hk1 hkN
      exact hmono _ ((hr tp N hold).2 k hk1 hkN)

/-- Every reachable register satisfies the chain invariant. -/
theorem Reachable_chain {β : Type} (r : register β) (h : r.Reachable) : r.ChainComplete := by
  induction h with
  | new =>
    intro tp N hN
    simp [newRegister] at hN
  | step r _ M tq fn ih => exact Register_keeps_chain r ih M tq fn

/-- A reachable register has no entry for version 0. -/
theorem Reachable_no_zero {β : Type} (r : register β) (h : r.Reachable) (tp : ReflectType) :
    r.migrateTo ⟨tp, 0⟩ = none := by
  cases h0 : r.migrateTo ⟨tp, 0⟩ with
  | none => rfl
  | some f =>
    have := (Reachable_chain r h tp 0 (by simp [h0])).1
    omega

/-- C4: chain completeness of the register.  In every register reachable from
`newRegister` by any sequence of `Register` calls (successful or failing), for every
payload type `tp` and version `N`: if `(tp, N)` is registered then `N ≥ 1` and `(tp, k)`
is registered for every `k` with `1 ≤ k ≤ N`. -/
theorem Reachable_chain_complete {β : Type} (r : register β) (h : r.Reachable)
    (tp : ReflectType) (N : Nat) (hreg : (r.migrateTo ⟨tp, N⟩).isSome = true) :
    1 ≤ N ∧ ∀ k, 1 ≤ k → k ≤ N → (r.migrateTo ⟨tp, k⟩).isSome = true := by
  induction h generalizing tp N with
  | new => simp [newRegister] at hreg
  | step r _ M tq fn ih =>
    exact Register_keeps_chain r (fun tp N hN => ih tp N hN) M tq fn tp N hreg

/-- The register of the tests is reachable. -/
theorem MyModel_reg_reachable : MyModel.reg.Reachable :=
  register.Reachable.step _ (register.Reachable.step _ register.Reachable.new 1
    "migration.MyModel" NoModification) 2 "migration.MyModel" MyModel.addTwo

/-- C4 at the register of the tests, where version 2 of `MyModel` is registered. -/
theorem Reachable_chain_complete_witness :
    1 ≤ 2 ∧ ∀ k, 1 ≤ k → k ≤ 2 →
      (MyModel.reg.migrateTo ⟨"migration.MyModel", k⟩).isSome = true :=
  Reachable_chain_complete MyModel.reg MyModel_reg_reachable "migration.MyModel" 2 (by decide)

/-! ## Applying a migration chain -/

/-- C1 (amended): `Apply` runs the migration chain in strict version order.  For every
register built by `Register` calls, every object whose metadata record (at address `p`)
is valid with `Schema = s`, and every target `t` with `s ≤ t`: if the chain of steps for
the versions `s+1, ..., t` succeeds with result `m1`, then `Apply` returns, it has invoked
exactly the migrators for `s+1, ..., t`, in ascending order and each once, it leaves the
object equal to `m1`, and the metadata record the object carried on entry holds
`Schema = t`; so the object's `Metadata.Schema` is `t` provided its `Metadata` field
still points at that record. -/
theorem Apply_runs_chain {β : Type} (r : register β) (hreach : r.Reachable)
    (db : ReadOnlyKVStore) (c : Migratable β) (m m1 : Obj β) (p s t fuel : Nat)
    (hp : m.Metadata = some p) (hs : (m.records p).Schema = s) (hvalid : 1 ≤ s)
    (hst : s ≤ t) (ht : t < uint32Size)
    (hchain : r.migrateChain db c.typ p (List.range' (s + 1) (t - s)) m = some m1)
    (hfuel : t - s + 1 ≤ fuel) :
    ∃ res, r.Apply db c m t fuel = some res ∧
      res.invoked = List.range' (s + 1) (t - s) ∧ res.obj = m1 ∧
      (res.obj.records p).Schema = t ∧
      (res.obj.Metadata = some p → res.obj.Schema = some t) := by
  have h0 := Reachable_no_zero r hreach c.typ
  have hrec : (m1.records p).Schema = t := by
    have := migrateChain_schema r db c.typ p (t - s) s m m1 hs hchain
    omega
  obtain ⟨f, rfl⟩ : ∃ f, fuel = (f + 1) + (t - s) := ⟨fuel - (t - s) - 1, by omega⟩
  rw [Apply_eq_of_valid r db c m t _ p (by omega) hp (by omega), hs,
    applyLoop_chain r db c.typ p t ht (t - s) (f + 1) (s + 1) m m1 [] (by omega) hchain]
  have hcnt : s + 1 + (t - s) = t + 1 := by omega
  rw [hcnt]
  obtain ⟨e, he⟩ := applyLoop_past_target r db c.typ p t f m1
    ([] ++ List.range' (s + 1) (t - s)) ht h0
  rw [he]
  refine ⟨_, rfl, ?_, ?_, ?_, ?_⟩
  · simp [(finish_obj c _).2]
  · exact (finish_obj c _).1
  · rw [(finish_obj c _).1]; exact hrec
  · intro hkeep
    rw [(finish_obj c _).1] at hkeep ⊢
    rw [Obj.Schema_of_pointer m1 p hkeep, hrec]

/-- C1 (amended) on the test data: a `MyModel` at schema 1 with `Cnt = 5`, migrated to
version 2 by the register of the tests. -/
theorem Apply_runs_chain_witness :
    ∃ res, MyModel.reg.Apply emptyStore MyModel.iface (MyModel.mk0 1 5) 2 2 = some res ∧
      res.invoked = List.range' (1 + 1) (2 - 1) ∧
      res.obj = ((MyModel.addTwo emptyStore (MyModel.mk0 1 5)).1).storeSchema 0 2 ∧
      (res.obj.records 0).Schema = 2 ∧
      (res.obj.Metadata = some 0 → res.obj.Schema = some 2) :=
  Apply_runs_chain MyModel.reg MyModel_reg_reachable emptyStore MyModel.iface
    (MyModel.mk0 1 5) _ 0 1 2 2 rfl rfl (by decide) (by decide) (by decide) rfl (by decide)

/-- C1 as stated fails in two ways.  (a) With `Schema = 3` and target 1 the range of
versions is empty, `Apply` invokes nothing and returns nil, and `Metadata.Schema` stays 3
instead of becoming 1.  (b) With `Schema = 1`, target 2 and a version 2 migrator that
replaces the metadata record, the migrator runs and succeeds, `Apply` returns nil, and
the object's `Metadata.Schema` is 1 instead of 2. -/
theorem Apply_runs_chain_counterexample :
    ((MyModel.reg.Apply emptyStore MyModel.iface (MyModel.mk0 3 5) 1 3).map
        (fun res => (res.err, res.invoked, res.obj.Schema)) = some (none, [], some 3)) ∧
    ((MyModel.regReset.Apply emptyStore MyModel.iface (MyModel.mk0 1 5) 2 3).map
        (fun res => (res.err, res.invoked, res.obj.Schema)) = some (none, [2], some 1)) := by
  constructor <;> decide

/-- C5 (amended): `Apply` never skips a missing migration.  For every object whose
metadata record (at address `p`) is valid with `Schema = s`, and every target `t`: if the
steps for the versions `s+1, ..., v-1` succeed with result `m1` and no migrator is
registered for version `v`, `s < v ≤ t`, then `Apply` returns an error of kind
`ErrSchema`, it has invoked the migrators for `s+1, ..., v-1` and no other, it has not
called `Validate`, it leaves the object equal to `m1`, and the metadata record the object
carried on entry holds `Schema = v - 1`; so the object's `Metadata.Schema` is `v - 1`
provided its `Metadata` field still points at that record. -/
theorem Apply_missing_migration {β : Type} (r : register β) (db : ReadOnlyKVStore)
    (c : Migratable β) (m m1 : Obj β) (p s v t fuel : Nat)
    (hp : m.Metadata = some p) (hs : (m.records p).Schema = s) (hvalid : 1 ≤ s)
    (hsv : s < v) (hvt : v ≤ t) (ht : t < uint32Size)
    (hchain : r.migrateChain db c.typ p (List.range' (s + 1) (v - 1 - s)) m = some m1)
    (hmiss : r.migrateTo ⟨c.typ, v⟩ = none) (hfuel : v - s ≤ fuel) :
    ∃ res, r.Apply db c m t fuel = some res ∧
      ErrKind.ErrSchema.Is res.err = true ∧
      res.invoked = List.range' (s + 1) (v - 1 - s) ∧ res.validated = false ∧
      res.obj = m1 ∧ (res.obj.records p).Schema = v - 1 ∧
      (res.obj.Metadata = some p → res.obj.Schema = some (v - 1)) := by
  have hrec : (m1.records p).Schema = v - 1 := by
    have := migrateChain_schema r db c.typ p (v - 1 - s) s m m1 hs hchain
    omega
  obtain ⟨f, rfl⟩ : ∃ f, fuel = (f + 1) + (v - 1 - s) := ⟨fuel - (v - 1 - s) - 1, by omega⟩
  rw [Apply_eq_of_valid r db c m t _ p (by omega) hp (by omega), hs,
    applyLoop_chain r db c.typ p t ht (v - 1 - s) (f + 1) (s + 1) m m1 [] (by omega) hchain]
  have hcnt : (s + 1 + (v - 1 - s)) % uint32Size = v := by
    have : s + 1 + (v - 1 - s) = v := by omega
    rw [this]
    exact Nat.mod_eq_of_lt (by omega)
  rw [hcnt, applyLoop_missing r db c.typ p t f v m1 _ hvt hmiss]
  refine ⟨_, rfl, rfl, by simp [Migratable.finish], rfl, rfl, hrec, ?_⟩
  intro hkeep
  exact (Obj.Schema_of_pointer m1 p hkeep).trans (by rw [hrec])

/-- C5 (amended) on the test data: a `MyModel` at schema 1 asked to reach version 3
while the register of the tests stops at version 2. -/
theorem Apply_missing_migration_witness :
    ∃ res, MyModel.reg.Apply emptyStore MyModel.iface (MyModel.mk0 1 5) 3 2 = some res ∧
      ErrKind.ErrSchema.Is res.err = true ∧
      res.invoked = List.range' (1 + 1) (3 - 1 - 1) ∧ res.validated = false ∧
      res.obj = ((MyModel.addTwo emptyStore (MyModel.mk0 1 5)).1).storeSchema 0 2 ∧
      (res.obj.records 0).Schema = 3 - 1 ∧
      (res.obj.Metadata = some 0 → res.obj.Schema = some (3 - 1)) :=
  Apply_missing_migration MyModel.reg emptyStore MyModel.iface (MyModel.mk0 1 5) _ 0 1 3 3 2
    rfl rfl (by decide) (by decide) (by decide) (by decide) rfl rfl (by decide)

/-- C5 as stated fails when a migrator that ran replaced the metadata record: with
`Schema = 1`, target 3, such a migrator at version 2 and none at version 3, `Apply`
returns the `ErrSchema` error after invoking version 2 only, and the object's
`Metadata.Schema` is 1, not `v - 1 = 2`. -/
theorem Apply_missing_migration_counterexample :
    (MyModel.regReset.Apply emptyStore MyModel.iface (MyModel.mk0 1 5) 3 3).map
        (fun res => (ErrKind.ErrSchema.Is res.err, res.invoked, res.obj.Schema)) =
      some (true, [2], some 1) := by
  decide

/-- C6 (amended): a failing migrator aborts `Apply` at once.  For every object whose
metadata record (at address `p`) is valid with `Schema = s`: if the steps for the
versions `s+1, ..., v-1` succeed with result `m1` and the migrator registered for version
`v`, `s < v ≤ t`, turns `m1` into `m2` and returns the error `e`, then `Apply` returns
`e` wrapped (same kind), it has invoked the migrators for `s+1, ..., v` and no other, it
has not called `Validate`, and it leaves the object equal to `m2`.  The object's
`Metadata.Schema` is `v - 1` provided the `Metadata` field of `m1` still points at the
record the object carried on entry and the failing migrator has not changed the object's
`Metadata.Schema`. -/
theorem Apply_failing_migrator {β : Type} (r : register β) (db : ReadOnlyKVStore)
    (c : Migratable β) (m m1 m2 : Obj β) (p s v t fuel : Nat) (mig : Migrator β) (e : Error)
    (hp : m.Metadata = some p) (hs : (m.records p).Schema = s) (hvalid : 1 ≤ s)
    (hsv : s < v) (hvt : v ≤ t) (ht : t < uint32Size)
    (hchain : r.migrateChain db c.typ p (List.range' (s + 1) (v - 1 - s)) m = some m1)
    (hmig : r.migrateTo ⟨c.typ, v⟩ = some mig) (hrun : mig db m1 = (m2, some e))
    (hfuel : v - s ≤ fuel) :
    ∃ res, r.Apply db c m t fuel = some res ∧
      res.err = some (errors.Wrapf e "migration to version %d" [FmtArg.num v]) ∧
      e.kind.Is res.err = true ∧
      res.invoked = List.range' (s + 1) (v - s) ∧ res.validated = false ∧
      res.obj = m2 ∧
      (m1.Metadata = some p → m2.Schema = m1.Schema → res.obj.Schema = some (v - 1)) := by
  have hrec : (m1.records p).Schema = v - 1 := by
    have := migrateChain_schema r db c.typ p (v - 1 - s) s m m1 hs hchain
    omega
  obtain ⟨f, rfl⟩ : ∃ f, fuel = (f + 1) + (v - 1 - s) := ⟨fuel - (v - 1 - s) - 1, by omega⟩
  rw [Apply_eq_of_valid r db c m t _ p (by omega) hp (by omega), hs,
    applyLoop_chain r db c.typ p t ht (v - 1 - s) (f + 1) (s + 1) m m1 [] (by omega) hchain]
  have hv : s + 1 + (v - 1 - s) = v := by omega
  have hcnt : (s + 1 + (v - 1 - s)) % uint32Size = v := by
    rw [hv]
    exact Nat.mod_eq_of_lt (by omega)
  rw [hcnt, applyLoop_fail r db c.typ p t f v m1 m2 _ mig e hvt hmig hrun]
  refine ⟨_, rfl, rfl, by simp [Migratable.finish, ErrKind.Is, errors.Wrapf], ?_, rfl, rfl, ?_⟩
  · have hlen : v - s = (v - 1 - s) + 1 := by omega
    simp only [Option.map, Migratable.finish, List.nil_append]
    rw [hlen, List.range'_concat, Nat.one_mul, hv]
  · intro hkeep hsame
    show m2.Schema = some (v - 1)
    rw [hsame, Obj.Schema_of_pointer m1 p hkeep, hrec]

/-- C6 (amended) on the test data: a `MyModel` at schema 1 whose version 2 migrator adds
2 to `Cnt` and then returns the stored `ErrHuman` error. -/
theorem Apply_failing_migrator_witness :
    ∃ res, MyModel.reg.Apply emptyStore MyModel.iface (MyModel.mkErr 1 5) 2 1 = some res ∧
      res.err = some (errors.Wrapf (errors.root ErrKind.ErrHuman) "migration to version %d"
        [FmtArg.num 2]) ∧
      ErrKind.ErrHuman.Is res.err = true ∧
      res.invoked = List.range' (1 + 1) (2 - 1) ∧ res.validated = false ∧
      res.obj = (MyModel.addTwo emptyStore (MyModel.mkErr 1 5)).1 ∧
      ((MyModel.mkErr 1 5).Metadata = some 0 →
        (MyModel.addTwo emptyStore (MyModel.mkErr 1 5)).1.Schema = (MyModel.mkErr 1 5).Schema →
        res.obj.Schema = some (2 - 1)) :=
  Apply_failing_migrator MyModel.reg emptyStore MyModel.iface (MyModel.mkErr 1 5)
    (MyModel.mkErr 1 5) _ 0 1 2 2 1 MyModel.addTwo (errors.root ErrKind.ErrHuman)
    rfl rfl (by decide) (by decide) (by decide) (by decide) rfl rfl rfl (by decide)

/-- C6 as stated fails in two ways.  (a) The failing migrator of version 2 has written
`Metadata.Schema = 7` before returning its error: `Apply` returns the error and the
object's `Metadata.Schema` is 7, not `v - 1 = 1`.  (b) The version 2 migrator has
replaced the metadata record and the version 3 migrator refuses: `Apply` returns the
error after invoking versions 2 and 3, and the object's `Metadata.Schema` is 1, not
`v - 1 = 2`. -/
theorem Apply_failing_migrator_counterexample :
    ((MyModel.regStamp.Apply emptyStore MyModel.iface (MyModel.mk0 1 5) 2 3).map
        (fun res => (ErrKind.ErrHuman.Is res.err, res.invoked, res.obj.Schema)) =
      some (true, [2], some 7)) ∧
    ((MyModel.regResetRefuse.Apply emptyStore MyModel.iface (MyModel.mk0 1 5) 3 3).map
        (fun res => (ErrKind.ErrSchema.Is res.err, res.invoked, res.obj.Schema)) =
      some (true, [2, 3], some 1)) := by
  constructor <;> decide

/-- When the loop runs to its end from a counter one above the schema held at `p`, the
target is below the largest `uint32` and the record at `p` holds the target. -/
theorem applyLoop_end_schema {β : Type} (r : register β) (db : ReadOnlyKVStore)
    (tp : ReflectType) (p t fuel : Nat) (m : Obj β) (x : LoopExit β)
    (hst : (m.records p).Schema ≤ t) (ht : t < uint32Size)
    (h : r.applyLoop db tp p t fuel (((m.records p).Schema + 1) % uint32Size) m [] = some x)
    (herr : x.err = none) :
    t + 1 < uint32Size ∧ (x.obj.records p).Schema = t := by
  have hpos : 0 < uint32Size := by decide
  refine applyLoop_rule r db tp p t
    (fun v y _ => v < uint32Size ∧
      (t + 1 < uint32Size → (y.records p).Schema + 1 = v ∧ v ≤ t + 1))
    (fun y => y.err = none → t + 1 < uint32Size ∧ (y.obj.records p).Schema = t)
    ?_ ?_ ?_ ?_ fuel _ m [] x ?_ h herr
  · intro v y log hinv hv _
    have hlt : t + 1 < uint32Size := by omega
    have := hinv.2 hlt
    refine ⟨hlt, ?_⟩
    show (y.records p).Schema = t
    omega
  · intro v y log _ _ _ hnone
    simp at hnone
  · intro v y log mig m1 e _ _ _ _ hnone
    simp at hnone
  · intro v y log mig m1 hinv hv _ _
    refine ⟨Nat.mod_lt _ hpos, ?_⟩
    intro hlt
    have hmod : (v + 1) % uint32Size = v + 1 := Nat.mod_eq_of_lt (by omega)
    rw [hmod]
    exact ⟨by simp [Obj.storeSchema], by omega⟩
  · refine ⟨Nat.mod_lt _ hpos, ?_⟩
    intro hlt
    have hmod : ((m.records p).Schema + 1) % uint32Size = (m.records p).Schema + 1 :=
      Nat.mod_eq_of_lt (by omega)
    rw [hmod]
    exact ⟨rfl, by omega⟩

/-- C7 (amended): for every register, object and target `t`, whenever `Apply` returns
without error on an object whose metadata record (at address `p`) held a schema of at
most `t` on entry, that record holds `Schema = t` afterwards; so the object's
`Metadata.Schema` equals `t` provided its `Metadata` field still points at that
record. -/
theorem Apply_success_schema {β : Type} (r : register β) (db : ReadOnlyKVStore)
    (c : Migratable β) (m : Obj β) (p t fuel : Nat) (res : ApplyResult β)
    (hp : m.Metadata = some p) (hst : (m.records p).Schema ≤ t) (ht : t < uint32Size)
    (hres : r.Apply db c m t fuel = some res) (herr : res.err = none) :
    (res.obj.records p).Schema = t ∧ (res.obj.Metadata = some p → res.obj.Schema = some t) := by
  obtain ⟨_, q, hq, _, hloop, _, _⟩ := Apply_success_inv r db c m t fuel res hres herr
  have hpq : q = p := by
    rw [hp] at hq
    exact (Option.some.inj hq).symm
  subst hpq
  have hrec := (applyLoop_end_schema r db c.typ q t fuel m _ hst ht hloop rfl).2
  refine ⟨hrec, ?_⟩
  intro hkeep
  exact (Obj.Schema_of_pointer res.obj q hkeep).trans (by rw [← hrec])

/-- C7 (amended) on the test data: `Apply` takes a `MyModel` from schema 1 to version 2
and returns nil; the record at address 0 then holds `Schema = 2`. -/
theorem Apply_success_schema_witness :
    MyModel.reg.Apply emptyStore MyModel.iface (MyModel.mk0 1 5) 2 2 =
      some ⟨((MyModel.addTwo emptyStore (MyModel.mk0 1 5)).1).storeSchema 0 2, none, [2],
        true⟩ ∧
    ((((MyModel.addTwo emptyStore (MyModel.mk0 1 5)).1).storeSchema 0 2).records 0).Schema = 2 ∧
    ((((MyModel.addTwo emptyStore (MyModel.mk0 1 5)).1).storeSchema 0 2).Metadata = some 0 →
      (((MyModel.addTwo emptyStore (MyModel.mk0 1 5)).1).storeSchema 0 2).Schema = some 2) :=
  ⟨rfl, Apply_success_schema MyModel.reg emptyStore MyModel.iface (MyModel.mk0 1 5) 0 2 2
    ⟨((MyModel.addTwo emptyStore (MyModel.mk0 1 5)).1).storeSchema 0 2, none, [2], true⟩
    rfl (by decide) (by decide) rfl rfl⟩

/-- C7 as stated fails in two ways.  (a) An object at schema 3 with target 1: the loop is
not entered, `Apply` returns nil and `Metadata.Schema` is still 3.  (b) An object at
schema 1 with target 2 and a version 2 migrator that replaces the metadata record:
`Apply` returns nil and the object's `Metadata.Schema` is 1. -/
theorem Apply_success_schema_counterexample :
    ((MyModel.reg.Apply emptyStore MyModel.iface (MyModel.mk0 3 5) 1 1).map
        (fun res => (res.err, res.obj.Schema)) = some (none, some 3)) ∧
    ((MyModel.regReset.Apply emptyStore MyModel.iface (MyModel.mk0 1 5) 2 2).map
        (fun res => (res.err, res.obj.Schema)) = some (none, some 1)) := by
  constructor <;> decide

/-- Away from the largest `uint32`, validation decides the outcome of `Apply`: with
valid metadata at schema `s`, a target `t ≥ 1` and a successful chain for the versions
`s+1, ..., t` (none when `t ≤ s`), `Apply` returns what `Validate` says about the fully
migrated object, wrapped when it is an error.  `Validate` is called once, on the final
object `m1` only. -/
theorem Apply_validate_decides {β : Type} (r : register β) (db : ReadOnlyKVStore)
    (c : Migratable β) (m m1 : Obj β) (p s t fuel : Nat)
    (hp : m.Metadata = some p) (hs : (m.records p).Schema = s) (hvalid : 1 ≤ s)
    (ht1 : 1 ≤ t) (hs32 : s + 1 < uint32Size) (ht : t + 1 < uint32Size)
    (hchain : r.migrateChain db c.typ p (List.range' (s + 1) (t - s)) m = some m1)
    (hfuel : t - s + 1 ≤ fuel) :
    r.Apply db c m t fuel =
      some ⟨m1, (c.Validate m1).map (fun err => errors.Wrap err "validation"),
        List.range' (s + 1) (t - s), true⟩ := by
  obtain ⟨f, rfl⟩ : ∃ f, fuel = (f + 1) + (t - s) := ⟨fuel - (t - s) - 1, by omega⟩
  rw [Apply_eq_of_valid r db c m t _ p ht1 hp (by omega), hs]
  by_cases hst : s ≤ t
  · rw [applyLoop_chain r db c.typ p t (by omega) (t - s) (f + 1) (s + 1) m m1 []
      (by omega) hchain]
    have hcnt : (s + 1 + (t - s)) % uint32Size = t + 1 := by
      have : s + 1 + (t - s) = t + 1 := by omega
      rw [this]
      exact Nat.mod_eq_of_lt ht
    rw [hcnt, applyLoop_exit r db c.typ p t f (t + 1) m1 _ (by omega)]
    simp only [Option.map, Migratable.finish, List.nil_append]
    cases c.Validate m1 <;> rfl
  · have hzero : t - s = 0 := by omega
    rw [hzero] at hchain ⊢
    simp only [List.range', register.migrateChain, Option.some.injEq] at hchain
    subst hchain
    have hmod : (s + 1) % uint32Size = s + 1 := Nat.mod_eq_of_lt hs32
    rw [hmod, applyLoop_exit r db c.typ p t (f + 0) (s + 1) m [] (by omega)]
    simp only [Option.map, Migratable.finish, List.range']
    cases c.Validate m <;> rfl

/-- C8 fails at the largest schema version.  On a fresh register, for a `MyModel` whose
metadata is valid with `Schema = 4294967295` and whose `Validate` succeeds, and target 1,
no migration is required; yet the counter `meta.Schema + 1` wraps around to 0, the loop
is entered, and `Apply` returns the `ErrSchema` error about a missing version 0 without
calling `Validate`. -/
theorem Apply_max_schema_not_validated :
    MyModel.iface.Validate (MyModel.mk0 4294967295 5) = none ∧
    ((newRegister : register MyModel).migrateChain emptyStore "migration.MyModel" 0 []
        (MyModel.mk0 4294967295 5)).isSome = true ∧
    (newRegister.Apply emptyStore MyModel.iface (MyModel.mk0 4294967295 5) 1 2).map
        (fun res => (res.err, res.invoked, res.validated)) =
      some (some (errors.Wrapf (errors.root ErrKind.ErrSchema)
        "migration to version %d missing" [FmtArg.num 0]), [], false) := by
  refine ⟨by decide, by decide, by decide⟩

/-- The schema a reader sees after `p.Schema = v`: `v` when the object points at `p`,
otherwise what it was. -/
theorem Obj.Schema_storeSchema {β : Type} (x : Obj β) (p v : Nat) :
    (x.storeSchema p v).Schema = if x.Metadata = some p then some v else x.Schema := by
  cases hq : x.Metadata with
  | none => simp [Obj.Schema, Obj.load, Obj.storeSchema, hq]
  | some q =>
    by_cases hqp : q = p
    · subst hqp
      simp [Obj.Schema, Obj.load, Obj.storeSchema, hq]
    · have hne : ¬ (some q = some p) := fun h => hqp (Option.some.inj h)
      simp [Obj.Schema, Obj.load, Obj.storeSchema, hq, hqp, Function.update_noteq hqp]

/-- Whatever the loop returns, started one above a schema `s` and run with migrators that
leave the object's `Metadata.Schema` alone, shows a schema between `s` and
`max s t`. -/
theorem applyLoop_schema_bounds {β : Type} (r : register β) (db : ReadOnlyKVStore)
    (tp : ReflectType) (p s t fuel : Nat) (m : Obj β) (x : LoopExit β)
    (h0 : r.migrateTo ⟨tp, 0⟩ = none) (hs : m.Schema = some s) (hs32 : s < uint32Size)
    (ht : t < uint32Size)
    (hmig : ∀ v mig, r.migrateTo ⟨tp, v⟩ = some mig → ∀ y, (mig db y).1.Schema = y.Schema)
    (h : r.applyLoop db tp p t fuel ((s + 1) % uint32Size) m [] = some x) :
    ∃ s1, x.obj.Schema = some s1 ∧ s ≤ s1 ∧ s1 ≤ max s t := by
  refine applyLoop_rule r db tp p t
    (fun v y _ => (v = 0 ∨ s < v) ∧ ∃ s1, y.Schema = some s1 ∧ s ≤ s1 ∧ s1 ≤ max s t)
    (fun y => ∃ s1, y.obj.Schema = some s1 ∧ s ≤ s1 ∧ s1 ≤ max s t)
    ?_ ?_ ?_ ?_ fuel _ m [] x ?_ h
  · intro v y log hinv _
    exact hinv.2
  · intro v y log hinv _ _
    exact hinv.2
  · intro v y log mig m1 e hinv _ hreg hrun
    obtain ⟨s1, hs1, hle, hmax⟩ := hinv.2
    refine ⟨s1, ?_, hle, hmax⟩
    have := hmig v mig hreg y
    rw [hrun] at this
    exact this.trans hs1
  · intro v y log mig m1 hinv hv hreg hrun
    obtain ⟨s1, hs1, hle, hmax⟩ := hinv.2
    have hkeep : m1.Schema = some s1 := by
      have := hmig v mig hreg y
      rw [hrun] at this
      exact this.trans hs1
    have hv0 : v ≠ 0 := by
      intro hv0
      rw [hv0, h0] at hreg
      exact absurd hreg (by simp)
    have hsv : s < v := by
      rcases hinv.1 with h1 | h1
      · exact absurd h1 hv0
      · exact h1
    refine ⟨?_, ?_⟩
    · by_cases hwrap : v + 1 = uint32Size
      · left
        rw [hwrap, Nat.mod_self]
      · right
        have hmod : (v + 1) % uint32Size = v + 1 := Nat.mod_eq_of_lt (by omega)
        rw [hmod]
        omega
    · rw [Obj.Schema_storeSchema]
      by_cases hptr : m1.Metadata = some p
      · rw [if_pos hptr]
        exact ⟨v, rfl, by omega, by omega⟩
      · rw [if_neg hptr]
        exact ⟨s1, hkeep, hle, hmax⟩
  · refine ⟨?_, s, hs, le_refl s, le_max_left s t⟩
    by_cases hwrap : s + 1 = uint32Size
    · left
      rw [hwrap, Nat.mod_self]
    · right
      have hmod : (s + 1) % uint32Size = s + 1 := Nat.mod_eq_of_lt (by omega)
      rw [hmod]
      omega

/-- C9: `Apply` only ever increases the schema marker.  For every register built by
`Register` calls whose migrators for the object's type leave the object's
`Metadata.Schema` as they found it, every object showing `Metadata.Schema = s` and every
target `t` (both 32-bit values), `Apply` returns, whatever the outcome (success, missing
migration, migrator failure, validation failure, rejected target or metadata), and the
object then shows a `Metadata.Schema` that is at least `s` and at most `max s t`. -/
theorem Apply_schema_monotone {β : Type} (r : register β) (hreach : r.Reachable)
    (db : ReadOnlyKVStore) (c : Migratable β) (m : Obj β) (s t fuel : Nat)
    (hs : m.Schema = some s) (hs32 : s < uint32Size) (ht : t < uint32Size)
    (hmig : ∀ v mig, r.migrateTo ⟨c.typ, v⟩ = some mig → ∀ y, (mig db y).1.Schema = y.Schema)
    (hfuel : uint32Size + 1 ≤ fuel) :
    ∃ res s1, r.Apply db c m t fuel = some res ∧ res.obj.Schema = some s1 ∧ s ≤ s1 ∧
      s1 ≤ max s t := by
  have h0 := Reachable_no_zero r hreach c.typ
  have hpos : 0 < uint32Size := by decide
  cases hp : m.Metadata with
  | none => simp [Obj.Schema, Obj.load, hp] at hs
  | some p =>
    have hrec : (m.records p).Schema = s := by
      rw [Obj.Schema_of_pointer m p hp] at hs
      exact Option.some.inj hs
    by_cases ht1 : t < 1
    · refine ⟨⟨m, some (errors.Wrap (errors.root ErrKind.ErrInput)
        "minimal allowed version is 1"), [], false⟩, s, ?_, hs, le_refl s, le_max_left s t⟩
      unfold register.Apply
      rw [if_pos ht1]
    · by_cases hs1 : (m.records p).Schema < 1
      · refine ⟨⟨m, some (errors.Wrap (errors.root ErrKind.ErrMetadata)
          "schema version less than 1"), [], false⟩, s, ?_, hs, le_refl s, le_max_left s t⟩
        unfold register.Apply
        rw [if_neg ht1]
        simp only [Obj.GetMetadata, hp, Metadata.Validate, if_pos hs1]
      · rw [Apply_eq_of_valid r db c m t fuel p (by omega) hp (by omega), hrec]
        have hlt : (s + 1) % uint32Size < uint32Size := Nat.mod_lt _ hpos
        obtain ⟨x, hx⟩ := applyLoop_terminates r db c.typ p t ht h0
          (uint32Size - (s + 1) % uint32Size) ((s + 1) % uint32Size) fuel m []
          (by omega) (by omega)
        obtain ⟨s1, hs1', hle, hmax⟩ :=
          applyLoop_schema_bounds r db c.typ p s t fuel m x h0 hs hs32 ht hmig hx
        refine ⟨c.finish x, s1, ?_, ?_, hle, hmax⟩
        · rw [hx]; rfl
        · rw [(finish_obj c x).1]; exact hs1'

/-- The migrators of the register of the tests leave `Metadata.Schema` alone. -/
theorem MyModel_reg_keeps_schema (db : ReadOnlyKVStore) (v : Nat) (mig : Migrator MyModel)
    (h : MyModel.reg.migrateTo ⟨"migration.MyModel", v⟩ = some mig) (y : Obj MyModel) :
    (mig db y).1.Schema = y.Schema := by
  have hreg : MyModel.reg = ⟨Function.update (Function.update (fun _ => none)
      ⟨"migration.MyModel", 1⟩ (some NoModification)) ⟨"migration.MyModel", 2⟩
      (some MyModel.addTwo)⟩ := rfl
  rw [hreg] at h
  simp only at h
  by_cases h2 : v = 2
  · subst h2
    rw [Function.update_same] at h
    cases h
    rfl
  · have hne2 : (⟨"migration.MyModel", v⟩ : payloadVersion) ≠ ⟨"migration.MyModel", 2⟩ := by
      intro heq
      exact h2 (congrArg payloadVersion.version heq)
    simp only [Function.update_noteq hne2] at h
    by_cases h1 : v = 1
    · subst h1
      rw [Function.update_same] at h
      cases h
      rfl
    · have hne1 : (⟨"migration.MyModel", v⟩ : payloadVersion) ≠ ⟨"migration.MyModel", 1⟩ := by
        intro heq
        exact h1 (congrArg payloadVersion.version heq)
      simp only [Function.update_noteq hne1] at h
      exact absurd h (by simp)

/-- C9 on the test data: a `MyModel` at schema 1 and target 2 under the register of the
tests. -/
theorem Apply_schema_monotone_witness :
    ∃ res s1, MyModel.reg.Apply emptyStore MyModel.iface (MyModel.mk0 1 5) 2
        (uint32Size + 1) = some res ∧ res.obj.Schema = some s1 ∧ 1 ≤ s1 ∧ s1 ≤ max 1 2 :=
  Apply_schema_monotone MyModel.reg MyModel_reg_reachable emptyStore MyModel.iface
    (MyModel.mk0 1 5) 1 2 (uint32Size + 1) rfl (by decide) (by decide)
    (MyModel_reg_keeps_schema emptyStore) (le_refl _)

/-- An object whose metadata record already holds the target makes `Apply` return
without invoking a migrator and without touching the object. -/
theorem Apply_at_target {β : Type} (r : register β) (db : ReadOnlyKVStore)
    (c : Migratable β) (t : Nat) (ht : t < uint32Size)
    (h0 : r.migrateTo ⟨c.typ, 0⟩ = none) (m : Obj β) (p fuel : Nat)
    (hp : m.Metadata = some p) (hs : (m.records p).Schema = t) (hfuel : 1 ≤ fuel) :
    ∃ res, r.Apply db c m t fuel = some res ∧ res.invoked = [] ∧ res.obj = m := by
  by_cases ht1 : t < 1
  · refine ⟨⟨m, some (errors.Wrap (errors.root ErrKind.ErrInput)
      "minimal allowed version is 1"), [], false⟩, ?_, rfl, rfl⟩
    unfold register.Apply
    rw [if_pos ht1]
  · obtain ⟨f, rfl⟩ : ∃ f, fuel = f + 1 := ⟨fuel - 1, by omega⟩
    rw [Apply_eq_of_valid r db c m t _ p (by omega) hp (by omega), hs]
    obtain ⟨e, he⟩ := applyLoop_past_target r db c.typ p t f m [] ht h0
    rw [he]
    exact ⟨_, rfl, (finish_obj c _).2, (finish_obj c _).1⟩

/-- C10 (amended): migrate-once idempotence of `Apply`, for every register built by
`Register` calls and every 32-bit target `t`.  First: if `Apply(object, t)` returns
without error and the object's `Metadata` field still points at the record it pointed at
on entry (address `p`), then `Apply(_, t)` on the resulting object invokes no migrator,
leaves the object unchanged, calls `Validate` and returns without error.  Second: for
every object whose metadata record already holds `Schema = t`, `Apply` invokes no
migrator and leaves the object unchanged. -/
theorem Apply_idempotent {β : Type} (r : register β) (hreach : r.Reachable)
    (db : ReadOnlyKVStore) (c : Migratable β) (t : Nat) (ht : t < uint32Size) :
    (∀ (m : Obj β) (p fuel : Nat) (res : ApplyResult β), m.Metadata = some p →
        (m.records p).Schema < uint32Size → r.Apply db c m t fuel = some res →
        res.err = none → res.obj.Metadata = some p →
        ∀ fuel2, 1 ≤ fuel2 → r.Apply db c res.obj t fuel2 = some ⟨res.obj, none, [], true⟩) ∧
    (∀ (m : Obj β) (p fuel : Nat), m.Metadata = some p → (m.records p).Schema = t →
        1 ≤ fuel → ∃ res, r.Apply db c m t fuel = some res ∧ res.invoked = [] ∧
          res.obj = m) := by
  have h0 := Reachable_no_zero r hreach c.typ
  refine ⟨?_, fun m p fuel hp hs hfuel => Apply_at_target r db c t ht h0 m p fuel hp hs hfuel⟩
  intro m p fuel res hp hs32 hres herr hkeep fuel2 hfuel2
  obtain ⟨ht1, q, hq, hs1, hloop, hval, _⟩ := Apply_success_inv r db c m t fuel res hres herr
  have hpq : q = p := by
    rw [hp] at hq
    exact (Option.some.inj hq).symm
  subst hpq
  obtain ⟨f2, rfl⟩ : ∃ f2, fuel2 = f2 + 1 := ⟨fuel2 - 1, by omega⟩
  by_cases hst : (m.records q).Schema ≤ t
  · obtain ⟨hlt, hrec⟩ := applyLoop_end_schema r db c.typ q t fuel m _ hst ht hloop rfl
    have hrec2 : (res.obj.records q).Schema = t := hrec
    rw [Apply_eq_of_valid r db c res.obj t _ q ht1 hkeep (by omega), hrec2]
    have hmod : (t + 1) % uint32Size = t + 1 := Nat.mod_eq_of_lt hlt
    rw [hmod, applyLoop_exit r db c.typ q t f2 (t + 1) res.obj [] (by omega)]
    simp [Migratable.finish, hval]
  · obtain ⟨f, rfl⟩ : ∃ f, fuel = f + 1 := by
      cases fuel with
      | zero => simp [register.applyLoop] at hloop
      | succ f => exact ⟨f, rfl⟩
    by_cases hwrap : (m.records q).Schema + 1 = uint32Size
    · rw [hwrap, Nat.mod_self,
        applyLoop_missing r db c.typ q t f 0 m [] (Nat.zero_le t) h0] at hloop
      simp at hloop
    · have hmod : ((m.records q).Schema + 1) % uint32Size = (m.records q).Schema + 1 :=
        Nat.mod_eq_of_lt (by omega)
      rw [hmod, applyLoop_exit r db c.typ q t f _ m [] (by omega)] at hloop
      have hobj : res.obj = m := by
        have := congrArg (fun o => o.map LoopExit.obj) hloop
        simp at this
        exact this.symm
      rw [hobj] at hval ⊢
      rw [Apply_eq_of_valid r db c m t _ q ht1 hp hs1, hmod,
        applyLoop_exit r db c.typ q t f2 _ m [] (by omega)]
      simp [Migratable.finish, hval]

/-- C10 (amended) on the test data: a `MyModel` at schema 1 is migrated to version 2 by
the register of the tests; a second `Apply` on the result changes nothing; and an object
already at schema 2 is left alone. -/
theorem Apply_idempotent_witness :
    (MyModel.reg.Apply emptyStore MyModel.iface
        (((MyModel.addTwo emptyStore (MyModel.mk0 1 5)).1).storeSchema 0 2) 2 1 =
      some ⟨((MyModel.addTwo emptyStore (MyModel.mk0 1 5)).1).storeSchema 0 2, none, [],
        true⟩) ∧
    (∃ res, MyModel.reg.Apply emptyStore MyModel.iface (MyModel.mk0 2 11) 2 1 = some res ∧
      res.invoked = [] ∧ res.obj = MyModel.mk0 2 11) :=
  ⟨(Apply_idempotent MyModel.reg MyModel_reg_reachable emptyStore MyModel.iface 2
      (by decide)).1 (MyModel.mk0 1 5) 0 3
      ⟨((MyModel.addTwo emptyStore (MyModel.mk0 1 5)).1).storeSchema 0 2, none, [2], true⟩
      rfl (by decide) rfl rfl rfl 1 (le_refl 1),
    (Apply_idempotent MyModel.reg MyModel_reg_reachable emptyStore MyModel.iface 2
      (by decide)).2 (MyModel.mk0 2 11) 0 1 rfl rfl (le_refl 1)⟩

/-- C10 as stated fails when the migrator has replaced the metadata record: with
`Schema = 1`, target 2 and such a migrator at version 2, the first `Apply` returns nil
and leaves `Cnt = 7`; the second `Apply` on the result invokes the version 2 migrator
again and leaves `Cnt = 9`. -/
theorem Apply_idempotent_counterexample :
    ((MyModel.regReset.Apply emptyStore MyModel.iface (MyModel.mk0 1 5) 2 3).bind
        (fun res1 => (MyModel.regReset.Apply emptyStore MyModel.iface res1.obj 2 3).map
          (fun res2 => (res1.err, res1.obj.payload.Cnt, res2.err, res2.invoked,
            res2.obj.payload.Cnt)))) =
      some (none, 7, none, [2], 9) := by
  decide

/-! ## Rejected arguments -/

/-- C11: `Register` rejects target version 0.  For every register, payload type and
migrator, `Register(0, tp, fn)` returns the `ErrInput` error "minimal allowed version is
1" and leaves the register exactly as it was, whatever is registered. -/
theorem Register_rejects_zero {β : Type} (r : register β) (tp : ReflectType)
    (fn : Migrator β) :
    (r.Register 0 tp fn).2 =
        some (errors.Wrap (errors.root ErrKind.ErrInput) "minimal allowed version is 1") ∧
      ErrKind.ErrInput.Is (r.Register 0 tp fn).2 = true ∧
      (r.Register 0 tp fn).1 = r := by
  refine ⟨rfl, rfl, rfl⟩

/-- C12: `Apply` rejects target version 0.  For every register, store, object (whatever
its metadata, nil and invalid included) and fuel, `Apply(db, m, 0)` returns an `ErrInput`
error, has invoked no migrator, has not called `Validate` and leaves the object as it
was.  The outcome is the same for every object, so the metadata plays no part in it. -/
theorem Apply_rejects_zero {β : Type} (r : register β) (db : ReadOnlyKVStore)
    (c : Migratable β) (m : Obj β) (fuel : Nat) :
    r.Apply db c m 0 fuel =
        some ⟨m, some (errors.Wrap (errors.root ErrKind.ErrInput)
          "minimal allowed version is 1"), [], false⟩ ∧
      ErrKind.ErrInput.Is
        (some (errors.Wrap (errors.root ErrKind.ErrInput) "minimal allowed version is 1")) =
        true := by
  refine ⟨rfl, rfl⟩

/-- C13: `Apply` rejects objects with invalid metadata.  For every register and target
`t ≥ 1`, if the validation of the object's metadata returns an error `e`, then `Apply`
returns `e`, has invoked no migrator, has not called the object's `Validate` and leaves
the object as it was.  A metadata record with `Schema = 0` fails its validation, so an
object carrying one is rejected in this way. -/
theorem Apply_rejects_invalid_metadata {β : Type} (r : register β) (db : ReadOnlyKVStore)
    (c : Migratable β) (m : Obj β) (t fuel : Nat) (ht : 1 ≤ t) :
    (∀ e, Metadata.Validate (m.load m.GetMetadata) = some e →
        r.Apply db c m t fuel = some ⟨m, some e, [], false⟩) ∧
      (∀ p, m.GetMetadata = some p → (m.records p).Schema = 0 →
        ∃ e, Metadata.Validate (m.load m.GetMetadata) = some e ∧
          r.Apply db c m t fuel = some ⟨m, some e, [], false⟩) := by
  have ht1 : ¬ t < 1 := by omega
  have hgen : ∀ e, Metadata.Validate (m.load m.GetMetadata) = some e →
      r.Apply db c m t fuel = some ⟨m, some e, [], false⟩ := by
    intro e hinv
    unfold register.Apply
    rw [if_neg ht1]
    cases hp : m.GetMetadata with
    | none =>
      rw [hp] at hinv
      simp only [Obj.load, Option.map] at hinv
      simp only [hinv]
    | some p =>
      rw [hp] at hinv
      simp only [Obj.load, Option.map] at hinv
      simp only [hinv]
  refine ⟨hgen, ?_⟩
  intro p hp hzero
  have hval : Metadata.Validate (m.load m.GetMetadata) =
      some (errors.Wrap (errors.root ErrKind.ErrMetadata) "schema version less than 1") := by
    rw [hp]
    simp [Obj.load, Metadata.Validate, hzero]
  exact ⟨_, hval, hgen _ hval⟩

/-- C13 on the test data: a `MyModel` whose metadata holds `Schema = 0`, target 2. -/
theorem Apply_rejects_invalid_metadata_witness :
    ∃ e, Metadata.Validate ((MyModel.mk0 0 5).load (MyModel.mk0 0 5).GetMetadata) = some e ∧
      MyModel.reg.Apply emptyStore MyModel.iface (MyModel.mk0 0 5) 2 3 =
        some ⟨MyModel.mk0 0 5, some e, [], false⟩ :=
  (Apply_rejects_invalid_metadata MyModel.reg emptyStore MyModel.iface (MyModel.mk0 0 5) 2 3
    (by decide)).2 0 rfl rfl

/-! ## Effect of a registration -/

/-- C14: postcondition and frame of `Register`.  `Register(N, tp, fn)` returns nil
exactly when `N ≥ 1`, `(tp, N)` is not yet registered, and `N = 1` or `(tp, N - 1)` is
registered; after a nil return the register maps `(tp, N)` to `fn` and every other key
to what it was mapped to before. -/
theorem Register_postcondition {β : Type} (r : register β) (N : Nat) (tp : ReflectType)
    (fn : Migrator β) :
    ((r.Register N tp fn).2 = none ↔
        (1 ≤ N ∧ r.migrateTo ⟨tp, N⟩ = none ∧
          (N = 1 ∨ (r.migrateTo ⟨tp, N - 1⟩).isSome = true))) ∧
      ((r.Register N tp fn).2 = none →
        (r.Register N tp fn).1.migrateTo ⟨tp, N⟩ = some fn ∧
        ∀ pv : payloadVersion, pv ≠ ⟨tp, N⟩ →
          (r.Register N tp fn).1.migrateTo pv = r.migrateTo pv) := by
  rcases Register_cases r N tp fn with h | h | h | h
  · obtain ⟨hN, _, e, he, _⟩ := h
    refine ⟨⟨fun hnil => ?_, fun hpre => ?_⟩, fun hnil => ?_⟩
    · rw [he] at hnil; exact absurd hnil (by simp)
    · omega
    · rw [he] at hnil; exact absurd hnil (by simp)
  · obtain ⟨hN, hprev, _, e, he, _⟩ := h
    refine ⟨⟨fun hnil => ?_, fun hpre => ?_⟩, fun hnil => ?_⟩
    · rw [he] at hnil; exact absurd hnil (by simp)
    · rcases hpre.2.2 with h1 | h1
      · omega
      · rw [hprev] at h1; simp at h1
    · rw [he] at hnil; exact absurd hnil (by simp)
  · obtain ⟨_, _, hcur, _, e, he, _⟩ := h
    refine ⟨⟨fun hnil => ?_, fun hpre => ?_⟩, fun hnil => ?_⟩
    · rw [he] at hnil; exact absurd hnil (by simp)
    · rw [hpre.2.1] at hcur; simp at hcur
    · rw [he] at hnil; exact absurd hnil (by simp)
  · obtain ⟨hN, hpred, hcur, hnew, hnil⟩ := h
    refine ⟨⟨fun _ => ⟨hN, hcur, hpred⟩, fun _ => hnil⟩, fun _ => ?_⟩
    rw [hnew]
    refine ⟨?_, ?_⟩
    · show Function.update r.migrateTo ⟨tp, N⟩ (some fn) ⟨tp, N⟩ = some fn
      rw [Function.update_same]
    · intro pv hpv
      show Function.update r.migrateTo ⟨tp, N⟩ (some fn) pv = r.migrateTo pv
      rw [Function.update_noteq hpv]

/-- The loop only consults the entries of the type it was started with. -/
theorem applyLoop_congr {β : Type} (r1 r2 : register β) (db : ReadOnlyKVStore)
    (tp : ReflectType) (p t : Nat)
    (h : ∀ v, r1.migrateTo ⟨tp, v⟩ = r2.migrateTo ⟨tp, v⟩) :
    ∀ (fuel v : Nat) (m : Obj β) (log : List Nat),
      r1.applyLoop db tp p t fuel v m log = r2.applyLoop db tp p t fuel v m log := by
  intro fuel
  induction fuel with
  | zero => intro v m log; rfl
  | succ fuel ih =>
    intro v m log
    simp only [register.applyLoop, h v]
    split
    · cases hmig : r2.migrateTo ⟨tp, v⟩ with
      | none => rfl
      | some mig =>
        simp only []
        rcases hrun : mig db m with ⟨m1, e⟩
        cases e with
        | some e => rfl
        | none => exact ih _ _ _
    · rfl

/-- `Apply` only consults the entries of the object's type. -/
theorem Apply_congr {β : Type} (r1 r2 : register β) (db : ReadOnlyKVStore)
    (c : Migratable β) (m : Obj β) (t fuel : Nat)
    (h : ∀ v, r1.migrateTo ⟨c.typ, v⟩ = r2.migrateTo ⟨c.typ, v⟩) :
    r1.Apply db c m t fuel = r2.Apply db c m t fuel := by
  unfold register.Apply
  simp only [applyLoop_congr r1 r2 db c.typ _ t h]

/-- The outcome of `Register` for a type depends on the entries of that type only. -/
theorem Register_congr {β : Type} (r1 r2 : register β) (N : Nat) (tp : ReflectType)
    (fn : Migrator β) (h : ∀ v, r1.migrateTo ⟨tp, v⟩ = r2.migrateTo ⟨tp, v⟩) :
    (r1.Register N tp fn).2 = (r2.Register N tp fn).2 := by
  unfold register.Register
  rw [h (N - 1), h N]
  split
  · rfl
  · split
    · rfl
    · split <;> rfl

/-- C15: migrations are keyed by (payload type, version) and types are isolated.  For
two different payload types `A` and `B` and every register `r`: a call
`Register(M, A, fA)` changes no entry of `B`; the result of `Register(N, B, fB)` after
it is the result it would have had before it, so entries of `A` neither satisfy the
predecessor requirement of `B` nor make a registration for `B` a duplicate (with nothing
registered for `B`, `Register(2, B, fB)` fails with `ErrInput`); and `Apply` on an
object of type `B` has the same outcome in two registers that agree on the entries of
`B`, in particular before and after the registration for `A`. -/
theorem Register_types_isolated {β : Type} (A B : ReflectType) (hAB : A ≠ B)
    (r : register β) (M N : Nat) (fA fB : Migrator β) :
    (∀ v, (r.Register M A fA).1.migrateTo ⟨B, v⟩ = r.migrateTo ⟨B, v⟩) ∧
      ((r.Register M A fA).1.Register N B fB).2 = (r.Register N B fB).2 ∧
      ((∀ v, r.migrateTo ⟨B, v⟩ = none) →
        ErrKind.ErrInput.Is ((r.Register M A fA).1.Register 2 B fB).2 = true) ∧
      (∀ (r2 : register β) (db : ReadOnlyKVStore) (c : Migratable β) (m : Obj β)
        (t fuel : Nat), c.typ = B → (∀ v, r2.migrateTo ⟨B, v⟩ = r.migrateTo ⟨B, v⟩) →
        r2.Apply db c m t fuel = r.Apply db c m t fuel) ∧
      (∀ (db : ReadOnlyKVStore) (c : Migratable β) (m : Obj β) (t fuel : Nat), c.typ = B →
        (r.Register M A fA).1.Apply db c m t fuel = r.Apply db c m t fuel) := by
  have hframe : ∀ v, (r.Register M A fA).1.migrateTo ⟨B, v⟩ = r.migrateTo ⟨B, v⟩ := by
    intro v
    rcases Register_cases r M A fA with h | h | h | h
    · rw [h.2.1]
    · rw [h.2.2.1]
    · rw [h.2.2.2.1]
    · rw [h.2.2.2.1]
      have hne : (⟨B, v⟩ : payloadVersion) ≠ ⟨A, M⟩ := by
        intro heq
        exact hAB (congrArg payloadVersion.payload heq).symm
      show Function.update r.migrateTo ⟨A, M⟩ (some fA) ⟨B, v⟩ = r.migrateTo ⟨B, v⟩
      rw [Function.update_noteq hne]
  have hreg := Register_congr (r.Register M A fA).1 r N B fB hframe
  refine ⟨hframe, hreg, ?_, ?_, ?_⟩
  · intro hnone
    rw [Register_congr (r.Register M A fA).1 r 2 B fB hframe]
    rcases Register_cases r 2 B fB with h | h | h | h
    · omega
    · obtain ⟨_, _, _, e, he, hk⟩ := h
      rw [he]
      simp [ErrKind.Is, hk]
    · rcases h.2.1 with h1 | h1
      · omega
      · rw [hnone 1] at h1; simp at h1
    · rcases h.2.1 with h1 | h1
      · omega
      · rw [hnone 1] at h1; simp at h1
  · intro r2 db c m t fuel hc hagree
    exact Apply_congr r2 r db c m t fuel (by rw [hc]; exact hagree)
  · intro db c m t fuel hc
    exact Apply_congr _ r db c m t fuel (by rw [hc]; exact hframe)

/-- C15 on the types of the tests: with versions 1 and 2 registered for `MySerialModel`
only, `Register(2, MySerialModelWithRef, fn)` fails with `ErrInput`, and registering
version 1 for `MySerialModelWithRef` is no duplicate. -/
theorem Register_types_isolated_witness :
    ErrKind.ErrInput.Is (((newRegister.Register 1 "migration.MySerialModel"
        (NoModification : Migrator MyModel)).1.Register 2 "migration.MySerialModelWithRef"
        NoModification).2) = true ∧
      (((newRegister.Register 1 "migration.MySerialModel"
        (NoModification : Migrator MyModel)).1.Register 1 "migration.MySerialModelWithRef"
        NoModification).2) =
        ((newRegister : register MyModel).Register 1 "migration.MySerialModelWithRef"
          NoModification).2 :=
  ⟨(Register_types_isolated "migration.MySerialModel" "migration.MySerialModelWithRef"
      (by decide) (newRegister : register MyModel) 1 2 NoModification NoModification).2.2.1
      (fun _ => rfl),
    (Register_types_isolated "migration.MySerialModel" "migration.MySerialModelWithRef"
      (by decide) (newRegister : register MyModel) 1 1 NoModification NoModification).2.1⟩

/-! ## The stock migrators -/

/-- A chain of `NoModification` steps succeeds and changes nothing but the record
at `p`. -/
theorem migrateChain_NoModification {β : Type} (r : register β) (db : ReadOnlyKVStore)
    (tp : ReflectType) (p : Nat) (n : Nat) :
    ∀ (a : Nat) (m : Obj β),
      (∀ v, a ≤ v → v < a + n → r.migrateTo ⟨tp, v⟩ = some NoModification) →
      ∃ m1, r.migrateChain db tp p (List.range' a n) m = some m1 ∧
        m1.Metadata = m.Metadata ∧ m1.payload = m.payload ∧
        ∀ q, q ≠ p → m1.records q = m.records q := by
  induction n with
  | zero =>
    intro a m _
    exact ⟨m, rfl, rfl, rfl, fun _ _ => rfl⟩
  | succ n ih =>
    intro a m hall
    have hstep : r.migrateStep db tp p m a = some (m.storeSchema p a) := by
      simp [register.migrateStep, hall a (le_refl a) (by omega), NoModification]
    obtain ⟨m1, hchain, hptr, hpay, hrec⟩ :=
      ih (a + 1) (m.storeSchema p a) (fun v h1 h2 => hall v (by omega) (by omega))
    refine ⟨m1, ?_, hptr, hpay, ?_⟩
    · rw [List.range'_succ]
      simp only [register.migrateChain, hstep]
      exact hchain
    · intro q hq
      rw [hrec q hq]
      simp [Obj.storeSchema, Function.update_noteq hq]

/-- C16: the migrator `NoModification` returns nil for every store and object and
leaves the object as it was.  Consequently, for every register built by `Register`
calls, every object with valid metadata (record at address `p`, `Schema = s`) and every
target `t ≥ s` such that `NoModification` is what is registered for each of the versions
`s+1, ..., t`: `Apply` returns, it has invoked the migrators of `s+1, ..., t`, the
object's `Metadata` field and its other fields are what they were, no metadata record
other than the object's has changed, and the object's `Metadata.Schema` is `t`. -/
theorem Apply_NoModification_chain {β : Type} (r : register β) (hreach : r.Reachable)
    (db : ReadOnlyKVStore) (c : Migratable β) (m : Obj β) (p s t fuel : Nat)
    (hp : m.Metadata = some p) (hs : (m.records p).Schema = s) (hvalid : 1 ≤ s)
    (hst : s ≤ t) (ht : t < uint32Size)
    (hall : ∀ v, s < v → v ≤ t → r.migrateTo ⟨c.typ, v⟩ = some NoModification)
    (hfuel : t - s + 1 ≤ fuel) :
    (∀ (db1 : ReadOnlyKVStore) (x : Obj β), NoModification db1 x = (x, none)) ∧
      ∃ res, r.Apply db c m t fuel = some res ∧
        res.invoked = List.range' (s + 1) (t - s) ∧
        res.obj.Metadata = m.Metadata ∧ res.obj.payload = m.payload ∧
        (∀ q, q ≠ p → res.obj.records q = m.records q) ∧
        res.obj.Schema = some t := by
  refine ⟨fun _ _ => rfl, ?_⟩
  have h0 := Reachable_no_zero r hreach c.typ
  obtain ⟨m1, hchain, hptr, hpay, hrec⟩ :=
    migrateChain_NoModification r db c.typ p (t - s) (s + 1) m
      (fun v h1 h2 => hall v (by omega) (by omega))
  have hschema : (m1.records p).Schema = t := by
    have := migrateChain_schema r db c.typ p (t - s) s m m1 hs hchain
    omega
  obtain ⟨f, rfl⟩ : ∃ f, fuel = (f + 1) + (t - s) := ⟨fuel - (t - s) - 1, by omega⟩
  rw [Apply_eq_of_valid r db c m t _ p (by omega) hp (by omega), hs,
    applyLoop_chain r db c.typ p t ht (t - s) (f + 1) (s + 1) m m1 [] (by omega) hchain]
  have hcnt : s + 1 + (t - s) = t + 1 := by omega
  rw [hcnt]
  obtain ⟨e, he⟩ := applyLoop_past_target r db c.typ p t f m1
    ([] ++ List.range' (s + 1) (t - s)) ht h0
  rw [he]
  refine ⟨_, rfl, ?_, ?_, ?_, ?_, ?_⟩
  · simp [(finish_obj c _).2]
  · rw [(finish_obj c _).1]; exact hptr
  · rw [(finish_obj c _).1]; exact hpay
  · rw [(finish_obj c _).1]; exact hrec
  · rw [(finish_obj c _).1]
    rw [Obj.Schema_of_pointer m1 p (hptr.trans hp), hschema]

/-- The entries of the register with three `NoModification` migrators. -/
theorem MyModel_regNoMod_entries (v : Nat) (h1 : 1 < v) (h3 : v ≤ 3) :
    MyModel.regNoMod.migrateTo ⟨"migration.MyModel", v⟩ = some NoModification := by
  have hcases : v = 2 ∨ v = 3 := by omega
  rcases hcases with h | h <;> subst h <;> rfl

/-- The register with three `NoModification` migrators is reachable. -/
theorem MyModel_regNoMod_reachable : MyModel.regNoMod.Reachable :=
  register.Reachable.step _ (register.Reachable.step _ (register.Reachable.step _
    register.Reachable.new 1 "migration.MyModel" NoModification) 2 "migration.MyModel"
    NoModification) 3 "migration.MyModel" NoModification

/-- C16 on the test data: a `MyModel` at schema 1 taken to version 3 by two
`NoModification` steps. -/
theorem Apply_NoModification_chain_witness :
    (∀ (db1 : ReadOnlyKVStore) (x : Obj MyModel), NoModification db1 x = (x, none)) ∧
      ∃ res, MyModel.regNoMod.Apply emptyStore MyModel.iface (MyModel.mk0 1 5) 3 3 =
          some res ∧
        res.invoked = List.range' (1 + 1) (3 - 1) ∧
        res.obj.Metadata = (MyModel.mk0 1 5).Metadata ∧
        res.obj.payload = (MyModel.mk0 1 5).payload ∧
        (∀ q, q ≠ 0 → res.obj.records q = (MyModel.mk0 1 5).records q) ∧
        res.obj.Schema = some 3 :=
  Apply_NoModification_chain MyModel.regNoMod MyModel_regNoMod_reachable emptyStore
    MyModel.iface (MyModel.mk0 1 5) 0 1 3 3 rfl rfl (by decide) (by decide) (by decide)
    (fun v h1 h3 => MyModel_regNoMod_entries v h1 h3) (by decide)

/-- C18: `MustRegister` is `Register` with a failure turned into a panic.  For every
register and arguments, `MustRegister` panics with the error `err` exactly when
`Register` with the same arguments returns `err`, and when `Register` returns nil,
`MustRegister` returns and leaves the register that `Register` leaves.  The package
function `MustRegister` is the method applied to the global register. -/
theorem MustRegister_spec {β : Type} (r : register β) (N : Nat) (tp : ReflectType)
    (fn : Migrator β) :
    (∀ err, r.MustRegister N tp fn = Except.error err ↔ (r.Register N tp fn).2 = some err) ∧
      ((r.Register N tp fn).2 = none →
        r.MustRegister N tp fn = Except.ok (r.Register N tp fn).1) ∧
      MustRegister r N tp fn = r.MustRegister N tp fn := by
  unfold register.MustRegister
  rcases hreg : r.Register N tp fn with ⟨r1, e⟩
  cases e with
  | none =>
    refine ⟨fun err => ⟨fun h => ?_, fun h => ?_⟩, fun _ => rfl, ?_⟩
    · simp at h
    · simp at h
    · simp [MustRegister, register.MustRegister, hreg]
  | some e =>
    refine ⟨fun err => ⟨fun h => ?_, fun h => ?_⟩, fun h => ?_, ?_⟩
    · simp only [Except.error.injEq] at h
      simp [h]
    · simp only [Option.some.injEq] at h
      simp [h]
    · simp at h
    · simp [MustRegister, register.MustRegister, hreg]

/-- Invariant rule with termination: when a turn of the loop can only succeed at a
counter below `bound`, the loop started at counter `c ≤ bound` returns within
`bound - c + 1` evaluations of its condition, with the postcondition. -/
theorem applyLoop_rule_upto {β : Type} (r : register β) (db : ReadOnlyKVStore)
    (tp : ReflectType) (p t bound : Nat) (hb : bound < uint32Size)
    (Inv : Nat → Obj β → List Nat → Prop) (Post : LoopExit β → Prop)
    (hexit : ∀ v m log, Inv v m log → ¬ v ≤ t → Post ⟨m, log, none⟩)
    (hmissing : ∀ v m log, Inv v m log → v ≤ t → r.migrateTo ⟨tp, v⟩ = none →
      Post ⟨m, log, some (errors.Wrapf (errors.root ErrKind.ErrSchema)
        "migration to version %d missing" [FmtArg.num v])⟩)
    (hfail : ∀ v m log mig m1 e, Inv v m log → v ≤ t → r.migrateTo ⟨tp, v⟩ = some mig →
      mig db m = (m1, some e) →
      Post ⟨m1, log ++ [v], some (errors.Wrapf e "migration to version %d" [FmtArg.num v])⟩)
    (hstep : ∀ v m log mig m1, Inv v m log → v ≤ t → r.migrateTo ⟨tp, v⟩ = some mig →
      mig db m = (m1, none) → v < bound ∧ Inv (v + 1) (m1.storeSchema p v) (log ++ [v])) :
    ∀ (k c fuel : Nat) (m : Obj β) (log : List Nat), Inv c m log → c + k = bound →
      k + 1 ≤ fuel → ∃ x, r.applyLoop db tp p t fuel c m log = some x ∧ Post x := by
  intro k
  induction k with
  | zero =>
    intro c fuel m log hinv hk hfuel
    obtain ⟨f, rfl⟩ : ∃ f, fuel = f + 1 := ⟨fuel - 1, by omega⟩
    by_cases hv : c ≤ t
    · cases hmig : r.migrateTo ⟨tp, c⟩ with
      | none =>
        exact ⟨_, applyLoop_missing r db tp p t f c m log hv hmig, hmissing c m log hinv hv hmig⟩
      | some mig =>
        rcases hrun : mig db m with ⟨m1, e⟩
        cases e with
        | some e =>
          exact ⟨_, applyLoop_fail r db tp p t f c m m1 log mig e hv hmig hrun,
            hfail c m log mig m1 e hinv hv hmig hrun⟩
        | none =>
          have := (hstep c m log mig m1 hinv hv hmig hrun).1
          omega
    · exact ⟨_, applyLoop_exit r db tp p t f c m log hv, hexit c m log hinv hv⟩
  | succ k ih =>
    intro c fuel m log hinv hk hfuel
    obtain ⟨f, rfl⟩ : ∃ f, fuel = f + 1 := ⟨fuel - 1, by omega⟩
    by_cases hv : c ≤ t
    · cases hmig : r.migrateTo ⟨tp, c⟩ with
      | none =>
        exact ⟨_, applyLoop_missing r db tp p t f c m log hv hmig, hmissing c m log hinv hv hmig⟩
      | some mig =>
        rcases hrun : mig db m with ⟨m1, e⟩
        cases e with
        | some e =>
          exact ⟨_, applyLoop_fail r db tp p t f c m m1 log mig e hv hmig hrun,
            hfail c m log mig m1 e hinv hv hmig hrun⟩
        | none =>
          rw [applyLoop_next r db tp p t f c m m1 log mig hv hmig hrun]
          have hmod : (c + 1) % uint32Size = c + 1 := Nat.mod_eq_of_lt (by omega)
          rw [hmod]
          exact ih (c + 1) f _ _ (hstep c m log mig m1 hinv hv hmig hrun).2 (by omega)
            (by omega)
    · exact ⟨_, applyLoop_exit r db tp p t f c m log hv, hexit c m log hinv hv⟩

/-- C17 (amended): the migrator `RefuseMigration` fails with an `ErrSchema` error for
every store and object and leaves the object as it was.  Consequently, if
`RefuseMigration` is registered for `(type, v)`, every `Apply` on an object of that type
with `Schema = s < v ≤ target` returns an error, without calling `Validate` and without
invoking a migrator for a version above `v`, whatever the migrators of the type do.  The
error is of kind `ErrSchema`, unless it is the error of the metadata validation or the
wrapped error of a migrator of a version `w`, `s < w < v`, that failed.  If moreover the
migrators of the type leave the object's `Metadata.Schema` as they found it, the object
is left with a `Metadata.Schema` below `v`. -/
theorem Apply_RefuseMigration {β : Type} (r : register β) (db : ReadOnlyKVStore)
    (c : Migratable β) (m : Obj β) (p s v t fuel : Nat)
    (hp : m.Metadata = some p) (hs : (m.records p).Schema = s)
    (hsv : s < v) (hvt : v ≤ t) (ht : t < uint32Size)
    (hrefuse : r.migrateTo ⟨c.typ, v⟩ = some RefuseMigration)
    (hfuel : v - s ≤ fuel) :
    (∀ (db1 : ReadOnlyKVStore) (x : Obj β),
        ∃ e, RefuseMigration db1 x = (x, some e) ∧ e.kind = ErrKind.ErrSchema) ∧
      ∃ res e, r.Apply db c m t fuel = some res ∧ res.err = some e ∧
        (e.kind = ErrKind.ErrSchema ∨ Metadata.Validate (some (m.records p)) = some e ∨
          ∃ w mig y y1 e0, s < w ∧ w < v ∧ r.migrateTo ⟨c.typ, w⟩ = some mig ∧
            mig db y = (y1, some e0) ∧
            e = errors.Wrapf e0 "migration to version %d" [FmtArg.num w]) ∧
        (∀ w ∈ res.invoked, s < w ∧ w ≤ v) ∧ res.validated = false ∧
        ((∀ w mig, r.migrateTo ⟨c.typ, w⟩ = some mig →
            ∀ y, (mig db y).1.Schema = y.Schema) →
          ∃ s1, res.obj.Schema = some s1 ∧ s1 < v) := by
  refine ⟨fun _ x => ⟨_, rfl, rfl⟩, ?_⟩
  have hm : m.Schema = some s := by rw [Obj.Schema_of_pointer m p hp, hs]
  by_cases hvalid : (m.records p).Schema < 1
  · have ht1 : ¬ t < 1 := by omega
    refine ⟨⟨m, some (errors.Wrap (errors.root ErrKind.ErrMetadata)
      "schema version less than 1"), [], false⟩, _, ?_, rfl, ?_, ?_, rfl, fun _ => ⟨s, hm, hsv⟩⟩
    · unfold register.Apply
      rw [if_neg ht1]
      simp only [Obj.GetMetadata, hp, Metadata.Validate, if_pos hvalid]
    · right; left
      simp [Metadata.Validate, hvalid]
    · intro w hw
      simp at hw
  · rw [Apply_eq_of_valid r db c m t fuel p (by omega) hp (by omega), hs]
    have hmod : (s + 1) % uint32Size = s + 1 := Nat.mod_eq_of_lt (by omega)
    rw [hmod]
    suffices key : ∃ x, r.applyLoop db c.typ p t fuel (s + 1) m [] = some x ∧
        ((∃ e, x.err = some e ∧ (e.kind = ErrKind.ErrSchema ∨
          ∃ w mig y y1 e0, s < w ∧ w < v ∧ r.migrateTo ⟨c.typ, w⟩ = some mig ∧
            mig db y = (y1, some e0) ∧
            e = errors.Wrapf e0 "migration to version %d" [FmtArg.num w])) ∧
        (∀ w ∈ x.invoked, s < w ∧ w ≤ v) ∧
        ((∀ w mig, r.migrateTo ⟨c.typ, w⟩ = some mig → ∀ y, (mig db y).1.Schema = y.Schema) → ∃ s1, x.obj.Schema = some s1 ∧ s1 < v)) by
      obtain ⟨x, hx, ⟨e, he, hkind⟩, hlog, hschema⟩ := key
      rw [hx]
      refine ⟨c.finish x, e, rfl, ?_, ?_, ?_, ?_, ?_⟩
      · simp [Migratable.finish, he]
      · rcases hkind with hk | hk
        · exact Or.inl hk
        · exact Or.inr (Or.inr hk)
      · rw [(finish_obj c x).2]; exact hlog
      · simp [Migratable.finish, he]
      · intro hmig
        rw [(finish_obj c x).1]
        exact hschema hmig
    refine applyLoop_rule_upto r db c.typ p t v (by omega)
      (fun cnt y log => s < cnt ∧ cnt ≤ v ∧ (∀ w ∈ log, s < w ∧ w < cnt) ∧
        ((∀ w mig, r.migrateTo ⟨c.typ, w⟩ = some mig → ∀ y, (mig db y).1.Schema = y.Schema) → ∃ s1, y.Schema = some s1 ∧ s1 < cnt))
      (fun x => (∃ e, x.err = some e ∧ (e.kind = ErrKind.ErrSchema ∨
          ∃ w mig y y1 e0, s < w ∧ w < v ∧ r.migrateTo ⟨c.typ, w⟩ = some mig ∧
            mig db y = (y1, some e0) ∧
            e = errors.Wrapf e0 "migration to version %d" [FmtArg.num w])) ∧
        (∀ w ∈ x.invoked, s < w ∧ w ≤ v) ∧
        ((∀ w mig, r.migrateTo ⟨c.typ, w⟩ = some mig → ∀ y, (mig db y).1.Schema = y.Schema) → ∃ s1, x.obj.Schema = some s1 ∧ s1 < v))
      ?_ ?_ ?_ ?_ (v - (s + 1)) (s + 1) fuel m []
      ⟨by omega, by omega, by simp, fun _ => ⟨s, hm, by omega⟩⟩ (by omega) (by omega)
    · intro cnt y log hinv hcnt
      exact absurd (le_trans hinv.2.1 hvt) hcnt
    · intro cnt y log hinv _ _
      obtain ⟨h1, h2, hlog, hschema⟩ := hinv
      refine ⟨⟨_, rfl, Or.inl rfl⟩, ?_, ?_⟩
      · intro w hw
        have := hlog w hw
        omega
      · intro hmig
        obtain ⟨s1, hs1, hlt⟩ := hschema hmig
        exact ⟨s1, hs1, by omega⟩
    · intro cnt y log mig m1 e hinv _ hreg hrun
      obtain ⟨h1, h2, hlog, hschema⟩ := hinv
      have hkeep : (∀ w mig, r.migrateTo ⟨c.typ, w⟩ = some mig → ∀ y, (mig db y).1.Schema = y.Schema) → ∃ s1, m1.Schema = some s1 ∧ s1 < v := by
        intro hmig
        obtain ⟨s1, hs1, hlt⟩ := hschema hmig
        have := hmig cnt mig hreg y
        rw [hrun] at this
        exact ⟨s1, this.trans hs1, by omega⟩
      refine ⟨⟨_, rfl, ?_⟩, ?_, hkeep⟩
      · by_cases hcv : cnt = v
        · left
          subst hcv
          rw [hrefuse] at hreg
          cases hreg
          simp only [RefuseMigration, Prod.mk.injEq, Option.some.injEq] at hrun
          rw [← hrun.2]
          rfl
        · right
          exact ⟨cnt, mig, y, m1, e, h1, by omega, hreg, hrun, rfl⟩
      · intro w hw
        simp only [List.mem_append, List.mem_singleton] at hw
        rcases hw with hw | hw
        · have := hlog w hw
          omega
        · omega
    · intro cnt y log mig m1 hinv _ hreg hrun
      obtain ⟨h1, h2, hlog, hschema⟩ := hinv
      have hcv : cnt ≠ v := by
        intro hcv
        subst hcv
        rw [hrefuse] at hreg
        cases hreg
        simp [RefuseMigration] at hrun
      refine ⟨by omega, by omega, by omega, ?_, ?_⟩
      · intro w hw
        simp only [List.mem_append, List.mem_singleton] at hw
        rcases hw with hw | hw
        · have := hlog w hw
          omega
        · omega
      · intro hmig
        obtain ⟨s1, hs1, hlt⟩ := hschema hmig
        have hkeep : m1.Schema = some s1 := by
          have := hmig cnt mig hreg y
          rw [hrun] at this
          exact this.trans hs1
        rw [Obj.Schema_storeSchema]
        by_cases hptr : m1.Metadata = some p
        · rw [if_pos hptr]
          exact ⟨cnt, rfl, by omega⟩
        · rw [if_neg hptr]
          exact ⟨s1, hkeep, by omega⟩

/-- The migrators of the register with `RefuseMigration` at version 2 leave
`Metadata.Schema` alone. -/
theorem MyModel_regRefuse_keeps_schema (db : ReadOnlyKVStore) (v : Nat)
    (mig : Migrator MyModel)
    (h : MyModel.regRefuse.migrateTo ⟨"migration.MyModel", v⟩ = some mig) (y : Obj MyModel) :
    (mig db y).1.Schema = y.Schema := by
  have hreg : MyModel.regRefuse = ⟨Function.update (Function.update (fun _ => none)
      ⟨"migration.MyModel", 1⟩ (some NoModification)) ⟨"migration.MyModel", 2⟩
      (some RefuseMigration)⟩ := rfl
  rw [hreg] at h
  simp only at h
  by_cases h2 : v = 2
  · subst h2
    rw [Function.update_same] at h
    cases h
    rfl
  · have hne2 : (⟨"migration.MyModel", v⟩ : payloadVersion) ≠ ⟨"migration.MyModel", 2⟩ := by
      intro heq
      exact h2 (congrArg payloadVersion.version heq)
    simp only [Function.update_noteq hne2] at h
    by_cases h1 : v = 1
    · subst h1
      rw [Function.update_same] at h
      cases h
      rfl
    · have hne1 : (⟨"migration.MyModel", v⟩ : payloadVersion) ≠ ⟨"migration.MyModel", 1⟩ := by
        intro heq
        exact h1 (congrArg payloadVersion.version heq)
      simp only [Function.update_noteq hne1] at h
      exact absurd h (by simp)

/-- C17 (amended) on the test data: a `MyModel` at schema 1, target 2, with
`RefuseMigration` registered for version 2. -/
theorem Apply_RefuseMigration_witness :
    (∀ (db1 : ReadOnlyKVStore) (x : Obj MyModel),
        ∃ e, RefuseMigration db1 x = (x, some e) ∧ e.kind = ErrKind.ErrSchema) ∧
      ∃ res e, MyModel.regRefuse.Apply emptyStore MyModel.iface (MyModel.mk0 1 5) 2 1 =
          some res ∧ res.err = some e ∧
        (e.kind = ErrKind.ErrSchema ∨
          Metadata.Validate (some ((MyModel.mk0 1 5).records 0)) = some e ∨
          ∃ w mig y y1 e0, 1 < w ∧ w < 2 ∧
            MyModel.regRefuse.migrateTo ⟨MyModel.iface.typ, w⟩ = some mig ∧
            mig emptyStore y = (y1, some e0) ∧
            e = errors.Wrapf e0 "migration to version %d" [FmtArg.num w]) ∧
        (∀ w ∈ res.invoked, 1 < w ∧ w ≤ 2) ∧ res.validated = false ∧
        ∃ s1, res.obj.Schema = some s1 ∧ s1 < 2 :=
  match Apply_RefuseMigration MyModel.regRefuse emptyStore MyModel.iface (MyModel.mk0 1 5)
      0 1 2 2 1 rfl rfl (by decide) (by decide) (by decide) rfl (by decide) with
  | ⟨h1, res, e, hres, he, hkind, hinv, hval, hschema⟩ =>
    ⟨h1, res, e, hres, he, hkind, hinv, hval,
      hschema (MyModel_regRefuse_keeps_schema emptyStore)⟩

/-- C17 as stated fails in three ways.  With `RefuseMigration` registered for version 3,
an object at schema 1 and target 3: (a) the version 2 migrator adds 2 to `Cnt` and
returns the object's `ErrHuman` error: `Apply` fails with an error of kind `ErrHuman`,
not `ErrSchema`; (b) the version 2 migrator writes `Metadata.Schema = 7` before it
fails: `Apply` leaves the object with `Schema = 7`, which is not below 3.  With
`RefuseMigration` registered for version 2, an object at schema 0 and target 2: (c) the
metadata validation fails first, with an error of kind `ErrMetadata`, not `ErrSchema`. -/
theorem Apply_RefuseMigration_counterexample :
    ((MyModel.regAddRefuse.Apply emptyStore MyModel.iface (MyModel.mkErr 1 5) 3 3).map
        (fun res => (ErrKind.ErrSchema.Is res.err, ErrKind.ErrHuman.Is res.err,
          res.obj.Schema)) = some (false, true, some 1)) ∧
    ((MyModel.regStampRefuse.Apply emptyStore MyModel.iface (MyModel.mk0 1 5) 3 3).map
        (fun res => (ErrKind.ErrSchema.Is res.err, ErrKind.ErrHuman.Is res.err,
          res.obj.Schema)) = some (false, true, some 7)) ∧
    ((MyModel.regRefuse.Apply emptyStore MyModel.iface (MyModel.mk0 0 5) 2 3).map
        (fun res => (ErrKind.ErrSchema.Is res.err, ErrKind.ErrMetadata.Is res.err,
          res.obj.Schema)) = some (false, true, some 0)) :=
  ⟨by decide, by decide, by decide⟩

/-! ## Termination -/

/-- With no migrator registered for version 0, the loop returns within `2 ^ 32`
evaluations of its condition, from any 32-bit counter. -/
theorem applyLoop_returns {β : Type} (r : register β) (db : ReadOnlyKVStore)
    (tp : ReflectType) (p t : Nat) (ht : t < uint32Size) (h0 : r.migrateTo ⟨tp, 0⟩ = none)
    (v fuel : Nat) (m : Obj β) (log : List Nat) (hv : v < uint32Size)
    (hfuel : uint32Size ≤ fuel) :
    ∃ x, r.applyLoop db tp p t fuel v m log = some x := by
  have hpos : 0 < uint32Size := by decide
  by_cases hz : v = 0
  · subst hz
    obtain ⟨f, rfl⟩ : ∃ f, fuel = f + 1 := ⟨fuel - 1, by omega⟩
    exact ⟨_, applyLoop_missing r db tp p t f 0 m log (Nat.zero_le t) h0⟩
  · exact applyLoop_terminates r db tp p t ht h0 (uint32Size - v) v fuel m log (by omega)
      (by omega)

/-- With no migrator registered for version 0, whatever the loop returns, started with
an empty list at a 32-bit counter, has invoked fewer than `2 ^ 32` migrators. -/
theorem applyLoop_invoked_bound {β : Type} (r : register β) (db : ReadOnlyKVStore)
    (tp : ReflectType) (p t : Nat) (h0 : r.migrateTo ⟨tp, 0⟩ = none)
    (v fuel : Nat) (m : Obj β) (x : LoopExit β) (hv : v < uint32Size)
    (h : r.applyLoop db tp p t fuel v m [] = some x) :
    x.invoked.length < uint32Size := by
  have hpos : 0 < uint32Size := by decide
  refine applyLoop_rule r db tp p t
    (fun v _ log => v < uint32Size ∧ (v ≠ 0 → log.length + 1 ≤ v) ∧ log.length < uint32Size)
    (fun x => x.invoked.length < uint32Size) ?_ ?_ ?_ ?_ fuel v m [] x ?_ h
  · intro v m log hinv _
    exact hinv.2.2
  · intro v m log hinv _ _
    exact hinv.2.2
  · intro v m log mig m1 e hinv _ hmig _
    have hne : v ≠ 0 := by
      intro hz
      rw [hz, h0] at hmig
      cases hmig
    have := hinv.2.1 hne
    show (log ++ [v]).length < uint32Size
    rw [List.length_append, List.length_singleton]
    omega
  · intro v m log mig m1 hinv _ hmig _
    have hne : v ≠ 0 := by
      intro hz
      rw [hz, h0] at hmig
      cases hmig
    have hlen := hinv.2.1 hne
    have hv := hinv.1
    refine ⟨Nat.mod_lt _ hpos, ?_, ?_⟩
    · intro hnz
      rw [List.length_append, List.length_singleton]
      by_cases hwrap : v + 1 = uint32Size
      · rw [hwrap, Nat.mod_self] at hnz
        exact absurd rfl hnz
      · rw [Nat.mod_eq_of_lt (by omega)]
        omega
    · rw [List.length_append, List.length_singleton]
      omega
  · exact ⟨hv, fun _ => by simp; omega, by simp [hpos]⟩

/-- With no migrator registered for version 0 of the type, `Apply` returns within
`2 ^ 32` evaluations of the condition of its loop, having invoked fewer than `2 ^ 32`
migrators. -/
theorem Apply_returns {β : Type} (r : register β) (db : ReadOnlyKVStore) (c : Migratable β)
    (m : Obj β) (t fuel : Nat) (ht : t < uint32Size) (h0 : r.migrateTo ⟨c.typ, 0⟩ = none)
    (hfuel : uint32Size ≤ fuel) :
    ∃ res, r.Apply db c m t fuel = some res ∧ res.invoked.length < uint32Size := by
  have hpos : 0 < uint32Size := by decide
  by_cases ht1 : t < 1
  · have h : r.Apply db c m t fuel = some ⟨m, some (errors.Wrap (errors.root ErrKind.ErrInput)
        "minimal allowed version is 1"), [], false⟩ := by
      simp [register.Apply, ht1]
    exact ⟨_, h, hpos⟩
  cases hp : m.Metadata with
  | none =>
    have h : r.Apply db c m t fuel = some ⟨m, Metadata.Validate none, [], false⟩ := by
      simp [register.Apply, ht1, Obj.GetMetadata, hp]
    exact ⟨_, h, hpos⟩
  | some p =>
    by_cases hs : 1 ≤ (m.records p).Schema
    · rw [Apply_eq_of_valid r db c m t fuel p (by omega) hp hs]
      obtain ⟨x, hx⟩ := applyLoop_returns r db c.typ p t ht h0
        (((m.records p).Schema + 1) % uint32Size) fuel m [] (Nat.mod_lt _ hpos) hfuel
      refine ⟨c.finish x, by rw [hx]; rfl, ?_⟩
      rw [(finish_obj c x).2]
      exact applyLoop_invoked_bound r db c.typ p t h0 _ fuel m x (Nat.mod_lt _ hpos) hx
    · have hlt : (m.records p).Schema < 1 := by omega
      have h : r.Apply db c m t fuel = some ⟨m, some (errors.Wrap
          (errors.root ErrKind.ErrMetadata) "schema version less than 1"), [], false⟩ := by
        simp [register.Apply, ht1, Obj.GetMetadata, hp, Metadata.Validate, hlt]
      exact ⟨_, h, hpos⟩

/-- At the largest target the loop cannot leave through its condition: whatever it
returns, started at a 32-bit counter, carries an error. -/
theorem applyLoop_max_target {β : Type} (r : register β) (db : ReadOnlyKVStore)
    (tp : ReflectType) (p t : Nat) (ht : t + 1 = uint32Size)
    (v fuel : Nat) (m : Obj β) (log : List Nat) (x : LoopExit β) (hv : v < uint32Size)
    (h : r.applyLoop db tp p t fuel v m log = some x) : x.err ≠ none := by
  have hpos : 0 < uint32Size := by decide
  refine applyLoop_rule r db tp p t (fun v _ _ => v < uint32Size) (fun x => x.err ≠ none)
    ?_ ?_ ?_ ?_ fuel v m log x hv h
  · intro v m log hinv hexit
    exact absurd (by omega : v ≤ t) hexit
  · intro v m log _ _ _
    simp
  · intro v m log mig m1 e _ _ _ _
    simp
  · intro v m log mig m1 _ _ _ _
    exact Nat.mod_lt _ hpos

/-- C31: `Apply` terminates on every input.  For every register reachable from the empty
register by `Register` calls, every object and every 32-bit target version, version 0 is
not registered, and `Apply` returns within `2 ^ 32` evaluations of the condition of its
loop, so the loop performs at most `2 ^ 32` iterations, fewer than `2 ^ 32` of which invoke
a migrator.  Where the counter wraps around to 0: an object with valid metadata and
`Schema = 2 ^ 32 - 1` gets the `ErrSchema` error of the missing version 0 at once, no
migrator invoked; and with the target `2 ^ 32 - 1` and valid metadata the loop cannot
leave through its condition and `Apply` returns an error. -/
theorem Apply_terminates {β : Type} (r : register β) (hreach : r.Reachable)
    (db : ReadOnlyKVStore) (c : Migratable β) (m : Obj β) (t fuel : Nat)
    (ht : t < uint32Size) (hfuel : uint32Size ≤ fuel) :
    r.migrateTo ⟨c.typ, 0⟩ = none ∧
      ∃ res, r.Apply db c m t fuel = some res ∧ res.invoked.length < uint32Size ∧
        (∀ p, m.Metadata = some p → 1 ≤ t → (m.records p).Schema + 1 = uint32Size →
          res.err = some (errors.Wrapf (errors.root ErrKind.ErrSchema)
            "migration to version %d missing" [FmtArg.num 0]) ∧ res.invoked = []) ∧
        (∀ p, m.Metadata = some p → 1 ≤ (m.records p).Schema → t + 1 = uint32Size →
          res.err ≠ none) := by
  have hpos : 0 < uint32Size := by decide
  have h0 := Reachable_no_zero r hreach c.typ
  obtain ⟨res, hres, hlen⟩ := Apply_returns r db c m t fuel ht h0 hfuel
  refine ⟨h0, res, hres, hlen, ?_, ?_⟩
  · intro p hp ht1 hwrap
    have h2 : 2 ≤ uint32Size := by decide
    obtain ⟨f, rfl⟩ : ∃ f, fuel = f + 1 := ⟨fuel - 1, by omega⟩
    rw [Apply_eq_of_valid r db c m t _ p ht1 hp (by omega), hwrap, Nat.mod_self,
      applyLoop_missing r db c.typ p t f 0 m [] (Nat.zero_le t) h0] at hres
    have hres2 : res = c.finish ⟨m, [], some (errors.Wrapf (errors.root ErrKind.ErrSchema)
        "migration to version %d missing" [FmtArg.num 0])⟩ := (Option.some.inj hres).symm
    rw [hres2]
    exact ⟨rfl, rfl⟩
  · intro p hp hs htmax
    have h2 : 2 ≤ uint32Size := by decide
    rw [Apply_eq_of_valid r db c m t fuel p (by omega) hp hs] at hres
    cases hloop : r.applyLoop db c.typ p t fuel (((m.records p).Schema + 1) % uint32Size) m []
      with
    | none =>
      rw [hloop] at hres
      cases hres
    | some x =>
      rw [hloop] at hres
      have hres2 : res = c.finish x := (Option.some.inj hres).symm
      have hx := applyLoop_max_target r db c.typ p t htmax _ fuel m [] x (Nat.mod_lt _ hpos)
        hloop
      rw [hres2]
      obtain ⟨o, log, e⟩ := x
      cases e with
      | none => exact absurd rfl hx
      | some e => simp [Migratable.finish]

/-- C31 on the register of the tests: for a `MyModel` with `Schema = 4294967295` and
target 1 the counter starts at 0, and `Apply` returns the `ErrSchema` error of the missing
version 0 without invoking a migrator. -/
theorem Apply_terminates_witness :
    MyModel.reg.migrateTo ⟨MyModel.iface.typ, 0⟩ = none ∧
      ∃ res, MyModel.reg.Apply emptyStore MyModel.iface (MyModel.mk0 4294967295 5) 1
          uint32Size = some res ∧ res.invoked.length < uint32Size ∧
        (∀ p, (MyModel.mk0 4294967295 5).Metadata = some p → 1 ≤ 1 →
          ((MyModel.mk0 4294967295 5).records p).Schema + 1 = uint32Size →
          res.err = some (errors.Wrapf (errors.root ErrKind.ErrSchema)
            "migration to version %d missing" [FmtArg.num 0]) ∧ res.invoked = []) ∧
        (∀ p, (MyModel.mk0 4294967295 5).Metadata = some p →
          1 ≤ ((MyModel.mk0 4294967295 5).records p).Schema → 1 + 1 = uint32Size →
          res.err ≠ none) :=
  Apply_terminates MyModel.reg MyModel_reg_reachable emptyStore MyModel.iface
    (MyModel.mk0 4294967295 5) 1 uint32Size (by decide) (le_refl _)

/-- The run of `Apply` on a `MyModel` with the largest schema version and target 1,
evaluated: the error, the invoked migrators and whether `Validate` was called. -/
theorem Apply_wraps_at_start :
    (MyModel.reg.Apply emptyStore MyModel.iface (MyModel.mk0 4294967295 5) 1 uint32Size).map
        (fun res => (res.err, res.invoked, res.validated)) =
      some (some (errors.Wrapf (errors.root ErrKind.ErrSchema)
        "migration to version %d missing" [FmtArg.num 0]), [], false) := by
  decide

/-! ## Registration, once more -/

/-- C32: `Register` is atomic on failure.  For every register and arguments, whenever
`Register` returns an error, the register, and with it its mapping, is exactly what it
was before the call; and the error is returned exactly when the version is below 1, or
the version is above 1 and its predecessor is missing, or the pair is registered
already. -/
theorem Register_atomic {β : Type} (r : register β) (N : Nat) (tp : ReflectType)
    (fn : Migrator β) :
    ((r.Register N tp fn).2 ≠ none →
        (r.Register N tp fn).1 = r ∧ (r.Register N tp fn).1.migrateTo = r.migrateTo) ∧
      ((r.Register N tp fn).2 ≠ none ↔
        (N < 1 ∨ (1 < N ∧ r.migrateTo ⟨tp, N - 1⟩ = none) ∨
          (r.migrateTo ⟨tp, N⟩).isSome = true)) := by
  constructor
  · intro h
    cases he : (r.Register N tp fn).2 with
    | none => exact absurd he h
    | some e =>
      have := Register_error_unchanged r N tp fn e he
      exact ⟨this, by rw [this]⟩
  · rcases Register_cases r N tp fn with h | h | h | h
    · obtain ⟨h1, _, e, he, _⟩ := h
      rw [he]
      simp [h1]
    · obtain ⟨h1, h2, _, e, he, _⟩ := h
      rw [he]
      simp [h1, h2]
    · obtain ⟨_, _, h3, _, e, he, _⟩ := h
      rw [he]
      simp [h3]
    · obtain ⟨h1, h2, h3, _, he⟩ := h
      rw [he]
      simp only [ne_eq, not_true_eq_false, false_iff, not_or, not_and]
      refine ⟨by omega, ?_, by simp [h3]⟩
      intro hN hnone
      rcases h2 with h2 | h2
      · omega
      · rw [hnone] at h2
        simp at h2

/-- C32 on the register of the tests: registering version 2 again, version 4 without
version 3, or version 0 returns an error and leaves the register as it was. -/
theorem Register_atomic_witness :
    (MyModel.reg.Register 2 "migration.MyModel" NoModification).2 ≠ none ∧
      (MyModel.reg.Register 2 "migration.MyModel" NoModification).1 = MyModel.reg ∧
      (MyModel.reg.Register 4 "migration.MyModel" NoModification).1 = MyModel.reg ∧
      (MyModel.reg.Register 0 "migration.MyModel" NoModification).1 = MyModel.reg :=
  ⟨by decide,
    ((Register_atomic MyModel.reg 2 "migration.MyModel" NoModification).1 (by decide)).1,
    ((Register_atomic MyModel.reg 4 "migration.MyModel" NoModification).1 (by decide)).1,
    ((Register_atomic MyModel.reg 0 "migration.MyModel" NoModification).1 (by decide)).1⟩

/-- C33: in every register reachable from the empty register by `Register` calls,
registering again any pair of payload type and version that is registered already
returns the `ErrDuplicate` error, never the `ErrInput` error of a missing previous
version, and leaves the register as it was: by the chain invariant the version is at
least 1 and its predecessor is present, so the predecessor check passes. -/
theorem Register_again_duplicate {β : Type} (r : register β) (hreach : r.Reachable)
    (tp : ReflectType) (N : Nat) (fn : Migrator β)
    (hreg : (r.migrateTo ⟨tp, N⟩).isSome = true) :
    1 ≤ N ∧ (N = 1 ∨ (r.migrateTo ⟨tp, N - 1⟩).isSome = true) ∧
      (∃ e, (r.Register N tp fn).2 = some e ∧ e.kind = ErrKind.ErrDuplicate) ∧
      ErrKind.ErrDuplicate.Is (r.Register N tp fn).2 = true ∧
      ErrKind.ErrInput.Is (r.Register N tp fn).2 = false ∧
      (r.Register N tp fn).1 = r := by
  obtain ⟨hN, hchain⟩ := Reachable_chain r hreach tp N hreg
  have hpred : N = 1 ∨ (r.migrateTo ⟨tp, N - 1⟩).isSome = true := by
    by_cases h1 : N = 1
    · exact Or.inl h1
    · exact Or.inr (hchain (N - 1) (by omega) (by omega))
  rcases Register_cases r N tp fn with h | h | h | h
  · omega
  · obtain ⟨h1, h2, _⟩ := h
    rcases hpred with hp | hp
    · omega
    · rw [h2] at hp
      simp at hp
  · obtain ⟨_, _, _, hsame, e, he, hk⟩ := h
    refine ⟨hN, hpred, ⟨e, he, hk⟩, ?_, ?_, hsame⟩
    · rw [he]
      simp [ErrKind.Is, hk]
    · rw [he]
      simp [ErrKind.Is, hk]
  · obtain ⟨_, _, h3, _⟩ := h
    rw [h3] at hreg
    simp at hreg

/-- C33 on the register of the tests: registering version 2 of `MyModel` again returns
`ErrDuplicate` and leaves the register as it was. -/
theorem Register_again_duplicate_witness :
    1 ≤ 2 ∧ (2 = 1 ∨ (MyModel.reg.migrateTo ⟨"migration.MyModel", 2 - 1⟩).isSome = true) ∧
      (∃ e, (MyModel.reg.Register 2 "migration.MyModel" NoModification).2 = some e ∧
        e.kind = ErrKind.ErrDuplicate) ∧
      ErrKind.ErrDuplicate.Is (MyModel.reg.Register 2 "migration.MyModel" NoModification).2 =
        true ∧
      ErrKind.ErrInput.Is (MyModel.reg.Register 2 "migration.MyModel" NoModification).2 =
        false ∧
      (MyModel.reg.Register 2 "migration.MyModel" NoModification).1 = MyModel.reg :=
  Register_again_duplicate MyModel.reg MyModel_reg_reachable "migration.MyModel" 2
    NoModification (by decide)

/-! ## Composition over versions -/

/-- The object and the error that the loop returns do not depend on the list of invoked
migrators it is entered with. -/
theorem applyLoop_log {β : Type} (r : register β) (db : ReadOnlyKVStore) (tp : ReflectType)
    (p t : Nat) :
    ∀ (fuel v : Nat) (m : Obj β) (log log2 : List Nat),
      (r.applyLoop db tp p t fuel v m log).map (fun x => (x.obj, x.err)) =
        (r.applyLoop db tp p t fuel v m log2).map (fun x => (x.obj, x.err)) := by
  intro fuel
  induction fuel with
  | zero =>
    intro v m log log2
    rfl
  | succ f ih =>
    intro v m log log2
    by_cases hv : v ≤ t
    · cases hmig : r.migrateTo ⟨tp, v⟩ with
      | none =>
        rw [applyLoop_missing r db tp p t f v m log hv hmig,
          applyLoop_missing r db tp p t f v m log2 hv hmig]
        rfl
      | some mig =>
        rcases hrun : mig db m with ⟨m1, e⟩
        cases e with
        | some e =>
          rw [applyLoop_fail r db tp p t f v m m1 log mig e hv hmig hrun,
            applyLoop_fail r db tp p t f v m m1 log2 mig e hv hmig hrun]
          rfl
        | none =>
          rw [applyLoop_next r db tp p t f v m m1 log mig hv hmig hrun,
            applyLoop_next r db tp p t f v m m1 log2 mig hv hmig hrun]
          exact ih _ _ _ _
    · rw [applyLoop_exit r db tp p t f v m log hv, applyLoop_exit r db tp p t f v m log2 hv]
      rfl

/-- The loop composes over targets.  When the loop for target `a`, entered with the
counter one above the schema of the metadata record, runs to its end, the loop for a
target `b ≥ a` entered in the same state takes the same turns and then goes on as the
loop for `b` entered on the object that the loop for `a` left, with the counter one
above the schema in its metadata record. -/
theorem applyLoop_compose {β : Type} (r : register β) (db : ReadOnlyKVStore)
    (tp : ReflectType) (p a b : Nat) (hab : a ≤ b) :
    ∀ (f1 v : Nat) (m : Obj β) (log : List Nat) (o : Obj β) (log1 : List Nat),
      v = ((m.records p).Schema + 1) % uint32Size →
      r.applyLoop db tp p a f1 v m log = some ⟨o, log1, none⟩ →
      ¬ ((o.records p).Schema + 1) % uint32Size ≤ a ∧ log.length ≤ log1.length ∧
      ∀ (f : Nat) (log2 log3 : List Nat),
        (r.applyLoop db tp p b (f + (log1.length - log.length)) v m log2).map
            (fun x => (x.obj, x.err)) =
          (r.applyLoop db tp p b f (((o.records p).Schema + 1) % uint32Size) o log3).map
            (fun x => (x.obj, x.err)) := by
  intro f1
  induction f1 with
  | zero =>
    intro v m log o log1 _ h
    simp [register.applyLoop] at h
  | succ f1 ih =>
    intro v m log o log1 hstart h
    by_cases hv : v ≤ a
    · cases hmig : r.migrateTo ⟨tp, v⟩ with
      | none =>
        rw [applyLoop_missing r db tp p a f1 v m log hv hmig] at h
        simp at h
      | some mig =>
        rcases hrun : mig db m with ⟨m1, e⟩
        cases e with
        | some e =>
          rw [applyLoop_fail r db tp p a f1 v m m1 log mig e hv hmig hrun] at h
          simp at h
        | none =>
          rw [applyLoop_next r db tp p a f1 v m m1 log mig hv hmig hrun] at h
          have hnext : (v + 1) % uint32Size =
              (((m1.storeSchema p v).records p).Schema + 1) % uint32Size := by
            simp [Obj.storeSchema]
          obtain ⟨hexit, hlen, heq⟩ := ih _ _ _ o log1 hnext h
          rw [List.length_append, List.length_singleton] at hlen heq
          refine ⟨hexit, by omega, ?_⟩
          intro f log2 log3
          have hfuel : f + (log1.length - log.length) =
              (f + (log1.length - (log.length + 1))) + 1 := by omega
          rw [hfuel, applyLoop_next r db tp p b _ v m m1 log2 mig (by omega) hmig hrun]
          exact heq f (log2 ++ [v]) log3
    · rw [applyLoop_exit r db tp p a f1 v m log hv] at h
      have hobj : m = o := by
        have := congrArg (fun x => x.map LoopExit.obj) h
        simpa using this
      have hlog : log = log1 := by
        have := congrArg (fun x => x.map LoopExit.invoked) h
        simpa using this
      subst hobj
      subst hlog
      rw [← hstart]
      refine ⟨hv, le_refl _, ?_⟩
      intro f log2 log3
      rw [Nat.sub_self, Nat.add_zero]
      exact applyLoop_log r db tp p b f v m log2 log3

/-- What the tail of `Apply` returns is determined by the object and the error that the
loop returns. -/
theorem finish_view {β : Type} (c : Migratable β) (x : LoopExit β) :
    ((c.finish x).err, (c.finish x).obj, (c.finish x).validated) =
      ((c.finish ⟨x.obj, [], x.err⟩).err, (c.finish ⟨x.obj, [], x.err⟩).obj,
        (c.finish ⟨x.obj, [], x.err⟩).validated) := by
  obtain ⟨m, log, e⟩ := x
  cases e with
  | some e => rfl
  | none =>
    simp only [Migratable.finish]
    cases c.Validate m <;> rfl

/-- C34, as stated, fails when a migrator has replaced the metadata record.  With
`Schema = 1`, a version 2 migrator that does so and adds 2 to `Cnt`, and `NoModification`
for version 3: `Apply` to version 2 returns nil, and `Apply` to version 3 on its result
returns nil after invoking the version 2 migrator again, leaving `Cnt = 9`; `Apply` to
version 3 on the original object returns nil and leaves `Cnt = 7`. -/
theorem Apply_composes_counterexample :
    ((MyModel.regResetNoMod.Apply emptyStore MyModel.iface (MyModel.mk0 1 5) 2 4).bind
        (fun res1 => (MyModel.regResetNoMod.Apply emptyStore MyModel.iface res1.obj 3 4).map
          (fun res2 => (res1.err, res2.err, res2.invoked, res2.obj.payload.Cnt)))) =
      some (none, none, [2, 3], 9) ∧
    (MyModel.regResetNoMod.Apply emptyStore MyModel.iface (MyModel.mk0 1 5) 3 4).map
        (fun res => (res.err, res.invoked, res.obj.payload.Cnt)) =
      some (none, [2, 3], 7) :=
  ⟨by decide, by decide⟩

/-- C34 (amended): `Apply` composes over versions as long as the `Metadata` field of the
object still points at the record it pointed at on entry.  For every register, object and
versions `a ≤ b` (with `1 ≤ a`, as a successful `Apply` needs): if `Apply(object, a)`
returns nil and leaves the `Metadata` field as it was, then `Apply(_, b)` on its result
and `Apply(object, b)` on the original object return the same error result and leave the
same object, with the same call of `Validate` or none: the direct call takes the turns of
the first call and then goes on like the second (it returns exactly when the second one
does, given as many more evaluations of the loop condition as the first call invoked
migrators).  When version 0 is not registered for the type, as in every reachable
register, and `b` is a 32-bit version, both calls return. -/
theorem Apply_composes {β : Type} (r : register β) (db : ReadOnlyKVStore) (c : Migratable β)
    (m : Obj β) (a b f1 : Nat) (resA : ApplyResult β) (hab : a ≤ b)
    (hA : r.Apply db c m a f1 = some resA) (hok : resA.err = none)
    (hptr : resA.obj.Metadata = m.Metadata) :
    (∀ f, (r.Apply db c m b (f + resA.invoked.length)).map
          (fun x => (x.err, x.obj, x.validated)) =
        (r.Apply db c resA.obj b f).map (fun x => (x.err, x.obj, x.validated))) ∧
      (r.migrateTo ⟨c.typ, 0⟩ = none → b < uint32Size → ∀ f, uint32Size ≤ f →
        ∃ res2 res3, r.Apply db c resA.obj b f = some res2 ∧
          r.Apply db c m b (f + resA.invoked.length) = some res3 ∧
          res3.err = res2.err ∧ res3.obj = res2.obj ∧ res3.validated = res2.validated) := by
  obtain ⟨ha1, p, hp, hs, hloop, _, _⟩ := Apply_success_inv r db c m a f1 resA hA hok
  obtain ⟨hexit, _, heq⟩ := applyLoop_compose r db c.typ p a b hab f1 _ m [] resA.obj
    resA.invoked rfl hloop
  have hp2 : resA.obj.Metadata = some p := by rw [hptr, hp]
  have hs2 : 1 ≤ (resA.obj.records p).Schema := by
    by_contra hzero
    have hz : (resA.obj.records p).Schema = 0 := by omega
    rw [hz] at hexit
    have h1 : (0 + 1) % uint32Size = 1 := by decide
    rw [h1] at hexit
    exact hexit ha1
  have hfirst : ∀ f, (r.Apply db c m b (f + resA.invoked.length)).map
        (fun x => (x.err, x.obj, x.validated)) =
      (r.Apply db c resA.obj b f).map (fun x => (x.err, x.obj, x.validated)) := by
    intro f
    rw [Apply_eq_of_valid r db c m b _ p (by omega) hp hs,
      Apply_eq_of_valid r db c resA.obj b f p (by omega) hp2 hs2]
    have hview : ∀ X : Option (LoopExit β),
        (X.map c.finish).map (fun x => (x.err, x.obj, x.validated)) =
          (X.map (fun x => (x.obj, x.err))).map (fun y =>
            ((c.finish ⟨y.1, [], y.2⟩).err, (c.finish ⟨y.1, [], y.2⟩).obj,
              (c.finish ⟨y.1, [], y.2⟩).validated)) := by
      intro X
      cases X with
      | none => rfl
      | some x => exact congrArg some (finish_view c x)
    rw [hview, hview]
    have := heq f [] []
    rw [List.length_nil, Nat.sub_zero] at this
    rw [this]
  refine ⟨hfirst, ?_⟩
  intro h0 hb f hf
  obtain ⟨res2, hres2, _⟩ := Apply_returns r db c resA.obj b f hb h0 hf
  have h := hfirst f
  rw [hres2] at h
  cases hres3 : r.Apply db c m b (f + resA.invoked.length) with
  | none =>
    rw [hres3] at h
    simp at h
  | some res3 =>
    rw [hres3] at h
    simp only [Option.map_some', Option.some.injEq, Prod.mk.injEq] at h
    exact ⟨res2, res3, hres2, rfl, h.1, h.2.1, h.2.2⟩

/-- C34 (amended) on a register with `NoModification` for the versions 1, 2 and 3: for a
`MyModel` at schema 1, `Apply` to version 2 returns nil after one turn of the loop and
leaves the metadata record in place with schema 2; `Apply` to version 3 on its result and
`Apply` to version 3 on the original object return the same, nil with `Cnt = 5` at
schema 3. -/
theorem Apply_composes_witness :
    (MyModel.regNoMod.Apply emptyStore MyModel.iface (MyModel.mk0 1 5) 2 3).map
        (fun x => (x.err, x.invoked, x.obj.Metadata, x.obj.Schema)) =
        some (none, [2], some 0, some 2) ∧
      (∀ f, (MyModel.regNoMod.Apply emptyStore MyModel.iface (MyModel.mk0 1 5) 3 (f + 1)).map
            (fun x => (x.err, x.obj, x.validated)) =
          (MyModel.regNoMod.Apply emptyStore MyModel.iface
            ((MyModel.mk0 1 5).storeSchema 0 2) 3 f).map
            (fun x => (x.err, x.obj, x.validated))) ∧
      (MyModel.regNoMod.Apply emptyStore MyModel.iface (MyModel.mk0 1 5) 3 4).map
        (fun x => (x.err, x.obj.Schema, x.obj.payload.Cnt)) = some (none, some 3, 5) ∧
      (MyModel.regNoMod.Apply emptyStore MyModel.iface ((MyModel.mk0 1 5).storeSchema 0 2)
        3 3).map (fun x => (x.err, x.obj.Schema, x.obj.payload.Cnt)) = some (none, some 3, 5) :=
  ⟨by decide,
    (Apply_composes MyModel.regNoMod emptyStore MyModel.iface (MyModel.mk0 1 5) 2 3 3
      ⟨(MyModel.mk0 1 5).storeSchema 0 2, none, [2], true⟩ (by decide) rfl rfl rfl).1,
    by decide, by decide⟩

end migration

namespace store

/-! ## Tables in key order -/

/-- Lookup after an ordered insertion. -/
theorem find_put {K α : Type} [LinearOrder K] (k k1 : K) (x : α) (l : List (K × α)) :
    find k1 (put k x l) = if k1 = k then some x else find k1 l := by
  induction l with
  | nil => simp [put, find]
  | cons e l ih =>
    obtain ⟨k2, x2⟩ := e
    unfold put
    by_cases hlt : k < k2
    · simp only [if_pos hlt]
      simp only [find]
    · simp only [if_neg hlt]
      by_cases heq : k = k2
      · subst heq
        simp only [if_true, find]
        by_cases h1 : k1 = k
        · simp [h1]
        · simp [h1]
      · simp only [if_neg heq]
        simp only [find, ih]
        by_cases h2 : k1 = k2
        · subst h2
          have hne : ¬ k1 = k := fun h => heq h.symm
          simp [hne]
        · simp [h2]

/-- Lookup after a removal. -/
theorem find_del {K α : Type} [LinearOrder K] (k k1 : K) (l : List (K × α)) :
    find k1 (del k l) = if k1 = k then none else find k1 l := by
  induction l with
  | nil => simp [del, find]
  | cons e l ih =>
    obtain ⟨k2, x2⟩ := e
    unfold del at ih ⊢
    by_cases h2 : k2 = k
    · subst h2
      simp only [List.filter, ne_eq, not_true_eq_false, decide_False]
      rw [ih]
      by_cases h1 : k1 = k2
      · simp [h1]
      · simp [h1, find]
    · have hdec : decide ((k2, x2).1 ≠ k) = true := by simp [h2]
      simp only [List.filter, hdec, find]
      rw [ih]
      by_cases h1 : k1 = k2
      · subst h1
        simp [h2]
      · simp [h1]

/-- The pairs of a table after an insertion are the new pair and pairs of the old
table. -/
theorem mem_put {K α : Type} [LinearOrder K] (k : K) (x : α) (l : List (K × α))
    (e : K × α) (h : e ∈ put k x l) : e = (k, x) ∨ e ∈ l := by
  induction l with
  | nil =>
    simp [put] at h
    exact Or.inl h
  | cons e2 l ih =>
    obtain ⟨k2, x2⟩ := e2
    unfold put at h
    by_cases hlt : k < k2
    · simp only [if_pos hlt, List.mem_cons] at h
      rcases h with h | h | h
      · exact Or.inl h
      · exact Or.inr (by simp [h])
      · exact Or.inr (by simp [h])
    · simp only [if_neg hlt] at h
      by_cases heq : k = k2
      · simp only [if_pos heq, List.mem_cons] at h
        rcases h with h | h
        · exact Or.inl h
        · exact Or.inr (by simp [h])
      · simp only [if_neg heq, List.mem_cons] at h
        rcases h with h | h
        · exact Or.inr (by simp [h])
        · rcases ih h with h3 | h3
          · exact Or.inl h3
          · exact Or.inr (by simp [h3])

/-- An ordered insertion keeps the key order. -/
theorem sorted_put {K α : Type} [LinearOrder K] (k : K) (x : α) (l : List (K × α))
    (h : SortedKeys l) : SortedKeys (put k x l) := by
  induction l with
  | nil => simp [put, SortedKeys]
  | cons e l ih =>
    obtain ⟨k2, x2⟩ := e
    unfold SortedKeys at h ih ⊢
    rw [List.pairwise_cons] at h
    unfold put
    by_cases hlt : k < k2
    · simp only [if_pos hlt]
      refine List.pairwise_cons.mpr ⟨?_, List.pairwise_cons.mpr h⟩
      intro e he
      rcases List.mem_cons.mp he with h1 | h1
      · rw [h1]; exact hlt
      · exact lt_trans hlt (h.1 e h1)
    · simp only [if_neg hlt]
      by_cases heq : k = k2
      · subst heq
        simp only [if_true]
        exact List.pairwise_cons.mpr ⟨h.1, h.2⟩
      · simp only [if_neg heq]
        refine List.pairwise_cons.mpr ⟨?_, ih h.2⟩
        intro e he
        rcases mem_put k x l e he with h1 | h1
        · rw [h1]
          exact lt_of_le_of_ne (not_lt.mp hlt) (fun h2 => heq h2.symm)
        · exact h.1 e h1

/-- A removal keeps the key order. -/
theorem sorted_del {K α : Type} [LinearOrder K] (k : K) (l : List (K × α))
    (h : SortedKeys l) : SortedKeys (del k l) := by
  unfold SortedKeys del at *
  exact List.Pairwise.filter _ h

/-- A key below all keys of a table is not in it. -/
theorem find_none_of_lt {K α : Type} [LinearOrder K] (k : K) (l : List (K × α))
    (h : ∀ e ∈ l, k < e.1) : find k l = none := by
  induction l with
  | nil => rfl
  | cons e l ih =>
    obtain ⟨k2, x2⟩ := e
    have hlt : k < k2 := h (k2, x2) (List.mem_cons_self _ _)
    simp only [find, if_neg (ne_of_lt hlt)]
    exact ih (fun e he => h e (List.mem_cons_of_mem _ he))

/-- A pair of a table in key order is found under its key. -/
theorem find_of_mem {K α : Type} [LinearOrder K] (l : List (K × α)) (h : SortedKeys l)
    (e : K × α) (he : e ∈ l) : find e.1 l = some e.2 := by
  induction l with
  | nil => simp at he
  | cons e2 l ih =>
    obtain ⟨k2, x2⟩ := e2
    unfold SortedKeys at h ih
    rw [List.pairwise_cons] at h
    rcases List.mem_cons.mp he with h1 | h1
    · rw [h1]
      simp [find]
    · have hlt : k2 < e.1 := h.1 e h1
      simp only [find, if_neg (ne_of_gt hlt)]
      exact ih h.2 h1

/-- Two tables in key order with the same lookups are the same table. -/
theorem sorted_ext {K α : Type} [LinearOrder K] :
    ∀ (l1 l2 : List (K × α)), SortedKeys l1 → SortedKeys l2 →
      (∀ k, find k l1 = find k l2) → l1 = l2 := by
  intro l1
  induction l1 with
  | nil =>
    intro l2 _ h2 hfind
    cases l2 with
    | nil => rfl
    | cons e l2 =>
      have := hfind e.1
      rw [find_of_mem (e :: l2) h2 e (List.mem_cons_self _ _)] at this
      simp [find] at this
  | cons e1 l1 ih =>
    intro l2 h1 h2 hfind
    cases l2 with
    | nil =>
      have := hfind e1.1
      rw [find_of_mem (e1 :: l1) h1 e1 (List.mem_cons_self _ _)] at this
      simp [find] at this
    | cons e2 l2 =>
      obtain ⟨k1, x1⟩ := e1
      obtain ⟨k2, x2⟩ := e2
      have h1c := List.pairwise_cons.mp h1
      have h2c := List.pairwise_cons.mp h2
      have hk : k1 = k2 := by
        by_contra hne
        have ha := hfind k1
        have hb := hfind k2
        simp only [find, if_true, if_neg hne] at ha
        have hne2 : ¬ k2 = k1 := fun h => hne h.symm
        simp only [find, if_true, if_neg hne2] at hb
        have hlt12 : k1 < k2 ∨ k2 < k1 := lt_or_gt_of_ne hne
        rcases hlt12 with hlt | hlt
        · have hnone : find k1 l2 = none :=
            find_none_of_lt k1 l2 (fun e he => lt_trans hlt (h2c.1 e he))
          rw [hnone] at ha
          simp at ha
        · have hnone : find k2 l1 = none :=
            find_none_of_lt k2 l1 (fun e he => lt_trans hlt (h1c.1 e he))
          rw [hnone] at hb
          simp at hb
      subst hk
      have hx : x1 = x2 := by
        have ha := hfind k1
        simp only [find, if_true] at ha
        exact Option.some.inj ha
      subst hx
      have htail : l1 = l2 := by
        apply ih l2 h1c.2 h2c.2
        intro k
        by_cases hkk : k = k1
        · subst hkk
          rw [find_none_of_lt k l1 h1c.1, find_none_of_lt k l2 h2c.1]
        · have := hfind k
          simp only [find, if_neg hkk] at this
          exact this
      rw [htail]

/-! ## Writing a layer to its parent -/

/-- The `Op` of a change-set entry has the key and the pending state of the entry. -/
theorem pendingOp_key_state {K V : Type} (e : K × Option V) :
    (pendingOp e).key = e.1 ∧ (pendingOp e).state = e.2 := by
  obtain ⟨k, x⟩ := e
  cases x <;> exact ⟨rfl, rfl⟩

/-- A change-set in key order, applied entry by entry to a table through an action
that sets the lookup of the key of each `Op`, overrides the table exactly at its own
keys. -/
theorem find_pending {K V α : Type} [LinearOrder K]
    (act : Op K V → List (K × α) → List (K × α)) (enc : Option V → Option α)
    (hact : ∀ op l k, find k (act op l) = if k = op.key then enc op.state else find k l)
    (ch : List (K × Option V)) :
    ∀ (l : List (K × α)), SortedKeys ch → ∀ k,
      find k ((ch.map pendingOp).foldl (fun t op => act op t) l) =
        match find k ch with
        | none => find k l
        | some x => enc x := by
  induction ch with
  | nil =>
    intro l _ k
    simp [find]
  | cons e ch ih =>
    intro l hs k
    obtain ⟨k1, x1⟩ := e
    have hc := List.pairwise_cons.mp hs
    simp only [List.map, List.foldl]
    rw [ih (act (pendingOp (k1, x1)) l) hc.2 k, hact]
    rw [(pendingOp_key_state (k1, x1)).1, (pendingOp_key_state (k1, x1)).2]
    by_cases hk : k = k1
    · subst hk
      rw [find_none_of_lt k ch hc.1]
      simp [find]
    · simp only [find, if_neg hk]

/-- The lookups after a sequence of `Op`s, through the change-set a fresh layer records
for the sequence. -/
theorem find_sequence {K V α : Type} [LinearOrder K]
    (act : Op K V → List (K × α) → List (K × α)) (enc : Option V → Option α)
    (hact : ∀ op l k, find k (act op l) = if k = op.key then enc op.state else find k l)
    (l : List (K × α)) (ops : List (Op K V)) :
    ∀ k, find k (ops.foldl (fun t op => act op t) l) =
      match find k (recorded ops) with
      | none => find k l
      | some x => enc x := by
  induction ops using List.reverseRecOn with
  | nil =>
    intro k
    simp [recorded, find]
  | append_singleton ops op ih =>
    intro k
    have hrec : recorded (ops ++ [op]) = put op.key op.state (recorded ops) := by
      simp [recorded, Op.onLayer, List.foldl_append]
    rw [hrec, find_put, List.foldl_append]
    simp only [List.foldl]
    rw [hact, ih k]
    by_cases hk : k = op.key
    · simp [hk]
    · simp [hk]

/-- The change-set a fresh layer records is in key order. -/
theorem sorted_recorded {K V : Type} [LinearOrder K] (ops : List (Op K V)) :
    SortedKeys (recorded ops) := by
  induction ops using List.reverseRecOn with
  | nil => simp [recorded, SortedKeys]
  | append_singleton ops op ih =>
    have hrec : recorded (ops ++ [op]) = put op.key op.state (recorded ops) := by
      simp [recorded, Op.onLayer, List.foldl_append]
    rw [hrec]
    exact sorted_put _ _ _ ih

/-- A sequence of actions that keep the key order keeps the key order. -/
theorem sorted_foldl {K V α : Type} [LinearOrder K]
    (act : Op K V → List (K × α) → List (K × α))
    (hsorted : ∀ op l, SortedKeys l → SortedKeys (act op l)) (ops : List (Op K V)) :
    ∀ (l : List (K × α)), SortedKeys l → SortedKeys (ops.foldl (fun t op => act op t) l) := by
  induction ops with
  | nil => intro l h; exact h
  | cons op ops ih =>
    intro l h
    exact ih (act op l) (hsorted op l h)

/-- Applying the recorded change-set in key order gives the table that the sequence of
`Op`s gives. -/
theorem pending_eq_sequence {K V α : Type} [LinearOrder K]
    (act : Op K V → List (K × α) → List (K × α)) (enc : Option V → Option α)
    (hact : ∀ op l k, find k (act op l) = if k = op.key then enc op.state else find k l)
    (hsorted : ∀ op l, SortedKeys l → SortedKeys (act op l))
    (l : List (K × α)) (hl : SortedKeys l) (ops : List (Op K V)) :
    ((recorded ops).map pendingOp).foldl (fun t op => act op t) l =
      ops.foldl (fun t op => act op t) l := by
  apply sorted_ext
  · exact sorted_foldl act hsorted _ l hl
  · exact sorted_foldl act hsorted _ l hl
  · intro k
    rw [find_pending act enc hact (recorded ops) l (sorted_recorded ops) k,
      find_sequence act enc hact l ops k]

/-- Lookup in the table of a base store after an `Op`. -/
theorem find_onBase {K V : Type} [LinearOrder K] (op : Op K V) (l : List (K × V)) (k : K) :
    find k (op.onBase l) = if k = op.key then op.state else find k l := by
  cases op with
  | Set k1 v => exact find_put k1 k v l
  | Delete k1 => exact find_del k1 k l

/-- Lookup in the change-set of a layer after an `Op`. -/
theorem find_onLayer {K V : Type} [LinearOrder K] (op : Op K V) (l : List (K × Option V))
    (k : K) : find k (op.onLayer l) = if k = op.key then some op.state else find k l :=
  find_put op.key k op.state l

/-- An `Op` keeps the table of a base store in key order. -/
theorem sorted_onBase {K V : Type} [LinearOrder K] (op : Op K V) (l : List (K × V))
    (h : SortedKeys l) : SortedKeys (op.onBase l) := by
  cases op with
  | Set k1 v => exact sorted_put k1 v l h
  | Delete k1 => exact sorted_del k1 l h

/-- A sequence of `Op`s on a base store acts on its table. -/
theorem applyOps_base {K V : Type} [LinearOrder K] (ops : List (Op K V)) :
    ∀ (data : List (K × V)), applyOps ops (KVStore.base data) =
      KVStore.base (ops.foldl (fun t op => op.onBase t) data) := by
  induction ops with
  | nil => intro data; rfl
  | cons op ops ih =>
    intro data
    have hstep : op.Apply (KVStore.base data) = KVStore.base (op.onBase data) := by
      cases op <;> rfl
    simp only [applyOps, List.foldl] at ih ⊢
    rw [hstep]
    exact ih _

/-- A sequence of `Op`s on a layer acts on its change-set and leaves its parent
alone. -/
theorem applyOps_layer {K V : Type} [LinearOrder K] (ops : List (Op K V))
    (parent : KVStore K V) :
    ∀ (changes : List (K × Option V)), applyOps ops (KVStore.layer changes parent) =
      KVStore.layer (ops.foldl (fun t op => op.onLayer t) changes) parent := by
  induction ops with
  | nil => intro changes; rfl
  | cons op ops ih =>
    intro changes
    have hstep : op.Apply (KVStore.layer changes parent) =
        KVStore.layer (op.onLayer changes) parent := by
      cases op <;> rfl
    simp only [applyOps, List.foldl] at ih ⊢
    rw [hstep]
    exact ih _

/-- C19: `Write` is equivalent to direct application.  For every parent store whose
tables are in key order (a base store or a layer) and every finite sequence of
`Set`/`Delete` `Op`s, applying the `Op`s to the layer obtained by `CacheWrap` and then
calling `Write` leaves the layer with an empty change-set over a parent that is exactly
the store obtained by applying the same `Op`s, in the same order, directly to the
parent. -/
theorem Write_eq_direct {K V : Type} [LinearOrder K] (parent : KVStore K V)
    (hord : parent.Ordered) (ops : List (Op K V)) :
    (applyOps ops parent.CacheWrap).Write = KVStore.layer [] (applyOps ops parent) := by
  have hchild : applyOps ops parent.CacheWrap = KVStore.layer (recorded ops) parent :=
    applyOps_layer ops parent []
  rw [hchild]
  simp only [KVStore.Write]
  congr 1
  cases parent with
  | base data =>
    rw [applyOps_base, applyOps_base]
    congr 1
    exact pending_eq_sequence (fun op t => op.onBase t) id
      (fun op l k => find_onBase op l k) (fun op l h => sorted_onBase op l h) data hord ops
  | layer changes grand =>
    rw [applyOps_layer, applyOps_layer]
    congr 1
    exact pending_eq_sequence (fun op t => op.onLayer t) some
      (fun op l k => find_onLayer op l k) (fun op l h => sorted_put _ _ l h) changes hord.1
      ops

/-- C19 on the data of `TestBTreeCacheConflicts`: the parent holds keys 1 and 2, the
child overwrites key 1, adds key 3 and deletes key 2. -/
theorem Write_eq_direct_witness :
    (applyOps conflictsChildOps conflictsParent.CacheWrap).Write =
      KVStore.layer [] (applyOps conflictsChildOps conflictsParent) :=
  Write_eq_direct conflictsParent
    (by show SortedKeys [((1 : Nat), (1 : Nat)), (2, 2)]; unfold SortedKeys; decide)
    conflictsChildOps

/-- C20: buffered writes never reach the parent without `Write`.  For every parent
store and every sequence of `Set`/`Delete` `Op`s applied to a layer over it, the parent
the layer refers to is still the parent as it was, before `Write` and after `Discard`,
so `Get` and `Has` on the parent answer for every key what they answered before the
`Op`s. -/
theorem parent_unchanged {K V : Type} [LinearOrder K] (parent : KVStore K V)
    (ops : List (Op K V)) :
    (applyOps ops parent.CacheWrap).parentStore = some parent ∧
      (applyOps ops parent.CacheWrap).Discard.parentStore = some parent ∧
      (applyOps ops parent.CacheWrap).Discard = KVStore.layer [] parent ∧
      ∀ k, ((applyOps ops parent.CacheWrap).parentStore.map
            (fun st => (st.Get k, st.Has k)) = some (parent.Get k, parent.Has k)) ∧
          ((applyOps ops parent.CacheWrap).Discard.parentStore.map
            (fun st => (st.Get k, st.Has k)) = some (parent.Get k, parent.Has k)) := by
  have hchild : applyOps ops parent.CacheWrap = KVStore.layer (recorded ops) parent :=
    applyOps_layer ops parent []
  rw [hchild]
  exact ⟨rfl, rfl, rfl, fun _ => ⟨rfl, rfl⟩⟩

/-- The queries of `TestBTreeCacheConflicts` on the model: before `Write` the parent
answers with its own data and the child with the overriding data; after `Write` the
parent answers as the child did. -/
theorem conflicts_test_queries :
    ([1, 2, 3].map conflictsParent.Get = [some 1, some 2, none]) ∧
    ([1, 2, 3].map (applyOps conflictsChildOps conflictsParent.CacheWrap).Get =
      [some 11, none, some 7]) ∧
    ((applyOps conflictsChildOps conflictsParent.CacheWrap).Write.parentStore.map
      (fun st => [1, 2, 3].map st.Get) = some [some 11, none, some 7]) ∧
    ([1, 2, 3].map (applyOps conflictsChildOps conflictsParent.CacheWrap).Has =
      [true, false, true]) := by
  decide

/-! ## Merged iteration -/

/-- The merged iterator with an exhausted change-set. -/
theorem mergeBy_nil {K V : Type} [DecidableEq K] (r : K → K → Prop) [DecidableRel r]
    (ps : List (K × V)) : mergeBy r ([] : List (K × Option V)) ps = ps := rfl

/-- The merged iterator with an exhausted parent. -/
theorem mergeBy_cons_nil {K V : Type} [DecidableEq K] (r : K → K → Prop) [DecidableRel r]
    (e : K × Option V) (ls : List (K × Option V)) :
    mergeBy r (e :: ls) ([] : List (K × V)) = emit e ++ mergeBy r ls [] := rfl

/-- One step of the merged iterator with both cursors on an entry. -/
theorem mergeBy_cons_cons {K V : Type} [DecidableEq K] (r : K → K → Prop) [DecidableRel r]
    (e : K × Option V) (ls : List (K × Option V)) (p : K × V) (ps : List (K × V)) :
    mergeBy r (e :: ls) (p :: ps) =
      if r e.1 p.1 then emit e ++ mergeBy r ls (p :: ps)
      else if e.1 = p.1 then emit e ++ mergeBy r ls ps
      else p :: mergeBy r (e :: ls) ps := rfl

/-- What an entry of the change-set contributes to the stream. -/
theorem mem_emit_append {K V : Type} (e : K × Option V) (l : List (K × V)) (k : K) (v : V) :
    (k, v) ∈ emit e ++ l ↔ (k, some v) = e ∨ (k, v) ∈ l := by
  obtain ⟨k1, o⟩ := e
  cases o with
  | none => simp [emit]
  | some v1 =>
    simp only [emit, List.singleton_append, List.mem_cons, Prod.mk.injEq, Option.some.injEq]

/-- The entries of a merged stream: the pending `Set`s of the change-set, and the entries
of the parent stream whose key has no pending `Op`. -/
theorem mem_mergeBy {K V : Type} [DecidableEq K] (r : K → K → Prop) [DecidableRel r]
    (hirr : ∀ a, ¬ r a a) (htrans : ∀ a b c, r a b → r b c → r a c)
    (htri : ∀ a b, ¬ r a b → a ≠ b → r b a) :
    ∀ (ls : List (K × Option V)) (ps : List (K × V)),
      ls.Pairwise (fun a b => r a.1 b.1) → ps.Pairwise (fun a b => r a.1 b.1) →
      ∀ k v, (k, v) ∈ mergeBy r ls ps ↔
        ((k, some v) ∈ ls ∨ ((k, v) ∈ ps ∧ ∀ o, (k, o) ∉ ls)) := by
  intro ls
  induction ls with
  | nil =>
    intro ps _ _ k v
    simp [mergeBy_nil]
  | cons e ls ihl =>
    intro ps
    induction ps with
    | nil =>
      intro hl hp k v
      rw [mergeBy_cons_nil, mem_emit_append, ihl [] (List.pairwise_cons.mp hl).2 hp k v]
      simp only [List.mem_cons, List.not_mem_nil, false_and, or_false]
    | cons p ps ihp =>
      intro hl hp k v
      have hl1 := (List.pairwise_cons.mp hl).1
      have hl2 := (List.pairwise_cons.mp hl).2
      have hp1 := (List.pairwise_cons.mp hp).1
      have hp2 := (List.pairwise_cons.mp hp).2
      rw [mergeBy_cons_cons]
      by_cases h1 : r e.1 p.1
      · rw [if_pos h1, mem_emit_append, ihl (p :: ps) hl2 hp k v]
        have hne : (k, v) ∈ p :: ps → k ≠ e.1 := by
          intro hm hk
          rcases List.mem_cons.mp hm with h | h
          · rw [← h, hk] at h1
            exact hirr _ h1
          · have := htrans _ _ _ h1 (hp1 _ h)
            rw [hk] at this
            exact hirr _ this
        constructor
        · rintro (h | h | ⟨h, hn⟩)
          · exact Or.inl (List.mem_cons.mpr (Or.inl h))
          · exact Or.inl (List.mem_cons_of_mem _ h)
          · refine Or.inr ⟨h, fun o ho => ?_⟩
            rcases List.mem_cons.mp ho with h2 | h2
            · exact hne h (by rw [← h2])
            · exact hn o h2
        · rintro (h | ⟨h, hn⟩)
          · rcases List.mem_cons.mp h with h2 | h2
            · exact Or.inl h2
            · exact Or.inr (Or.inl h2)
          · exact Or.inr (Or.inr ⟨h, fun o ho => hn o (List.mem_cons_of_mem _ ho)⟩)
      · rw [if_neg h1]
        by_cases h2 : e.1 = p.1
        · rw [if_pos h2, mem_emit_append, ihl ps hl2 hp2 k v]
          have hne : (k, v) ∈ ps → k ≠ e.1 := by
            intro hm hk
            have := hp1 _ hm
            rw [← h2, hk] at this
            exact hirr _ this
          constructor
          · rintro (h | h | ⟨h, hn⟩)
            · exact Or.inl (List.mem_cons.mpr (Or.inl h))
            · exact Or.inl (List.mem_cons_of_mem _ h)
            · refine Or.inr ⟨List.mem_cons_of_mem _ h, fun o ho => ?_⟩
              rcases List.mem_cons.mp ho with h3 | h3
              · exact hne h (by rw [← h3])
              · exact hn o h3
          · rintro (h | ⟨h, hn⟩)
            · rcases List.mem_cons.mp h with h3 | h3
              · exact Or.inl h3
              · exact Or.inr (Or.inl h3)
            · rcases List.mem_cons.mp h with h3 | h3
              · exfalso
                refine hn e.2 (List.mem_cons.mpr (Or.inl ?_))
                rw [← h3] at h2
                exact Prod.ext h2.symm rfl
              · exact Or.inr (Or.inr ⟨h3, fun o ho => hn o (List.mem_cons_of_mem _ ho)⟩)
        · rw [if_neg h2, List.mem_cons, ihp hl hp2 k v]
          have h3 : r p.1 e.1 := htri _ _ h1 h2
          have hfree : ∀ o, (p.1, o) ∉ e :: ls := by
            intro o ho
            rcases List.mem_cons.mp ho with h4 | h4
            · exact h2 (by rw [← h4])
            · have := htrans _ _ _ h3 (hl1 _ h4)
              exact hirr _ this
          constructor
          · rintro (h | h | ⟨h, hn⟩)
            · refine Or.inr ⟨List.mem_cons.mpr (Or.inl h), fun o ho => ?_⟩
              have hk : k = p.1 := by rw [← h]
              rw [hk] at ho
              exact hfree o ho
            · exact Or.inl h
            · exact Or.inr ⟨List.mem_cons_of_mem _ h, hn⟩
          · rintro (h | ⟨h, hn⟩)
            · exact Or.inr (Or.inl h)
            · rcases List.mem_cons.mp h with h4 | h4
              · exact Or.inl h4
              · exact Or.inr (Or.inr ⟨h4, hn⟩)

/-- A merged stream is in the order of the iteration, no key twice. -/
theorem pairwise_mergeBy {K V : Type} [DecidableEq K] (r : K → K → Prop) [DecidableRel r]
    (hirr : ∀ a, ¬ r a a) (htrans : ∀ a b c, r a b → r b c → r a c)
    (htri : ∀ a b, ¬ r a b → a ≠ b → r b a) :
    ∀ (ls : List (K × Option V)) (ps : List (K × V)),
      ls.Pairwise (fun a b => r a.1 b.1) → ps.Pairwise (fun a b => r a.1 b.1) →
      (mergeBy r ls ps).Pairwise (fun a b => r a.1 b.1) := by
  have hemit : ∀ (e : K × Option V) (l : List (K × V)),
      l.Pairwise (fun a b => r a.1 b.1) → (∀ x ∈ l, r e.1 x.1) →
      (emit e ++ l).Pairwise (fun a b => r a.1 b.1) := by
    intro e l hl hx
    obtain ⟨k1, o⟩ := e
    cases o with
    | none => simpa [emit] using hl
    | some v1 =>
      simp only [emit, List.singleton_append]
      exact List.pairwise_cons.mpr ⟨hx, hl⟩
  intro ls
  induction ls with
  | nil =>
    intro ps _ hp
    exact hp
  | cons e ls ihl =>
    intro ps
    induction ps with
    | nil =>
      intro hl hp
      have hl1 := (List.pairwise_cons.mp hl).1
      have hl2 := (List.pairwise_cons.mp hl).2
      rw [mergeBy_cons_nil]
      refine hemit e _ (ihl [] hl2 hp) ?_
      rintro ⟨k, v⟩ hx
      rcases (mem_mergeBy r hirr htrans htri ls [] hl2 hp k v).mp hx with h | ⟨h, _⟩
      · exact hl1 _ h
      · simp at h
    | cons p ps ihp =>
      intro hl hp
      have hl1 := (List.pairwise_cons.mp hl).1
      have hl2 := (List.pairwise_cons.mp hl).2
      have hp1 := (List.pairwise_cons.mp hp).1
      have hp2 := (List.pairwise_cons.mp hp).2
      rw [mergeBy_cons_cons]
      by_cases h1 : r e.1 p.1
      · rw [if_pos h1]
        refine hemit e _ (ihl (p :: ps) hl2 hp) ?_
        rintro ⟨k, v⟩ hx
        rcases (mem_mergeBy r hirr htrans htri ls (p :: ps) hl2 hp k v).mp hx with h | ⟨h, _⟩
        · exact hl1 _ h
        · rcases List.mem_cons.mp h with h2 | h2
          · rw [h2]
            exact h1
          · exact htrans _ _ _ h1 (hp1 _ h2)
      · rw [if_neg h1]
        by_cases h2 : e.1 = p.1
        · rw [if_pos h2]
          refine hemit e _ (ihl ps hl2 hp2) ?_
          rintro ⟨k, v⟩ hx
          rcases (mem_mergeBy r hirr htrans htri ls ps hl2 hp2 k v).mp hx with h | ⟨h, _⟩
          · exact hl1 _ h
          · rw [h2]
            exact hp1 _ h
        · rw [if_neg h2]
          have h3 : r p.1 e.1 := htri _ _ h1 h2
          refine List.pairwise_cons.mpr ⟨?_, ihp hl hp2⟩
          rintro ⟨k, v⟩ hx
          rcases (mem_mergeBy r hirr htrans htri (e :: ls) ps hl hp2 k v).mp hx with
            h | ⟨h, _⟩
          · rcases List.mem_cons.mp h with h4 | h4
            · rw [← h4] at h3
              exact h3
            · exact htrans _ _ _ h3 (hl1 _ h4)
          · exact hp1 _ h

/-- Two sequences in the same strict order with the same entries are equal. -/
theorem pairwise_ext {α : Type} (r : α → α → Prop) (hasym : ∀ a b, r a b → r b a → False)
    (l1 l2 : List α) (h1 : l1.Pairwise r) (h2 : l2.Pairwise r)
    (hmem : ∀ a, a ∈ l1 ↔ a ∈ l2) : l1 = l2 := by
  have hne : ∀ a b, r a b → a ≠ b := by
    intro a b hab heq
    subst heq
    exact hasym a a hab hab
  have n1 : l1.Nodup := h1.imp (fun {a b} h => hne a b h)
  have n2 : l2.Nodup := h2.imp (fun {a b} h => hne a b h)
  have hperm : l1.Perm l2 := (List.perm_ext_iff_of_nodup n1 n2).mpr hmem
  haveI : IsAntisymm α r := ⟨fun a b hab hba => (hasym a b hab hba).elim⟩
  exact List.eq_of_perm_of_sorted hperm h1 h2

/-- An entry is in a table in key order exactly when `find` gives it. -/
theorem mem_iff_find {K α : Type} [LinearOrder K] (l : List (K × α)) (h : SortedKeys l)
    (k : K) (x : α) : (k, x) ∈ l ↔ find k l = some x := by
  constructor
  · intro hm
    exact find_of_mem l h (k, x) hm
  · intro hf
    clear h
    induction l with
    | nil => simp [find] at hf
    | cons e l ih =>
      obtain ⟨k1, x1⟩ := e
      unfold find at hf
      by_cases hk : k = k1
      · rw [if_pos hk] at hf
        rw [hk, ← Option.some.inj hf]
        exact List.mem_cons_self _ _
      · rw [if_neg hk] at hf
        exact List.mem_cons_of_mem _ (ih hf)

/-- The flattened map of an ordered store is in key order. -/
theorem sorted_flatten {K V : Type} [LinearOrder K] (s : KVStore K V) (h : s.Ordered) :
    SortedKeys s.flatten := by
  induction s with
  | base data => exact h
  | layer changes parent ih =>
    exact sorted_foldl (fun op t => op.onBase t) sorted_onBase _ _ (ih h.2)

/-- The flattened map of an ordered store holds what `Get` answers. -/
theorem find_flatten {K V : Type} [LinearOrder K] (s : KVStore K V) (h : s.Ordered) (k : K) :
    find k s.flatten = s.Get k := by
  induction s with
  | base data => rfl
  | layer changes parent ih =>
    have := find_pending (fun op t => op.onBase t) (fun x => x) find_onBase changes
      parent.flatten h.1 k
    simp only [KVStore.flatten, KVStore.Get]
    rw [this, ih h.2]
    cases hf : find k changes with
    | none => rfl
    | some o => cases o <;> rfl

/-- The ascending stream of an ordered store is in strictly ascending key order and
holds exactly what `Get` answers for the keys of the range. -/
theorem Iterator_spec {K V : Type} [LinearOrder K] (s : KVStore K V) (h : s.Ordered)
    (start stop : Option K) :
    SortedKeys (s.Iterator start stop) ∧
      ∀ k v, (k, v) ∈ s.Iterator start stop ↔
        (s.Get k = some v ∧ inRange start stop k = true) := by
  induction s with
  | base data =>
    refine ⟨List.Pairwise.filter _ h, fun k v => ?_⟩
    simp only [KVStore.Iterator, KVStore.Get, List.mem_filter]
    rw [mem_iff_find data h]
  | layer changes parent ih =>
    obtain ⟨hs, hm⟩ := ih h.2
    have hcf : (changes.filter (fun e => inRange start stop e.1)).Pairwise
        (fun a b => a.1 < b.1) := List.Pairwise.filter _ h.1
    have hirr : ∀ a : K, ¬ a < a := fun a => lt_irrefl a
    have htrans : ∀ a b c : K, a < b → b < c → a < c := fun a b c => lt_trans
    have htri : ∀ a b : K, ¬ a < b → a ≠ b → b < a :=
      fun a b h1 h2 => lt_of_le_of_ne (not_lt.mp h1) (Ne.symm h2)
    refine ⟨pairwise_mergeBy _ hirr htrans htri _ _ hcf hs, fun k v => ?_⟩
    simp only [KVStore.Iterator]
    rw [mem_mergeBy _ hirr htrans htri _ _ hcf hs k v]
    simp only [List.mem_filter, hm, mem_iff_find changes h.1, KVStore.Get]
    cases hf : find k changes with
    | none => simp
    | some o =>
      cases o with
      | none =>
        simp only [Option.some.injEq, false_and, not_and, Bool.not_eq_true, false_or,
          and_false, iff_false, not_and, reduceCtorEq]
        rintro ⟨_, hr⟩ hall
        have := hall none rfl
        rw [hr] at this
        exact Bool.noConfusion this
      | some v1 =>
        simp only [Option.some.injEq]
        constructor
        · rintro (⟨h1, h2⟩ | ⟨⟨_, h2⟩, h3⟩)
          · exact ⟨h1, h2⟩
          · exact absurd ⟨rfl, h2⟩ (h3 (some v1))
        · rintro ⟨h1, h2⟩
          exact Or.inl ⟨h1, h2⟩

/-- The descending stream of an ordered store is its ascending stream reversed. -/
theorem ReverseIterator_eq {K V : Type} [LinearOrder K] (s : KVStore K V) (h : s.Ordered)
    (start stop : Option K) :
    s.ReverseIterator start stop = (s.Iterator start stop).reverse := by
  induction s with
  | base data => rfl
  | layer changes parent ih =>
    obtain ⟨hs, _⟩ := Iterator_spec parent h.2 start stop
    have hcf : (changes.filter (fun e => inRange start stop e.1)).Pairwise
        (fun a b => a.1 < b.1) := List.Pairwise.filter _ h.1
    have hirr : ∀ a : K, ¬ a < a := fun a => lt_irrefl a
    have htrans : ∀ a b c : K, a < b → b < c → a < c := fun a b c => lt_trans
    have htri : ∀ a b : K, ¬ a < b → a ≠ b → b < a :=
      fun a b h1 h2 => lt_of_le_of_ne (not_lt.mp h1) (Ne.symm h2)
    have hirr2 : ∀ a : K, ¬ (fun a b : K => b < a) a a := fun a => lt_irrefl a
    have htrans2 : ∀ a b c : K, (fun a b : K => b < a) a b → (fun a b : K => b < a) b c →
        (fun a b : K => b < a) a c := fun a b c h1 h2 => lt_trans h2 h1
    have htri2 : ∀ a b : K, ¬ (fun a b : K => b < a) a b → a ≠ b →
        (fun a b : K => b < a) b a :=
      fun a b h1 h2 => lt_of_le_of_ne (not_lt.mp h1) h2
    have hcr : (changes.filter (fun e => inRange start stop e.1)).reverse.Pairwise
        (fun a b => (fun a b : K => b < a) a.1 b.1) := List.pairwise_reverse.mpr hcf
    have hpr : (parent.Iterator start stop).reverse.Pairwise
        (fun a b => (fun a b : K => b < a) a.1 b.1) := List.pairwise_reverse.mpr hs
    simp only [KVStore.ReverseIterator, KVStore.Iterator]
    rw [ih h.2]
    apply pairwise_ext (fun a b : K × V => b.1 < a.1)
      (fun a b h1 h2 => lt_irrefl _ (lt_trans h1 h2))
    · exact pairwise_mergeBy (fun a b : K => b < a) hirr2 htrans2 htri2 _ _ hcr hpr
    · exact List.pairwise_reverse.mpr (pairwise_mergeBy _ hirr htrans htri _ _ hcf hs)
    · rintro ⟨k, v⟩
      rw [List.mem_reverse, mem_mergeBy (fun a b : K => b < a) hirr2 htrans2 htri2 _ _ hcr hpr k v,
        mem_mergeBy _ hirr htrans htri _ _ hcf hs k v]
      simp only [List.mem_reverse]

/-- The ascending stream of an ordered store is the reference: the entries of the
flattened map with a key in the range. -/
theorem Iterator_eq_flatten {K V : Type} [LinearOrder K] (s : KVStore K V) (h : s.Ordered)
    (start stop : Option K) : s.Iterator start stop = s.reference start stop := by
  obtain ⟨hs, hm⟩ := Iterator_spec s h start stop
  have hf := sorted_flatten s h
  apply pairwise_ext (fun a b : K × V => a.1 < b.1)
    (fun a b h1 h2 => lt_irrefl _ (lt_trans h1 h2))
  · exact hs
  · exact List.Pairwise.filter _ hf
  · rintro ⟨k, v⟩
    rw [hm k v]
    simp only [KVStore.reference, List.mem_filter]
    rw [mem_iff_find _ hf, find_flatten s h]

/-- C21: merged iteration equals the reference.  For every parent store (its tables in
key order), every sequence of `Set` and `Delete` `Op`s buffered in a child layer, and
every range `[start, end)` with `none` for an unbounded side: the `Iterator` of the child
yields exactly the entries of the flattened map with a key in the range, the flattened
map being the map of the parent with the `Op`s of the child applied to it; these are the
entries `(k, v)` with `Get k = v` on the child and `k` in the range; they come in
strictly ascending key order, so no key is repeated; and the `ReverseIterator` yields the
same entries in exactly the reverse order. -/
theorem Iterator_eq_reference {K V : Type} [LinearOrder K] (parent : KVStore K V)
    (hord : parent.Ordered) (ops : List (Op K V)) (start stop : Option K) :
    (applyOps ops parent.CacheWrap).Iterator start stop =
        (applyOps ops parent.CacheWrap).reference start stop ∧
      (applyOps ops parent.CacheWrap).flatten =
        ops.foldl (fun t op => op.onBase t) parent.flatten ∧
      SortedKeys ((applyOps ops parent.CacheWrap).Iterator start stop) ∧
      (∀ k v, (k, v) ∈ (applyOps ops parent.CacheWrap).Iterator start stop ↔
        ((applyOps ops parent.CacheWrap).Get k = some v ∧ inRange start stop k = true)) ∧
      (applyOps ops parent.CacheWrap).ReverseIterator start stop =
        ((applyOps ops parent.CacheWrap).Iterator start stop).reverse := by
  have hchild : applyOps ops parent.CacheWrap = KVStore.layer (recorded ops) parent :=
    applyOps_layer ops parent []
  have hco : (KVStore.layer (recorded ops) parent).Ordered := ⟨sorted_recorded ops, hord⟩
  rw [hchild]
  obtain ⟨hs, hm⟩ := Iterator_spec _ hco start stop
  exact ⟨Iterator_eq_flatten _ hco start stop,
    pending_eq_sequence (fun op t => op.onBase t) (fun x => x) find_onBase sorted_onBase
      parent.flatten (sorted_flatten parent hord) ops,
    hs, hm, ReverseIterator_eq _ hco start stop⟩

/-- C21 on the second case of `TestConflictBTreeCacheIterator`, the `child` `Op`s buffered
in the child layer: the parent holds `a, c, d`, the child deletes `a, b, d`, and both
the stream of the child and the reference hold `c` alone. -/
theorem Iterator_eq_reference_witness :
    (applyOps iterPre2 (MemStore : KVStore Nat Nat)).Ordered ∧
      (applyOps iterChild2 (applyOps iterPre2 MemStore).CacheWrap).Iterator none none =
        (applyOps iterChild2 (applyOps iterPre2 MemStore).CacheWrap).reference none none ∧
      (applyOps iterChild2 (applyOps iterPre2 MemStore).CacheWrap).reference none none =
        [(3, 30)] :=
  have hord : (applyOps iterPre2 (MemStore : KVStore Nat Nat)).Ordered := by
    show SortedKeys [(1, 10), (3, 30), (4, 40)]
    unfold SortedKeys
    decide
  ⟨hord, (Iterator_eq_reference (applyOps iterPre2 MemStore) hord iterChild2 none none).1,
    by decide⟩

/-- The queries of `TestConflictBTreeCacheIterator`, with the `child` `Op`s buffered in the
child layer: the first case yields `a2, b2, c, d`, its sub-range from the key of `b` to
the key of `d` yields `b2, c`, and its reverse yields `d, c, b2, a2`; the second case
yields `c` alone and nothing below the key of `c`. -/
theorem iterator_test_queries :
    (applyOps iterChild1 (applyOps iterPre1 MemStore).CacheWrap).Iterator none none =
        [(1, 11), (2, 21), (3, 30), (4, 40)] ∧
      (applyOps iterChild1 (applyOps iterPre1 MemStore).CacheWrap).Iterator (some 2) (some 4) =
        [(2, 21), (3, 30)] ∧
      (applyOps iterChild1 (applyOps iterPre1 MemStore).CacheWrap).ReverseIterator none none =
        [(4, 40), (3, 30), (2, 21), (1, 11)] ∧
      (applyOps iterChild2 (applyOps iterPre2 MemStore).CacheWrap).Iterator none none =
        [(3, 30)] ∧
      (applyOps iterChild2 (applyOps iterPre2 MemStore).CacheWrap).Iterator none (some 3) =
        [] := by
  decide

/-- The queries of `TestConflictBTreeCacheIterator` the way `iterCase.verify` runs them:
it applies the `child` `Op`s to the base store as well, under a child layer without
pending `Op`s.  The streams are the same. -/
theorem iterator_test_queries_verify :
    (applyOps iterChild1 (applyOps iterPre1 MemStore)).CacheWrap.Iterator none none =
        [(1, 11), (2, 21), (3, 30), (4, 40)] ∧
      (applyOps iterChild1 (applyOps iterPre1 MemStore)).CacheWrap.Iterator (some 2) (some 4) =
        [(2, 21), (3, 30)] ∧
      (applyOps iterChild1 (applyOps iterPre1 MemStore)).CacheWrap.ReverseIterator none none =
        [(4, 40), (3, 30), (2, 21), (1, 11)] ∧
      (applyOps iterChild2 (applyOps iterPre2 MemStore)).CacheWrap.Iterator none none =
        [(3, 30)] ∧
      (applyOps iterChild2 (applyOps iterPre2 MemStore)).CacheWrap.Iterator none (some 3) =
        [] := by
  decide

end store

namespace gov

open weave

/-! ## Tallying a proposal -/

/-- The three exits of `Tally`. -/
theorem Tally_cases (m : TextProposal) :
    (m.Result ≠ TextProposal_Result.Undefined ∧ (m.Tally).1 = m ∧
      ∃ e, (m.Tally).2 = some e ∧ e.kind = ErrKind.ErrInvalidState) ∨
    (m.Result = TextProposal_Result.Undefined ∧ m.Status ≠ TextProposal_Status.Submitted ∧
      (m.Tally).1 = m ∧ ∃ e, (m.Tally).2 = some e ∧ e.kind = ErrKind.ErrInvalidState) ∨
    (m.Result = TextProposal_Result.Undefined ∧ m.Status = TextProposal_Status.Submitted ∧
      m.Tally = ({ m with
        Result := if m.VoteState.Accepted = true then TextProposal_Result.Accepted
          else TextProposal_Result.Rejected,
        Status := TextProposal_Status.Closed }, none)) := by
  unfold TextProposal.Tally
  by_cases hr : m.Result ≠ TextProposal_Result.Undefined
  · left
    rw [if_pos hr]
    exact ⟨hr, rfl, _, rfl, rfl⟩
  · right
    have hr2 : m.Result = TextProposal_Result.Undefined := by
      by_contra h
      exact hr h
    by_cases hs : m.Status ≠ TextProposal_Status.Submitted
    · left
      rw [if_neg hr, if_pos hs]
      exact ⟨hr2, hs, rfl, _, rfl, rfl⟩
    · right
      have hs2 : m.Status = TextProposal_Status.Submitted := by
        by_contra h
        exact hs h
      rw [if_neg hr, if_neg hs]
      refine ⟨hr2, hs2, ?_⟩
      by_cases ha : m.VoteState.Accepted = true
      · simp [ha]
      · simp [ha]

/-- C26: a proposal cannot be tallied twice.  `Tally` fails with an `ErrInvalidState`
error and leaves the proposal as it was whenever `Result` is not `Undefined` or `Status`
is not `Submitted`.  After a `Tally` that returns nil the `Status` is `Closed` and the
`Result` is `Accepted` or `Rejected`, so a further `Tally`, and any number of them, fails
with `ErrInvalidState` and leaves the proposal, its `Result` included, as it was. -/
theorem Tally_once (m : TextProposal) :
    ((m.Result ≠ TextProposal_Result.Undefined ∨ m.Status ≠ TextProposal_Status.Submitted) →
        (m.Tally).1 = m ∧ ErrKind.ErrInvalidState.Is (m.Tally).2 = true) ∧
      ((m.Tally).2 = none →
        (m.Tally).1.Status = TextProposal_Status.Closed ∧
        ((m.Tally).1.Result = TextProposal_Result.Accepted ∨
          (m.Tally).1.Result = TextProposal_Result.Rejected) ∧
        ∀ n, ErrKind.ErrInvalidState.Is
            ((Nat.iterate (fun p => (TextProposal.Tally p).1) n (m.Tally).1).Tally).2 = true ∧
          Nat.iterate (fun p => (TextProposal.Tally p).1) (n + 1) (m.Tally).1 = (m.Tally).1) := by
  have hfail : ∀ p : TextProposal,
      (p.Result ≠ TextProposal_Result.Undefined ∨ p.Status ≠ TextProposal_Status.Submitted) →
      (p.Tally).1 = p ∧ ErrKind.ErrInvalidState.Is (p.Tally).2 = true := by
    intro p hp
    rcases Tally_cases p with h | h | h
    · obtain ⟨_, h1, e, he, hk⟩ := h
      exact ⟨h1, by rw [he]; simp [ErrKind.Is, hk]⟩
    · obtain ⟨_, _, h1, e, he, hk⟩ := h
      exact ⟨h1, by rw [he]; simp [ErrKind.Is, hk]⟩
    · rcases hp with hp | hp
      · exact absurd h.1 hp
      · exact absurd h.2.1 hp
  refine ⟨hfail m, ?_⟩
  intro hnil
  rcases Tally_cases m with h | h | h
  · obtain ⟨_, _, e, he, _⟩ := h
    rw [he] at hnil
    exact absurd hnil (by simp)
  · obtain ⟨_, _, _, e, he, _⟩ := h
    rw [he] at hnil
    exact absurd hnil (by simp)
  · obtain ⟨_, _, heq⟩ := h
    have hclosed : (m.Tally).1.Status = TextProposal_Status.Closed := by rw [heq]
    have hres : (m.Tally).1.Result = TextProposal_Result.Accepted ∨
        (m.Tally).1.Result = TextProposal_Result.Rejected := by
      rw [heq]
      by_cases ha : m.VoteState.Accepted = true
      · left; simp [ha]
      · right; simp [ha]
    have hstatus : (m.Tally).1.Status ≠ TextProposal_Status.Submitted := by
      rw [hclosed]
      decide
    have hiter : ∀ n, Nat.iterate (fun p => (TextProposal.Tally p).1) n (m.Tally).1 =
        (m.Tally).1 := by
      intro n
      induction n with
      | zero => rfl
      | succ n ih =>
        rw [Function.iterate_succ_apply', ih]
        exact (hfail _ (Or.inr hstatus)).1
    refine ⟨hclosed, hres, ?_⟩
    intro n
    refine ⟨?_, hiter (n + 1)⟩
    rw [hiter n]
    exact (hfail _ (Or.inr hstatus)).2

/-- C26 on the sample proposal: its `Tally` returns nil and closes it, and a second
`Tally` fails with `ErrInvalidState`. -/
theorem Tally_once_witness :
    (sampleProposal.Tally).2 = none ∧
      (sampleProposal.Tally).1.Status = TextProposal_Status.Closed ∧
      ErrKind.ErrInvalidState.Is ((sampleProposal.Tally).1.Tally).2 = true :=
  ⟨by decide, ((Tally_once sampleProposal).2 (by decide)).1,
    (((Tally_once sampleProposal).2 (by decide)).2.2 0).1⟩

/-- C30: `Tally` sets the final outcome from the threshold rule.  For every proposal
with `Result = Undefined` and `Status = Submitted`, `Tally` returns nil and leaves the
proposal with `Status = Closed`, with `Result = Accepted` when `VoteState.Accepted()` is
true and `Rejected` otherwise, and with every other field, the vote counters included,
as it was. -/
theorem Tally_outcome (m : TextProposal) (hr : m.Result = TextProposal_Result.Undefined)
    (hs : m.Status = TextProposal_Status.Submitted) :
    m.Tally = ({ m with
        Result := if m.VoteState.Accepted = true then TextProposal_Result.Accepted
          else TextProposal_Result.Rejected,
        Status := TextProposal_Status.Closed }, none) ∧
      (m.Tally).1.VoteState = m.VoteState := by
  rcases Tally_cases m with h | h | h
  · exact absurd hr h.1
  · exact absurd hs h.2.1
  · refine ⟨h.2.2, ?_⟩
    rw [h.2.2]

/-- C30 on a proposal with 10 yes votes out of a weight of 20 and a threshold of one
half: `10 * 2 > 20 * 1` does not hold, the proposal is rejected. -/
theorem Tally_outcome_witness :
    sampleProposal.Tally = ({ sampleProposal with
        Result := if sampleProposal.VoteState.Accepted = true then TextProposal_Result.Accepted
          else TextProposal_Result.Rejected,
        Status := TextProposal_Status.Closed }, none) ∧
      (sampleProposal.Tally).1.VoteState = sampleProposal.VoteState :=
  Tally_outcome sampleProposal rfl rfl

/-! ## The threshold rule -/

/-- The sizes of the machine integers as numerals. -/
theorem uint_sizes : uint32Size = 4294967296 ∧ uint64Size = 18446744073709551616 := by
  constructor <;> rfl

/-- C27 (amended): for every `TallyResult` (with `uint32` yes counter and denominator)
`Accepted` returns true exactly when `yes * denominator` exceeds
`TotalWeightElectorate * numerator` taken modulo `2 ^ 64`; when that product is below
`2 ^ 64` this is the strict comparison `yes * denominator > numerator *
total_electors_weight` of the exact integer products, so that a yes weight exactly at the
threshold fraction of the electorate is not accepted. -/
theorem Accepted_exact (m : TallyResult) (hyes : m.TotalYes < uint32Size)
    (hden : m.Threshold.Denominator < uint32Size) :
    (m.Accepted = true ↔ m.TotalYes * m.Threshold.Denominator >
        (m.TotalWeightElectorate * m.Threshold.Numerator) % uint64Size) ∧
      (m.TotalWeightElectorate * m.Threshold.Numerator < uint64Size →
        (m.Accepted = true ↔ m.TotalYes * m.Threshold.Denominator >
          m.Threshold.Numerator * m.TotalWeightElectorate)) := by
  have hprod : m.TotalYes * m.Threshold.Denominator < uint64Size := by
    have h := Nat.mul_lt_mul'' hyes hden
    have hsize : uint32Size * uint32Size = uint64Size := by decide
    rw [hsize] at h
    exact h
  have hgen : m.Accepted = true ↔ m.TotalYes * m.Threshold.Denominator >
      (m.TotalWeightElectorate * m.Threshold.Numerator) % uint64Size := by
    unfold TallyResult.Accepted
    rw [Nat.mod_eq_of_lt hprod]
    exact decide_eq_true_iff
  refine ⟨hgen, ?_⟩
  intro hsmall
  rw [hgen, Nat.mod_eq_of_lt hsmall, Nat.mul_comm m.TotalWeightElectorate]

/-- C27 (amended) on the sample proposal and at the threshold: with a threshold of one
half and a weight of 20, 10 yes votes are not accepted and 11 are. -/
theorem Accepted_exact_witness :
    ((sampleProposal.VoteState.Accepted = true ↔ 10 * 2 > (20 * 1) % uint64Size) ∧
      (20 * 1 < uint64Size → (sampleProposal.VoteState.Accepted = true ↔ 10 * 2 > 1 * 20))) ∧
    sampleProposal.VoteState.Accepted = false ∧
    (TallyResult.mk 11 3 1 20 ⟨1, 2⟩).Accepted = true :=
  ⟨Accepted_exact sampleProposal.VoteState (by decide) (by decide), by decide, by decide⟩

/-- C27 as stated fails when the product on the right does not fit 64 bits: with one
yes vote, a threshold of 2/1 and a total weight of `2 ^ 63`, the exact comparison
`1 * 1 > 2 * 2 ^ 63` is false, yet `Accepted` returns true, because the `uint64` product
wraps around to 0. -/
theorem Accepted_exact_counterexample :
    (TallyResult.mk 1 0 0 (2 ^ 63) ⟨2, 1⟩).Accepted = true ∧
      ¬ ((TallyResult.mk 1 0 0 (2 ^ 63) ⟨2, 1⟩).TotalYes *
          (TallyResult.mk 1 0 0 (2 ^ 63) ⟨2, 1⟩).Threshold.Denominator >
        (TallyResult.mk 1 0 0 (2 ^ 63) ⟨2, 1⟩).Threshold.Numerator *
          (TallyResult.mk 1 0 0 (2 ^ 63) ⟨2, 1⟩).TotalWeightElectorate) := by
  constructor <;> decide

/-! ## Counting votes -/

/-- The counter a vote option selects, if it is one of yes, no and abstain. -/
theorem VoteOption_cases (o : VoteOption) :
    o = VoteOption.Yes ∨ o = VoteOption.No ∨ o = VoteOption.Abstain ∨
      (o ≠ VoteOption.Yes ∧ o ≠ VoteOption.No ∧ o ≠ VoteOption.Abstain) := by
  cases o <;> simp

/-- The sum of three `uint32` counters fits 64 bits. -/
theorem TotalVotes_eq (r : TallyResult) (hy : r.TotalYes < uint32Size)
    (hn : r.TotalNo < uint32Size) (ha : r.TotalAbstain < uint32Size) :
    r.TotalVotes = r.TotalYes + r.TotalNo + r.TotalAbstain := by
  obtain ⟨h32, h64⟩ := uint_sizes
  rw [h32] at hy hn ha
  simp only [TallyResult.TotalVotes, h64]
  omega

/-- The outcome of `CountVote` for a yes vote. -/
theorem CountVote_yes (m : TextProposal) (vote : Vote) (ho : vote.Voted = VoteOption.Yes) :
    m.CountVote vote =
      ({ m with VoteState := { m.VoteState with
          TotalYes := (m.VoteState.TotalYes + vote.Elector.Weight) % uint32Size } },
        if (({ m.VoteState with TotalYes :=
              (m.VoteState.TotalYes + vote.Elector.Weight) % uint32Size } : TallyResult).TotalVotes
            ≤ m.VoteState.TotalVotes)
          then some (errors.Wrap (errors.root ErrKind.ErrHuman) "sanity overflow check failed")
          else none) := by
  simp only [TextProposal.CountVote, ho, addUint32]
  split <;> rfl

/-- The outcome of `CountVote` for a no vote. -/
theorem CountVote_no (m : TextProposal) (vote : Vote) (ho : vote.Voted = VoteOption.No) :
    m.CountVote vote =
      ({ m with VoteState := { m.VoteState with
          TotalNo := (m.VoteState.TotalNo + vote.Elector.Weight) % uint32Size } },
        if (({ m.VoteState with TotalNo :=
              (m.VoteState.TotalNo + vote.Elector.Weight) % uint32Size } : TallyResult).TotalVotes
            ≤ m.VoteState.TotalVotes)
          then some (errors.Wrap (errors.root ErrKind.ErrHuman) "sanity overflow check failed")
          else none) := by
  simp only [TextProposal.CountVote, ho, addUint32]
  split <;> rfl

/-- The outcome of `CountVote` for an abstention. -/
theorem CountVote_abstain (m : TextProposal) (vote : Vote)
    (ho : vote.Voted = VoteOption.Abstain) :
    m.CountVote vote =
      ({ m with VoteState := { m.VoteState with
          TotalAbstain := (m.VoteState.TotalAbstain + vote.Elector.Weight) % uint32Size } },
        if (({ m.VoteState with TotalAbstain :=
              (m.VoteState.TotalAbstain + vote.Elector.Weight) % uint32Size } :
              TallyResult).TotalVotes ≤ m.VoteState.TotalVotes)
          then some (errors.Wrap (errors.root ErrKind.ErrHuman) "sanity overflow check failed")
          else none) := by
  simp only [TextProposal.CountVote, ho, addUint32]
  split <;> rfl

/-- The outcome of `CountVote` for any other vote option. -/
theorem CountVote_other (m : TextProposal) (vote : Vote) (hy : vote.Voted ≠ VoteOption.Yes)
    (hn : vote.Voted ≠ VoteOption.No) (ha : vote.Voted ≠ VoteOption.Abstain) :
    m.CountVote vote =
      (m, some (errors.Wrapf (errors.root ErrKind.ErrInvalidInput) "%q" [])) := by
  unfold TextProposal.CountVote
  cases hv : vote.Voted with
  | Yes => exact absurd hv hy
  | No => exact absurd hv hn
  | Abstain => exact absurd hv ha
  | Invalid => rfl
  | Other c => rfl

/-- A `uint32` counter that has grown by adding a `uint32` weight has not wrapped. -/
theorem add_no_wrap (a w rest : Nat) (ha : a < uint32Size) (hw : w < uint32Size)
    (h : ¬ ((a + w) % uint32Size + rest ≤ a + rest)) :
    (a + w) % uint32Size = a + w := by
  obtain ⟨h32, _⟩ := uint_sizes
  rw [h32] at ha hw h ⊢
  omega

/-- A yes vote counted without error: the counter has not wrapped and the weight is
positive. -/
theorem CountVote_yes_nil (m : TextProposal) (vote : Vote)
    (hy : m.VoteState.TotalYes < uint32Size) (hn : m.VoteState.TotalNo < uint32Size)
    (ha : m.VoteState.TotalAbstain < uint32Size) (hw : vote.Elector.Weight < uint32Size)
    (ho : vote.Voted = VoteOption.Yes) (hnil : (m.CountVote vote).2 = none) :
    (m.VoteState.TotalYes + vote.Elector.Weight) % uint32Size =
        m.VoteState.TotalYes + vote.Elector.Weight ∧ 0 < vote.Elector.Weight := by
  have hpos : 0 < uint32Size := by decide
  have hold := TotalVotes_eq m.VoteState hy hn ha
  rw [CountVote_yes m vote ho] at hnil
  simp only at hnil
  split at hnil
  · simp at hnil
  · rename_i hgt
    rw [TotalVotes_eq ({ m.VoteState with TotalYes := (m.VoteState.TotalYes + vote.Elector.Weight) % uint32Size } : TallyResult)
        (Nat.mod_lt _ hpos) hn ha, hold] at hgt
    simp only at hgt
    have h1 := add_no_wrap _ _ (m.VoteState.TotalNo + m.VoteState.TotalAbstain) hy hw
      (by omega)
    refine ⟨h1, ?_⟩
    rw [h1] at hgt
    omega

/-- A no vote counted without error: the counter has not wrapped and the weight is
positive. -/
theorem CountVote_no_nil (m : TextProposal) (vote : Vote)
    (hy : m.VoteState.TotalYes < uint32Size) (hn : m.VoteState.TotalNo < uint32Size)
    (ha : m.VoteState.TotalAbstain < uint32Size) (hw : vote.Elector.Weight < uint32Size)
    (ho : vote.Voted = VoteOption.No) (hnil : (m.CountVote vote).2 = none) :
    (m.VoteState.TotalNo + vote.Elector.Weight) % uint32Size =
        m.VoteState.TotalNo + vote.Elector.Weight ∧ 0 < vote.Elector.Weight := by
  have hpos : 0 < uint32Size := by decide
  have hold := TotalVotes_eq m.VoteState hy hn ha
  rw [CountVote_no m vote ho] at hnil
  simp only at hnil
  split at hnil
  · simp at hnil
  · rename_i hgt
    rw [TotalVotes_eq ({ m.VoteState with TotalNo := (m.VoteState.TotalNo + vote.Elector.Weight) % uint32Size } : TallyResult)
        hy (Nat.mod_lt _ hpos) ha, hold] at hgt
    simp only at hgt
    have h1 := add_no_wrap _ _ (m.VoteState.TotalYes + m.VoteState.TotalAbstain) hn hw
      (by omega)
    refine ⟨h1, ?_⟩
    rw [h1] at hgt
    omega

/-- An abstention counted without error: the counter has not wrapped and the weight is
positive. -/
theorem CountVote_abstain_nil (m : TextProposal) (vote : Vote)
    (hy : m.VoteState.TotalYes < uint32Size) (hn : m.VoteState.TotalNo < uint32Size)
    (ha : m.VoteState.TotalAbstain < uint32Size) (hw : vote.Elector.Weight < uint32Size)
    (ho : vote.Voted = VoteOption.Abstain) (hnil : (m.CountVote vote).2 = none) :
    (m.VoteState.TotalAbstain + vote.Elector.Weight) % uint32Size =
        m.VoteState.TotalAbstain + vote.Elector.Weight ∧ 0 < vote.Elector.Weight := by
  have hpos : 0 < uint32Size := by decide
  have hold := TotalVotes_eq m.VoteState hy hn ha
  rw [CountVote_abstain m vote ho] at hnil
  simp only at hnil
  split at hnil
  · simp at hnil
  · rename_i hgt
    rw [TotalVotes_eq ({ m.VoteState with TotalAbstain := (m.VoteState.TotalAbstain + vote.Elector.Weight) % uint32Size } : TallyResult)
        hy hn (Nat.mod_lt _ hpos), hold] at hgt
    simp only at hgt
    have h1 := add_no_wrap _ _ (m.VoteState.TotalYes + m.VoteState.TotalNo) ha hw
      (by omega)
    refine ⟨h1, ?_⟩
    rw [h1] at hgt
    omega

/-- C28: `CountVote` adds the elector weight of the vote (in `uint32` arithmetic) to
exactly the counter the vote option selects, yes to `TotalYes`, no to `TotalNo`, abstain
to `TotalAbstain`, and leaves the other two counters and every other field of the
proposal as they were.  When it returns nil the selected counter has grown by exactly
the weight, without wrap-around, and so has `TotalVotes`.  For any other vote option it
fails with an `ErrInvalidInput` error and leaves the proposal as it was.  Counters and
weight are `uint32` values. -/
theorem CountVote_spec (m : TextProposal) (vote : Vote)
    (hy : m.VoteState.TotalYes < uint32Size) (hn : m.VoteState.TotalNo < uint32Size)
    (ha : m.VoteState.TotalAbstain < uint32Size) (hw : vote.Elector.Weight < uint32Size) :
    (vote.Voted = VoteOption.Yes →
        (m.CountVote vote).1 = { m with VoteState := { m.VoteState with
          TotalYes := (m.VoteState.TotalYes + vote.Elector.Weight) % uint32Size } } ∧
        ((m.CountVote vote).2 = none → (m.CountVote vote).1.VoteState.TotalYes =
          m.VoteState.TotalYes + vote.Elector.Weight)) ∧
      (vote.Voted = VoteOption.No →
        (m.CountVote vote).1 = { m with VoteState := { m.VoteState with
          TotalNo := (m.VoteState.TotalNo + vote.Elector.Weight) % uint32Size } } ∧
        ((m.CountVote vote).2 = none → (m.CountVote vote).1.VoteState.TotalNo =
          m.VoteState.TotalNo + vote.Elector.Weight)) ∧
      (vote.Voted = VoteOption.Abstain →
        (m.CountVote vote).1 = { m with VoteState := { m.VoteState with
          TotalAbstain := (m.VoteState.TotalAbstain + vote.Elector.Weight) % uint32Size } } ∧
        ((m.CountVote vote).2 = none → (m.CountVote vote).1.VoteState.TotalAbstain =
          m.VoteState.TotalAbstain + vote.Elector.Weight)) ∧
      ((m.CountVote vote).2 = none → (m.CountVote vote).1.VoteState.TotalVotes =
        m.VoteState.TotalVotes + vote.Elector.Weight) ∧
      (vote.Voted ≠ VoteOption.Yes → vote.Voted ≠ VoteOption.No →
        vote.Voted ≠ VoteOption.Abstain →
        (m.CountVote vote).1 = m ∧ ErrKind.ErrInvalidInput.Is (m.CountVote vote).2 = true) := by
  have hpos : 0 < uint32Size := by decide
  have hold := TotalVotes_eq m.VoteState hy hn ha
  have hyes := fun ho hnil => (CountVote_yes_nil m vote hy hn ha hw ho hnil).1
  have hno := fun ho hnil => (CountVote_no_nil m vote hy hn ha hw ho hnil).1
  have habs := fun ho hnil => (CountVote_abstain_nil m vote hy hn ha hw ho hnil).1
  refine ⟨fun ho => ⟨?_, fun hnil => ?_⟩, fun ho => ⟨?_, fun hnil => ?_⟩,
    fun ho => ⟨?_, fun hnil => ?_⟩, fun hnil => ?_, fun h1 h2 h3 => ?_⟩
  · rw [CountVote_yes m vote ho]
  · have := hyes ho hnil
    rw [CountVote_yes m vote ho]
    exact this
  · rw [CountVote_no m vote ho]
  · have := hno ho hnil
    rw [CountVote_no m vote ho]
    exact this
  · rw [CountVote_abstain m vote ho]
  · have := habs ho hnil
    rw [CountVote_abstain m vote ho]
    exact this
  · rcases VoteOption_cases vote.Voted with ho | ho | ho | ho
    · have h1 := hyes ho hnil
      rw [CountVote_yes m vote ho]
      simp only
      rw [TotalVotes_eq ({ m.VoteState with TotalYes := (m.VoteState.TotalYes + vote.Elector.Weight) % uint32Size } : TallyResult)
        (Nat.mod_lt _ hpos) hn ha, hold]
      simp only
      omega
    · have h1 := hno ho hnil
      rw [CountVote_no m vote ho]
      simp only
      rw [TotalVotes_eq ({ m.VoteState with TotalNo := (m.VoteState.TotalNo + vote.Elector.Weight) % uint32Size } : TallyResult)
        hy (Nat.mod_lt _ hpos) ha, hold]
      simp only
      omega
    · have h1 := habs ho hnil
      rw [CountVote_abstain m vote ho]
      simp only
      rw [TotalVotes_eq ({ m.VoteState with TotalAbstain := (m.VoteState.TotalAbstain + vote.Elector.Weight) % uint32Size } : TallyResult)
        hy hn (Nat.mod_lt _ hpos), hold]
      simp only
      omega
    · rw [CountVote_other m vote ho.1 ho.2.1 ho.2.2] at hnil
      simp at hnil
  · rw [CountVote_other m vote h1 h2 h3]
    exact ⟨rfl, rfl⟩

/-- C28 on the sample proposal: a yes vote of weight 4 takes `TotalYes` from 10 to 14 and
`TotalVotes` from 14 to 18. -/
theorem CountVote_spec_witness :
    (sampleProposal.CountVote sampleVote).2 = none ∧
      (sampleProposal.CountVote sampleVote).1.VoteState.TotalVotes =
        sampleProposal.VoteState.TotalVotes + sampleVote.Elector.Weight ∧
      (sampleProposal.CountVote sampleVote).1 = { sampleProposal with VoteState :=
        { sampleProposal.VoteState with TotalYes := (10 + 4) % uint32Size } } :=
  ⟨by decide,
    (CountVote_spec sampleProposal sampleVote (by decide) (by decide) (by decide)
      (by decide)).2.2.2.1 (by decide),
    ((CountVote_spec sampleProposal sampleVote (by decide) (by decide) (by decide)
      (by decide)).1 rfl).1⟩

/-- Subtracting the weight from a counter that grew by it without wrapping gives the
counter back. -/
theorem subUint32_add (a w : Nat) (ha : a < uint32Size) (hw : w < uint32Size)
    (h : (a + w) % uint32Size = a + w) : subUint32 ((a + w) % uint32Size) w = a := by
  obtain ⟨h32, _⟩ := uint_sizes
  rw [h]
  unfold subUint32
  rw [h32] at ha hw h ⊢
  omega

/-- C29: `UndoCountVote` undoes `CountVote`.  For every proposal and vote (counters and
weight being `uint32` values), when `CountVote` returns nil, `UndoCountVote` of the same
vote on the resulting proposal returns nil as well and leaves the proposal, its
`VoteState` with the three counters included, exactly as it was before `CountVote`. -/
theorem UndoCountVote_undoes (m : TextProposal) (vote : Vote)
    (hy : m.VoteState.TotalYes < uint32Size) (hn : m.VoteState.TotalNo < uint32Size)
    (ha : m.VoteState.TotalAbstain < uint32Size) (hw : vote.Elector.Weight < uint32Size)
    (hnil : (m.CountVote vote).2 = none) :
    ((m.CountVote vote).1.UndoCountVote vote).2 = none ∧
      ((m.CountVote vote).1.UndoCountVote vote).1 = m ∧
      ((m.CountVote vote).1.UndoCountVote vote).1.VoteState = m.VoteState := by
  obtain ⟨h32, h64⟩ := uint_sizes
  suffices key : (m.CountVote vote).1.UndoCountVote vote = (m, none) by
    rw [key]
    exact ⟨rfl, rfl, rfl⟩
  rcases VoteOption_cases vote.Voted with ho | ho | ho | ho
  · obtain ⟨h1, hpos⟩ := CountVote_yes_nil m vote hy hn ha hw ho hnil
    have h2 := subUint32_add _ _ hy hw h1
    rw [CountVote_yes m vote ho]
    obtain ⟨t, d, e1, e2, s1, s2, s3, au, ⟨a, b, c, W, th⟩, st, re⟩ := m
    simp only [TextProposal.UndoCountVote, ho, TallyResult.TotalVotes] at h1 h2 hy hn ha ⊢
    rw [h2, h1]
    rw [h32] at hy hn ha hw
    rw [if_neg (by rw [h64]; omega)]
  · obtain ⟨h1, hpos⟩ := CountVote_no_nil m vote hy hn ha hw ho hnil
    have h2 := subUint32_add _ _ hn hw h1
    rw [CountVote_no m vote ho]
    obtain ⟨t, d, e1, e2, s1, s2, s3, au, ⟨a, b, c, W, th⟩, st, re⟩ := m
    simp only [TextProposal.UndoCountVote, ho, TallyResult.TotalVotes] at h1 h2 hy hn ha ⊢
    rw [h2, h1]
    rw [h32] at hy hn ha hw
    rw [if_neg (by rw [h64]; omega)]
  · obtain ⟨h1, hpos⟩ := CountVote_abstain_nil m vote hy hn ha hw ho hnil
    have h2 := subUint32_add _ _ ha hw h1
    rw [CountVote_abstain m vote ho]
    obtain ⟨t, d, e1, e2, s1, s2, s3, au, ⟨a, b, c, W, th⟩, st, re⟩ := m
    simp only [TextProposal.UndoCountVote, ho, TallyResult.TotalVotes] at h1 h2 hy hn ha ⊢
    rw [h2, h1]
    rw [h32] at hy hn ha hw
    rw [if_neg (by rw [h64]; omega)]
  · rw [CountVote_other m vote ho.1 ho.2.1 ho.2.2] at hnil
    simp at hnil

/-- C29 on the sample proposal: counting and then undoing a yes vote of weight 4 gives the
sample proposal back. -/
theorem UndoCountVote_undoes_witness :
    (sampleProposal.CountVote sampleVote).2 = none ∧
      ((sampleProposal.CountVote sampleVote).1.UndoCountVote sampleVote).2 = none ∧
      ((sampleProposal.CountVote sampleVote).1.UndoCountVote sampleVote).1 = sampleProposal :=
  ⟨by decide,
    (UndoCountVote_undoes sampleProposal sampleVote (by decide) (by decide) (by decide)
      (by decide) (by decide)).1,
    (UndoCountVote_undoes sampleProposal sampleVote (by decide) (by decide) (by decide)
      (by decide) (by decide)).2.1⟩

/-! ## Validation of thresholds and electorates -/

/-- C35: `Fraction.Validate` accepts a threshold exactly when it lies in `[1/2, 1]`.  For
all 32-bit `Numerator` and `Denominator`, the doubling in `uint64` is the exact double,
`Validate` returns nil if and only if `Numerator ≥ 1`, `Denominator ≥ 1`,
`2 * Numerator ≥ Denominator` and `Numerator ≤ Denominator`, and whatever else it returns
is an `ErrInvalidInput` error. -/
theorem Fraction_Validate_iff (m : Fraction) (hn : m.Numerator < uint32Size)
    (hd : m.Denominator < uint32Size) :
    (m.Numerator * 2) % uint64Size = 2 * m.Numerator ∧
      (m.Validate = none ↔
        (1 ≤ m.Numerator ∧ 1 ≤ m.Denominator ∧ m.Denominator ≤ 2 * m.Numerator ∧
          m.Numerator ≤ m.Denominator)) ∧
      (m.Validate ≠ none → ErrKind.ErrInvalidInput.Is m.Validate = true) := by
  obtain ⟨h32, h64⟩ := uint_sizes
  have hdouble : (m.Numerator * 2) % uint64Size = 2 * m.Numerator := by
    rw [h32] at hn
    rw [h64]
    omega
  refine ⟨hdouble, ?_, ?_⟩
  · unfold Fraction.Validate
    rw [hdouble]
    by_cases h1 : m.Numerator = 0
    · rw [if_pos h1]
      constructor
      · intro h
        cases h
      · intro h
        omega
    · rw [if_neg h1]
      by_cases h2 : m.Denominator = 0
      · rw [if_pos h2]
        constructor
        · intro h
          cases h
        · intro h
          omega
      · rw [if_neg h2]
        by_cases h3 : 2 * m.Numerator < m.Denominator
        · rw [if_pos h3]
          constructor
          · intro h
            cases h
          · intro h
            omega
        · rw [if_neg h3]
          by_cases h4 : m.Numerator > m.Denominator
          · rw [if_pos h4]
            constructor
            · intro h
              cases h
            · intro h
              omega
          · rw [if_neg h4]
            constructor
            · intro _
              omega
            · intro _
              rfl
  · unfold Fraction.Validate
    intro hne
    by_cases h1 : m.Numerator = 0
    · rw [if_pos h1]
      rfl
    · rw [if_neg h1] at hne ⊢
      by_cases h2 : m.Denominator = 0
      · rw [if_pos h2]
        rfl
      · rw [if_neg h2] at hne ⊢
        by_cases h3 : (m.Numerator * 2) % uint64Size < m.Denominator
        · rw [if_pos h3]
          rfl
        · rw [if_neg h3] at hne ⊢
          by_cases h4 : m.Numerator > m.Denominator
          · rw [if_pos h4]
            rfl
          · rw [if_neg h4] at hne
            exact absurd rfl hne

/-- C35 at the two ends of the interval and outside: 1/2 and 1/1 are accepted, 1/3 and
3/2 are rejected. -/
theorem Fraction_Validate_iff_witness :
    ((Fraction.mk 1 2).Validate = none ↔ (1 ≤ 1 ∧ 1 ≤ 2 ∧ 2 ≤ 2 * 1 ∧ 1 ≤ 2)) ∧
      (Fraction.mk 1 2).Validate = none ∧ (Fraction.mk 1 1).Validate = none ∧
      ErrKind.ErrInvalidInput.Is (Fraction.mk 1 3).Validate = true ∧
      ErrKind.ErrInvalidInput.Is (Fraction.mk 3 2).Validate = true :=
  ⟨(Fraction_Validate_iff (Fraction.mk 1 2) (by decide) (by decide)).2.1, by decide, by decide,
    by decide, by decide⟩

/-- An elector that passes `Elector.Validate` has a weight between 1 and `maxWeight`. -/
theorem Elector_Validate_weight (A : AddressOps) (v : Elector) (h : v.Validate A = none) :
    1 ≤ v.Weight ∧ v.Weight ≤ maxWeight := by
  unfold Elector.Validate at h
  by_cases h1 : v.Weight > maxWeight
  · rw [if_pos h1] at h
    cases h
  · rw [if_neg h1] at h
    by_cases h2 : v.Weight = 0
    · rw [if_pos h2] at h
      cases h
    · omega

/-- The loop of `Electorate.Validate`, when it runs to its end: every elector passed
`Elector.Validate`, no address string is in the map on entry or occurs twice, and
`totalWeight` has grown by the sum of the weights, modulo `2 ^ 64`. -/
theorem validateElectors_ok (A : AddressOps) :
    ∀ (l : List Elector) (total : Nat) (index : List String) (t : Nat),
      Electorate.validateElectors A l total index = (t, none) →
      (∀ v ∈ l, v.Validate A = none) ∧
      (∀ v ∈ l, A.String v.Address ∉ index) ∧
      (l.map (fun v => A.String v.Address)).Nodup ∧
      t = (total + (l.map (fun v => v.Weight)).sum) % uint64Size ∨
        (l = [] ∧ t = total) := by
  intro l
  induction l with
  | nil =>
    intro total index t h
    simp only [Electorate.validateElectors, Prod.mk.injEq, and_true] at h
    exact Or.inr ⟨rfl, h.symm⟩
  | cons v vs ih =>
    intro total index t h
    left
    unfold Electorate.validateElectors at h
    cases hv : v.Validate A with
    | some err =>
      rw [hv] at h
      simp at h
    | none =>
      rw [hv] at h
      simp only at h
      by_cases hdup : A.String v.Address ∈ index
      · rw [if_pos hdup] at h
        simp at h
      · rw [if_neg hdup] at h
        have hsum : ∀ s : Nat, ((total + v.Weight) % uint64Size + s) % uint64Size =
            (total + (v.Weight + s)) % uint64Size := by
          intro s
          rw [Nat.add_mod, Nat.mod_mod, ← Nat.add_mod, Nat.add_assoc]
        rcases ih _ _ t h with ⟨h1, h2, h3, h4⟩ | ⟨h1, h2⟩
        · refine ⟨?_, ?_, ?_, ?_⟩
          · intro x hx
            rcases List.mem_cons.mp hx with hx | hx
            · rw [hx]
              exact hv
            · exact h1 x hx
          · intro x hx
            rcases List.mem_cons.mp hx with hx | hx
            · rw [hx]
              exact hdup
            · exact fun hmem => h2 x hx (List.mem_cons_of_mem _ hmem)
          · rw [List.map_cons, List.nodup_cons]
            refine ⟨?_, h3⟩
            intro hmem
            obtain ⟨x, hx, hxe⟩ := List.mem_map.mp hmem
            exact h2 x hx (by rw [hxe]; exact List.mem_cons_self _ _)
          · rw [h4, List.map_cons, List.sum_cons]
            exact hsum _
        · subst h1
          refine ⟨?_, ?_, ?_, ?_⟩
          · intro x hx
            rcases List.mem_cons.mp hx with hx | hx
            · rw [hx]
              exact hv
            · simp at hx
          · intro x hx
            rcases List.mem_cons.mp hx with hx | hx
            · rw [hx]
              exact hdup
            · simp at hx
          · simp
          · rw [h2]
            simp

/-- C36: every `Electorate` accepted by `Electorate.Validate` has between 1 and 2000
electors, each with a weight between 1 and 65535, pairwise distinct elector addresses,
and a `TotalWeightElectorate` equal to the exact sum of the weights of the electors,
hence at most `2000 * 65535 = 131070000`; so for a tally with that total weight (and
32-bit yes counter, numerator and denominator) neither product of
`TallyResult.Accepted` overflows 64 bits, and `Accepted` is the comparison of the exact
products. -/
theorem Electorate_Validate_sound (A : AddressOps) (e : Electorate)
    (h : e.Validate A = none) :
    1 ≤ e.Electors.length ∧ e.Electors.length ≤ 2000 ∧
      (∀ v ∈ e.Electors, 1 ≤ v.Weight ∧ v.Weight ≤ 65535) ∧
      (e.Electors.map (fun v => v.Address)).Nodup ∧
      e.TotalWeightElectorate = (e.Electors.map (fun v => v.Weight)).sum ∧
      e.TotalWeightElectorate ≤ 131070000 ∧
      (∀ t : TallyResult, t.TotalWeightElectorate = e.TotalWeightElectorate →
        t.TotalYes < uint32Size → t.Threshold.Numerator < uint32Size →
        t.Threshold.Denominator < uint32Size →
        t.TotalYes * t.Threshold.Denominator < uint64Size ∧
        t.TotalWeightElectorate * t.Threshold.Numerator < uint64Size ∧
        (t.Accepted = true ↔ t.TotalYes * t.Threshold.Denominator >
          t.TotalWeightElectorate * t.Threshold.Numerator)) := by
  obtain ⟨h32, h64⟩ := uint_sizes
  have hmaxW : maxWeight = 65535 := by decide
  have hmaxE : maxElectors = 2000 := by decide
  unfold Electorate.Validate at h
  by_cases h1 : e.Electors.length = 0
  · rw [if_pos h1] at h
    cases h
  rw [if_neg h1] at h
  by_cases h2 : e.Electors.length > maxElectors
  · rw [if_pos h2] at h
    cases h
  rw [if_neg h2] at h
  by_cases h3 : validTitle e.Title = false
  · rw [if_pos h3] at h
    cases h
  rw [if_neg h3] at h
  cases hloop : Electorate.validateElectors A e.Electors 0 [] with
  | mk t err =>
    rw [hloop] at h
    cases err with
    | some err1 =>
      simp at h
    | none =>
      simp only at h
      by_cases h4 : e.TotalWeightElectorate ≠ t
      · rw [if_pos h4] at h
        cases h
      · have htot : e.TotalWeightElectorate = t := by
          by_contra hne
          exact h4 hne
        have hne : e.Electors ≠ [] := fun hnil => h1 (by rw [hnil]; rfl)
        rcases validateElectors_ok A e.Electors 0 [] t hloop with ⟨hv, _, hnd, ht⟩ | ⟨hnil, _⟩
        · have hw : ∀ v ∈ e.Electors, 1 ≤ v.Weight ∧ v.Weight ≤ 65535 := by
            intro v hvmem
            have := Elector_Validate_weight A v (hv v hvmem)
            rw [hmaxW] at this
            exact this
          have hsum : (e.Electors.map (fun v => v.Weight)).sum ≤ e.Electors.length * 65535 := by
            have := List.sum_le_card_nsmul (e.Electors.map (fun v => v.Weight)) 65535
              (by
                intro x hx
                obtain ⟨v, hvmem, rfl⟩ := List.mem_map.mp hx
                exact (hw v hvmem).2)
            simpa using this
          have hlen : e.Electors.length ≤ 2000 := by
            rw [hmaxE] at h2
            omega
          have hbound : (e.Electors.map (fun v => v.Weight)).sum ≤ 131070000 := by
            have : e.Electors.length * 65535 ≤ 2000 * 65535 := Nat.mul_le_mul_right _ hlen
            omega
          have hexact : e.TotalWeightElectorate = (e.Electors.map (fun v => v.Weight)).sum := by
            rw [htot, ht, Nat.zero_add, h64]
            omega
          have hdistinct : (e.Electors.map (fun v => v.Address)).Nodup := by
            have hcomp : e.Electors.map (fun v => A.String v.Address) =
                (e.Electors.map (fun v => v.Address)).map A.String := by
              rw [List.map_map]
              rfl
            rw [hcomp] at hnd
            exact List.Nodup.of_map _ hnd
          refine ⟨by omega, hlen, hw, hdistinct, hexact, by omega, ?_⟩
          intro tr htr hyes hnum hden
          have hleft : tr.TotalYes * tr.Threshold.Denominator < uint64Size := by
            have hmul := Nat.mul_lt_mul'' hyes hden
            have hsize : uint32Size * uint32Size = uint64Size := by decide
            rw [hsize] at hmul
            exact hmul
          have hright : tr.TotalWeightElectorate * tr.Threshold.Numerator < uint64Size := by
            have hle : tr.TotalWeightElectorate ≤ 131070000 := by
              rw [htr, hexact]
              exact hbound
            have hmul : tr.TotalWeightElectorate * tr.Threshold.Numerator ≤
                131070000 * uint32Size :=
              Nat.mul_le_mul hle (Nat.le_of_lt hnum)
            have hsize : 131070000 * uint32Size < uint64Size := by decide
            omega
          refine ⟨hleft, hright, ?_⟩
          unfold TallyResult.Accepted
          rw [Nat.mod_eq_of_lt hleft, Nat.mod_eq_of_lt hright]
          exact decide_eq_true_iff
        · exact absurd hnil hne

/-- C36 on an electorate of two electors with the weights 3 and 17 and a total weight
of 20. -/
theorem Electorate_Validate_sound_witness :
    sampleElectorate.Validate sampleAddressOps = none ∧
      1 ≤ sampleElectorate.Electors.length ∧ sampleElectorate.Electors.length ≤ 2000 ∧
      (sampleElectorate.Electors.map (fun v => v.Address)).Nodup ∧
      sampleElectorate.TotalWeightElectorate =
        (sampleElectorate.Electors.map (fun v => v.Weight)).sum :=
  ⟨by decide,
    (Electorate_Validate_sound sampleAddressOps sampleElectorate (by decide)).1,
    (Electorate_Validate_sound sampleAddressOps sampleElectorate (by decide)).2.1,
    (Electorate_Validate_sound sampleAddressOps sampleElectorate (by decide)).2.2.2.1,
    (Electorate_Validate_sound sampleAddressOps sampleElectorate (by decide)).2.2.2.2.1⟩

/-! ## Copies -/

/-- C37 fails in the code: `copy` into a slice made with length 0 copies nothing.  For
every `Electorate`, `Copy` keeps the `Title` but returns no electors at all, and for
every `TextProposal`, `Copy` returns an empty `ElectionRuleID` and an empty
`ElectorateID`; so the copy of the sample electorate (two electors) has no electors, and
the copy of the sample proposal has lost both ids. -/
theorem Copy_drops_lists :
    (∀ e : Electorate, e.Copy.Title = e.Title ∧ e.Copy.Electors = []) ∧
      (∀ p : TextProposal, p.Copy.ElectionRuleID = [] ∧ p.Copy.ElectorateID = []) ∧
      sampleElectorate.Electors.length = 2 ∧
      sampleElectorate.Copy.Electors.length = 0 ∧
      sampleElectorate.Copy.Electors ≠ sampleElectorate.Electors ∧
      sampleProposal.ElectionRuleID = [1] ∧ sampleProposal.Copy.ElectionRuleID = [] ∧
      sampleProposal.ElectorateID = [2] ∧ sampleProposal.Copy.ElectorateID = [] := by
  refine ⟨fun e => ⟨rfl, ?_⟩, fun p => ⟨?_, ?_⟩, by decide, by decide, by decide, by decide,
    by decide, by decide, by decide⟩
  · simp [Electorate.Copy, copySlice, makeSlice]
  · simp [TextProposal.Copy, copySlice, makeSlice]
  · simp [TextProposal.Copy, copySlice, makeSlice]

/-! ## The sanity checks of the vote counters -/

/-- The outcome of `UndoCountVote` for a yes vote. -/
theorem UndoCountVote_yes (m : TextProposal) (vote : Vote) (ho : vote.Voted = VoteOption.Yes) :
    (m.UndoCountVote vote).2 =
      if (({ m.VoteState with TotalYes :=
            (subUint32 m.VoteState.TotalYes vote.Elector.Weight) } : TallyResult).TotalVotes
          ≥ m.VoteState.TotalVotes)
        then some (errors.Wrap (errors.root ErrKind.ErrHuman) "sanity overflow check failed")
        else none := by
  simp only [TextProposal.UndoCountVote, ho]
  split <;> rfl

/-- The outcome of `UndoCountVote` for a no vote. -/
theorem UndoCountVote_no (m : TextProposal) (vote : Vote) (ho : vote.Voted = VoteOption.No) :
    (m.UndoCountVote vote).2 =
      if (({ m.VoteState with TotalNo :=
            (subUint32 m.VoteState.TotalNo vote.Elector.Weight) } : TallyResult).TotalVotes
          ≥ m.VoteState.TotalVotes)
        then some (errors.Wrap (errors.root ErrKind.ErrHuman) "sanity overflow check failed")
        else none := by
  simp only [TextProposal.UndoCountVote, ho]
  split <;> rfl

/-- The outcome of `UndoCountVote` for an abstention. -/
theorem UndoCountVote_abstain (m : TextProposal) (vote : Vote)
    (ho : vote.Voted = VoteOption.Abstain) :
    (m.UndoCountVote vote).2 =
      if (({ m.VoteState with TotalAbstain :=
            (subUint32 m.VoteState.TotalAbstain vote.Elector.Weight) } : TallyResult).TotalVotes
          ≥ m.VoteState.TotalVotes)
        then some (errors.Wrap (errors.root ErrKind.ErrHuman) "sanity overflow check failed")
        else none := by
  simp only [TextProposal.UndoCountVote, ho]
  split <;> rfl

/-- The outcome of `UndoCountVote` for any other vote option. -/
theorem UndoCountVote_other (m : TextProposal) (vote : Vote)
    (hy : vote.Voted ≠ VoteOption.Yes) (hn : vote.Voted ≠ VoteOption.No)
    (ha : vote.Voted ≠ VoteOption.Abstain) :
    m.UndoCountVote vote =
      (m, some (errors.Wrapf (errors.root ErrKind.ErrInvalidInput) "%q" [])) := by
  unfold TextProposal.UndoCountVote
  cases hv : vote.Voted with
  | Yes => exact absurd hv hy
  | No => exact absurd hv hn
  | Abstain => exact absurd hv ha
  | Invalid => rfl
  | Other c => rfl

/-- A `uint32` subtraction is below `2 ^ 32`. -/
theorem subUint32_lt (a b : Nat) : subUint32 a b < uint32Size := by
  unfold subUint32
  exact Nat.mod_lt _ (by decide)

/-- C38: the overflow sanity checks are exact.  For every proposal and vote with 32-bit
counters and weight, `CountVote` returns an error if and only if the vote option selects
no counter (it is not yes, no or abstain), or the elector weight is 0, or the selected
counter plus the weight is at least `2 ^ 32` (wrap-around); and `UndoCountVote` returns an
error if and only if the vote option selects no counter, or the weight is 0, or the
weight exceeds the selected counter (underflow). -/
theorem CountVote_error_iff (m : TextProposal) (vote : Vote)
    (hy : m.VoteState.TotalYes < uint32Size) (hn : m.VoteState.TotalNo < uint32Size)
    (ha : m.VoteState.TotalAbstain < uint32Size) (hw : vote.Elector.Weight < uint32Size) :
    ((m.CountVote vote).2 ≠ none ↔
        (m.VoteState.counter vote.Voted = none ∨ vote.Elector.Weight = 0 ∨
          ∃ c, m.VoteState.counter vote.Voted = some c ∧
            uint32Size ≤ c + vote.Elector.Weight)) ∧
      ((m.UndoCountVote vote).2 ≠ none ↔
        (m.VoteState.counter vote.Voted = none ∨ vote.Elector.Weight = 0 ∨
          ∃ c, m.VoteState.counter vote.Voted = some c ∧ c < vote.Elector.Weight)) := by
  obtain ⟨h32, h64⟩ := uint_sizes
  have hpos : 0 < uint32Size := by decide
  have hold := TotalVotes_eq m.VoteState hy hn ha
  have hadd : ∀ c rest : Nat, c < uint32Size →
      ((c + vote.Elector.Weight) % uint32Size + rest ≤ c + rest ↔
        (vote.Elector.Weight = 0 ∨ uint32Size ≤ c + vote.Elector.Weight)) := by
    intro c rest hc
    rw [h32] at hc hw ⊢
    omega
  have hsub : ∀ c rest : Nat, c < uint32Size →
      (subUint32 c vote.Elector.Weight + rest ≥ c + rest ↔
        (vote.Elector.Weight = 0 ∨ c < vote.Elector.Weight)) := by
    intro c rest hc
    unfold subUint32
    rw [h32] at hc hw ⊢
    omega
  have hif : ∀ (P : Prop) [Decidable P] (e : Error),
      ((if P then some e else none) ≠ none ↔ P) := by
    intro P _ e
    by_cases hP : P
    · simp [hP]
    · simp [hP]
  rcases VoteOption_cases vote.Voted with ho | ho | ho | ho
  · have hc : m.VoteState.counter vote.Voted = some m.VoteState.TotalYes := by rw [ho]; rfl
    constructor
    · rw [CountVote_yes m vote ho, hc]
      simp only
      rw [hif, TotalVotes_eq ({ m.VoteState with TotalYes :=
          (m.VoteState.TotalYes + vote.Elector.Weight) % uint32Size } : TallyResult)
        (Nat.mod_lt _ hpos) hn ha, hold]
      simp only
      have := hadd m.VoteState.TotalYes (m.VoteState.TotalNo + m.VoteState.TotalAbstain) hy
      simp only [Option.some.injEq, exists_eq_left', reduceCtorEq, false_or]
      rw [← this]
      omega
    · rw [UndoCountVote_yes m vote ho, hc]
      rw [hif, TotalVotes_eq ({ m.VoteState with TotalYes :=
          (subUint32 m.VoteState.TotalYes vote.Elector.Weight) } : TallyResult)
        (subUint32_lt _ _) hn ha, hold]
      simp only
      have := hsub m.VoteState.TotalYes (m.VoteState.TotalNo + m.VoteState.TotalAbstain) hy
      simp only [Option.some.injEq, exists_eq_left', reduceCtorEq, false_or]
      rw [← this]
      omega
  · have hc : m.VoteState.counter vote.Voted = some m.VoteState.TotalNo := by rw [ho]; rfl
    constructor
    · rw [CountVote_no m vote ho, hc]
      simp only
      rw [hif, TotalVotes_eq ({ m.VoteState with TotalNo :=
          (m.VoteState.TotalNo + vote.Elector.Weight) % uint32Size } : TallyResult)
        hy (Nat.mod_lt _ hpos) ha, hold]
      simp only
      have := hadd m.VoteState.TotalNo (m.VoteState.TotalYes + m.VoteState.TotalAbstain) hn
      simp only [Option.some.injEq, exists_eq_left', reduceCtorEq, false_or]
      rw [← this]
      omega
    · rw [UndoCountVote_no m vote ho, hc]
      rw [hif, TotalVotes_eq ({ m.VoteState with TotalNo :=
          (subUint32 m.VoteState.TotalNo vote.Elector.Weight) } : TallyResult)
        hy (subUint32_lt _ _) ha, hold]
      simp only
      have := hsub m.VoteState.TotalNo (m.VoteState.TotalYes + m.VoteState.TotalAbstain) hn
      simp only [Option.some.injEq, exists_eq_left', reduceCtorEq, false_or]
      rw [← this]
      omega
  · have hc : m.VoteState.counter vote.Voted = some m.VoteState.TotalAbstain := by
      rw [ho]; rfl
    constructor
    · rw [CountVote_abstain m vote ho, hc]
      simp only
      rw [hif, TotalVotes_eq ({ m.VoteState with TotalAbstain :=
          (m.VoteState.TotalAbstain + vote.Elector.Weight) % uint32Size } : TallyResult)
        hy hn (Nat.mod_lt _ hpos), hold]
      simp only
      have := hadd m.VoteState.TotalAbstain (m.VoteState.TotalYes + m.VoteState.TotalNo) ha
      simp only [Option.some.injEq, exists_eq_left', reduceCtorEq, false_or]
      rw [← this]
      omega
    · rw [UndoCountVote_abstain m vote ho, hc]
      rw [hif, TotalVotes_eq ({ m.VoteState with TotalAbstain :=
          (subUint32 m.VoteState.TotalAbstain vote.Elector.Weight) } : TallyResult)
        hy hn (subUint32_lt _ _), hold]
      simp only
      have := hsub m.VoteState.TotalAbstain (m.VoteState.TotalYes + m.VoteState.TotalNo) ha
      simp only [Option.some.injEq, exists_eq_left', reduceCtorEq, false_or]
      rw [← this]
      omega
  · have hc : m.VoteState.counter vote.Voted = none := by
      cases hv : vote.Voted with
      | Yes => exact absurd hv ho.1
      | No => exact absurd hv ho.2.1
      | Abstain => exact absurd hv ho.2.2
      | Invalid => rfl
      | Other c => rfl
    rw [CountVote_other m vote ho.1 ho.2.1 ho.2.2, UndoCountVote_other m vote ho.1 ho.2.1 ho.2.2,
      hc]
    simp

/-- C38 on the sample proposal (10 yes votes): a yes vote of weight 4 is counted without
error; a vote of weight 0 is turned down, and so is the undoing of a yes vote of weight
11, more than the yes counter holds. -/
theorem CountVote_error_iff_witness :
    ((sampleProposal.CountVote sampleVote).2 ≠ none ↔
        (sampleProposal.VoteState.counter sampleVote.Voted = none ∨
          sampleVote.Elector.Weight = 0 ∨
          ∃ c, sampleProposal.VoteState.counter sampleVote.Voted = some c ∧
            uint32Size ≤ c + sampleVote.Elector.Weight)) ∧
      (sampleProposal.CountVote sampleVote).2 = none ∧
      (sampleProposal.CountVote ⟨⟨[9], 0⟩, VoteOption.Yes⟩).2 ≠ none ∧
      (sampleProposal.UndoCountVote ⟨⟨[9], 11⟩, VoteOption.Yes⟩).2 ≠ none :=
  ⟨(CountVote_error_iff sampleProposal sampleVote (by decide) (by decide) (by decide)
      (by decide)).1, by decide, by decide, by decide⟩

end gov

namespace migration

open weave

/-! ## Versioned buckets -/

/-- The saves of `TestSchemaVersionedBucket`, in the order of the test, all of which
return nil but the refused one: `obj1` at version 1; `obj2` at version 1 (refused) and at
version 2; `obj12` (`Schema: 1, Cnt: 17`) at version 2, stored with schema 2 and
`Cnt` 19. -/
theorem Save_outdated_schema :
    (MyModel.bucket.Save (ensureSchemaVersion DB.empty 1).1 (bytesOf "schema_one")
        (MyModel.mk0 1 5)).map (fun r => r.err) = some none ∧
      (MyModel.bucket.Save MyModel.dbOne (bytesOf "schema_two")
        (MyModel.mk0 2 11)).map (fun r => r.err.map (fun e => e.kind)) =
        some (some ErrKind.ErrSchema) ∧
      (MyModel.bucket.Save (ensureSchemaVersion MyModel.dbOne 2).1 (bytesOf "schema_two")
        (MyModel.mk0 2 11)).map (fun r => r.err) = some none ∧
      (MyModel.bucket.Save MyModel.dbTwo (bytesOf "schema_one_2") (MyModel.mk0 1 17)).map
          (fun r => (r.err, r.obj.state, store.find (bytesOf "schema_one_2") r.db.records)) =
        some (none, (some 2, ⟨19, none⟩), some ⟨some ⟨2⟩, ⟨19, none⟩⟩) :=
  ⟨by decide, by decide, by decide, by decide⟩

/-- A record found under a key is an entry of the table. -/
theorem mem_of_find {α : Type} (k : Bytes) (x : α) (l : List (Bytes × α))
    (h : store.find k l = some x) : (k, x) ∈ l := by
  induction l with
  | nil => simp [store.find] at h
  | cons e l ih =>
    obtain ⟨k1, x1⟩ := e
    unfold store.find at h
    by_cases hk : k = k1
    · rw [if_pos hk] at h
      cases h
      rw [hk]
      exact List.mem_cons_self _ _
    · rw [if_neg hk] at h
      exact List.mem_cons_of_mem _ (ih h)

/-- The fetches of `TestSchemaVersionedBucket`, in the order of the test: before the bump
`schema_one` is returned with schema 1 and `Cnt` 5; after the bump and the save of
`obj2`, `schema_one` is returned with schema 2 and `Cnt` 7 and `schema_two` with schema 2
and `Cnt` 11. -/
theorem bucket_test_fetches :
    (MyModel.bucket.Get MyModel.dbOne (bytesOf "schema_one")).map
          (fun f => (outcome (f.obj, f.err), f.invoked)) =
        some ((some (some 1, ⟨5, none⟩), none), []) ∧
      (MyModel.bucket.Get MyModel.dbTwo (bytesOf "schema_one")).map
          (fun f => (outcome (f.obj, f.err), f.invoked)) =
        some ((some (some 2, ⟨7, none⟩), none), [2]) ∧
      (MyModel.bucket.Get (MyModel.bucket.afterGet MyModel.dbTwo (bytesOf "schema_one"))
          (bytesOf "schema_two")).map (fun f => (outcome (f.obj, f.err), f.invoked)) =
        some ((some (some 2, ⟨11, none⟩), none), []) :=
  ⟨by decide, by decide, by decide⟩

set_option maxRecDepth 100000 in
/-- The scans of `TestSchemaVersionedSerialModelBucketPrefixScan`, in the order of the
test: the saves all return nil; the forward scan yields `Cnt` 2, 6, 11, 16, each with
schema 2 and the sequence ids 1 to 4, and a further `LoadNext` returns `ErrIteratorDone`;
the reverse scan that follows yields 16, 11, 6, 2 and then `ErrIteratorDone`. -/
theorem PrefixScan_test :
    ((MySerialModel.bucket none).saveAll (ensureSchemaVersion DB.empty 1).1
        [MySerialModel.mk0 1 1, MySerialModel.mk0 1 5, MySerialModel.mk0 1 10,
          MySerialModel.mk0 1 15]).2 = [none, none, none, none] ∧
      ((MySerialModel.bucket none).loadMany 5 MySerialModel.dbScan
          ((MySerialModel.bucket none).PrefixScan MySerialModel.dbScan [] false)).map
          (fun r => r.2.2.map outcome) =
        some [(some (some 2, ⟨SequenceID 1, 2, none⟩), none),
          (some (some 2, ⟨SequenceID 2, 6, none⟩), none),
          (some (some 2, ⟨SequenceID 3, 11, none⟩), none),
          (some (some 2, ⟨SequenceID 4, 16, none⟩), none),
          (none, some ErrKind.ErrIteratorDone)] ∧
      (((MySerialModel.bucket none).loadMany 5 MySerialModel.dbScan
          ((MySerialModel.bucket none).PrefixScan MySerialModel.dbScan [] false)).bind
          (fun r => ((MySerialModel.bucket none).loadMany 5 r.1
            ((MySerialModel.bucket none).PrefixScan r.1 [] true)).map
              (fun r2 => r2.2.2.map outcome))) =
        some [(some (some 2, ⟨SequenceID 4, 16, none⟩), none),
          (some (some 2, ⟨SequenceID 3, 11, none⟩), none),
          (some (some 2, ⟨SequenceID 2, 6, none⟩), none),
          (some (some 2, ⟨SequenceID 1, 2, none⟩), none),
          (none, some ErrKind.ErrIteratorDone)] :=
  ⟨by decide, by decide, by decide⟩

/-- The reverse scan of `TestSchemaVersionedSerialModelBucketPrefixScan` on the store as
it is before the forward scan: the same records, 16, 11, 6, 2, then
`ErrIteratorDone`. -/
theorem PrefixScan_reverse_first :
    ((MySerialModel.bucket none).loadMany 5 MySerialModel.dbScan
        ((MySerialModel.bucket none).PrefixScan MySerialModel.dbScan [] true)).map
        (fun r => r.2.2.map outcome) =
      some [(some (some 2, ⟨SequenceID 4, 16, none⟩), none),
        (some (some 2, ⟨SequenceID 3, 11, none⟩), none),
        (some (some 2, ⟨SequenceID 2, 6, none⟩), none),
        (some (some 2, ⟨SequenceID 1, 2, none⟩), none),
        (none, some ErrKind.ErrIteratorDone)] := by
  decide

set_option maxRecDepth 100000 in
/-- The scans of `TestSchemaVersionedSerialModelBucketIndexScanUnique`: forward the
records with `Cnt` 2, 6, 11, 16 and the sequence ids 1 to 4, each at schema 2; then in
reverse the same records from the highest down. -/
theorem IndexScan_unique_test :
    ((MySerialModel.bucket (some MySerialModel.counterUnique)).loadMany 4
        MySerialModel.dbUnique
        ((MySerialModel.bucket (some MySerialModel.counterUnique)).IndexScan
          MySerialModel.dbUnique none false)).map (fun r => r.2.2.map outcome) =
      some [(some (some 2, ⟨SequenceID 1, 2, none⟩), none),
        (some (some 2, ⟨SequenceID 2, 6, none⟩), none),
        (some (some 2, ⟨SequenceID 3, 11, none⟩), none),
        (some (some 2, ⟨SequenceID 4, 16, none⟩), none)] ∧
    (((MySerialModel.bucket (some MySerialModel.counterUnique)).loadMany 4
        MySerialModel.dbUnique
        ((MySerialModel.bucket (some MySerialModel.counterUnique)).IndexScan
          MySerialModel.dbUnique none false)).bind
        (fun r => ((MySerialModel.bucket (some MySerialModel.counterUnique)).loadMany 4 r.1
          ((MySerialModel.bucket (some MySerialModel.counterUnique)).IndexScan r.1 none
            true)).map (fun r2 => r2.2.2.map outcome))) =
      some [(some (some 2, ⟨SequenceID 4, 16, none⟩), none),
        (some (some 2, ⟨SequenceID 3, 11, none⟩), none),
        (some (some 2, ⟨SequenceID 2, 6, none⟩), none),
        (some (some 2, ⟨SequenceID 1, 2, none⟩), none)] :=
  ⟨by decide, by decide⟩

end migration
